import Mathlib

/-!
# zmalloc: the size-accounting allocation layer (`src/zmalloc.c`)

A shallow embedding of the prefix-header build of `zmalloc.c` (the `#else`
branches of `HAVE_MALLOC_SIZE`), followed by theorems about it.

* `size_t` values are natural numbers reduced modulo `2 ^ (8 * sizeof(size_t))`
  at every place where the C code computes in `size_t`.
* Memory is a flat byte store `address ↦ byte`; the size header is the
  `sizeof(size_t)` bytes at the raw block address.
* The backend allocator (`malloc`, `calloc`, `realloc`, `free`) is external to
  the file.  Each call of a zmalloc function that reaches the backend takes the
  value the backend returns (`0` is `NULL`) as an extra argument; the backend
  keeps a table of its live blocks.
* The process state also carries a log of backend calls and of OOM-handler
  invocations, so that statements about "which calls were made" can be phrased.
* A call ends by returning, by `abort()` (the default OOM handler), or by the
  store through a null pointer that follows an OOM handler that returns.
* The resident-set probe of the `HAVE_PROC_STAT` build takes what `open` and
  `read` return and the bytes at `buf` as arguments; `float` values are the
  numbers of IEEE 754 binary32: conversions to `float` and divisions round to
  nearest, ties to even.

The definitions come first; the lemmas and the theorems C1 to C20 follow.
-/

namespace Zmalloc

/-! ## Platform parameters -/

/-- The ABI parameters the file depends on: the `sizeof` values it uses and
whether the Sun/SPARC branch of the `PREFIX_SIZE` definition is selected. -/
structure Platform where
  sizeof_size_t : Nat
  sizeof_long : Nat
  sizeof_long_long : Nat
  sun_or_sparc : Bool
  deriving DecidableEq, Repr

/-- Number of distinct `size_t` values: arithmetic on `size_t` is modulo this. -/
def Platform.SIZE_MOD (pf : Platform) : Nat := 2 ^ (8 * pf.sizeof_size_t)

/-- `PREFIX_SIZE` in the build without `HAVE_MALLOC_SIZE` (lines 60-68):
`sizeof(long long)` on Sun/SPARC, `sizeof(size_t)` elsewhere. -/
def PREFIX_SIZE (pf : Platform) : Nat :=
  if pf.sun_or_sparc then pf.sizeof_long_long else pf.sizeof_size_t

/-- The usual 64-bit Unix ABI: `size_t`, `long` and `long long` are 8 bytes. -/
def lp64 : Platform :=
  { sizeof_size_t := 8, sizeof_long := 8, sizeof_long_long := 8, sun_or_sparc := false }

/-- The usual 32-bit ABI: `size_t` and `long` are 4 bytes, `long long` is 8. -/
def ilp32 : Platform :=
  { sizeof_size_t := 4, sizeof_long := 4, sizeof_long_long := 8, sun_or_sparc := false }

/-- The assumptions on the ABI under which the prefix scheme is coherent:
`sizeof(long)` is a power of two that divides `sizeof(size_t)`, which in turn
divides `sizeof(long long)`; all are positive.  Every ABI the file is built
for satisfies this. -/
structure Platform.Valid (pf : Platform) : Prop where
  size_t_pos : 0 < pf.sizeof_size_t
  long_pow : ∃ a, pf.sizeof_long = 2 ^ a
  long_dvd : pf.sizeof_long ∣ pf.sizeof_size_t
  size_t_dvd : pf.sizeof_size_t ∣ pf.sizeof_long_long
  long_long_pos : 0 < pf.sizeof_long_long

/-! ## Process state -/

/-- The value of the function pointer `zmalloc_oom_handler`: either the static
default, or a handler installed by the application.  An installed handler is
identified by a tag and by whether it returns to its caller. -/
inductive OomHandler where
  | zmalloc_default_oom
  | custom (tag : Nat) (returns : Bool)
  deriving DecidableEq, Repr

/-- Observable actions: calls into the backend allocator, invocations of the
OOM handler, and the diagnostic line the default handler prints. -/
inductive Event where
  | malloc (size ret : Nat)
  | calloc (nmemb size ret : Nat)
  | realloc (ptr size ret : Nat)
  | free (ptr : Nat)
  | oom (h : OomHandler) (size : Nat)
  | stderr_out_of_memory (size : Nat)
  deriving DecidableEq, Repr

/-- The file-level variables of `zmalloc.c` together with the part of the
process they act on: byte memory, the backend's table of live blocks
(`(base address, size in bytes)`), and the log of observable actions. -/
structure State where
  used_memory : Nat
  zmalloc_thread_safe : Bool
  zmalloc_oom_handler : OomHandler
  mem : Nat → Nat
  blocks : List (Nat × Nat)
  trace : List Event

/-- The state at process start (lines 153-165): counter zero, thread safety
off, default handler, nothing allocated. -/
def State.init : State :=
  { used_memory := 0, zmalloc_thread_safe := false,
    zmalloc_oom_handler := OomHandler.zmalloc_default_oom,
    mem := fun _ => 0, blocks := [], trace := [] }

/-- How a call of a pointer-returning function ends: it returns a pointer, the
process is terminated by `abort()`, or it stores through a null pointer
(undefined behaviour; no result is attributed to the call). -/
inductive Result where
  | ret (p : Nat)
  | aborted
  | null_store
  deriving DecidableEq, Repr

/-- The end of a call: how it ended and the state at that point. -/
structure Outcome where
  res : Result
  st : State

/-! ## Memory access -/

/-- The store `*((size_t*)a) = v`: the `sizeof(size_t)` bytes at `a` receive
the little-endian digits of `v` (the value is truncated to `size_t`). -/
def store_size_t (pf : Platform) (m : Nat → Nat) (a v : Nat) : Nat → Nat :=
  fun x => if a ≤ x ∧ x < a + pf.sizeof_size_t then (v / 256 ^ (x - a)) % 256 else m x

/-- The load `*((size_t*)a)`: the value of the `sizeof(size_t)` bytes at `a`. -/
def load_size_t (pf : Platform) (m : Nat → Nat) (a : Nat) : Nat :=
  ((List.range pf.sizeof_size_t).map (fun i => (m (a + i) % 256) * 256 ^ i)).sum

/-! ## The backend allocator -/

/-- Backend `malloc(size)` returning `ret`: on success the block is entered in
the table; its bytes are left as they are (uninitialised). -/
def malloc (s : State) (size ret : Nat) : State :=
  { s with
    blocks := if ret = 0 then s.blocks else (ret, size) :: s.blocks
    trace := s.trace ++ [Event.malloc size ret] }

/-- Backend `calloc(nmemb, size)` returning `ret`: as `malloc`, and the block
is zero-filled. -/
def calloc (s : State) (nmemb size ret : Nat) : State :=
  { s with
    mem := if ret = 0 then s.mem
           else fun x => if ret ≤ x ∧ x < ret + nmemb * size then 0 else s.mem x
    blocks := if ret = 0 then s.blocks else (ret, nmemb * size) :: s.blocks
    trace := s.trace ++ [Event.calloc nmemb size ret] }

/-- Size the backend recorded for the live block based at `ptr` (`0` if there
is none). -/
def block_size (blocks : List (Nat × Nat)) (ptr : Nat) : Nat :=
  match blocks.find? (fun b => b.1 == ptr) with
  | some b => b.2
  | none => 0

/-- Backend `realloc(ptr, size)` returning `ret`: on failure nothing changes;
on success the first `min(old size, size)` bytes of the old block are the first
bytes of the new one, the old block is released and the new one entered. -/
def realloc (s : State) (ptr size ret : Nat) : State :=
  { s with
    mem := if ret = 0 then s.mem
           else fun x =>
             if ret ≤ x ∧ x < ret + min (block_size s.blocks ptr) size
             then s.mem (ptr + (x - ret)) else s.mem x
    blocks := if ret = 0 then s.blocks
              else (ret, size) :: s.blocks.filter (fun b => b.1 != ptr)
    trace := s.trace ++ [Event.realloc ptr size ret] }

/-- Backend `free(ptr)`: the block is released. -/
def free (s : State) (ptr : Nat) : State :=
  { s with
    blocks := s.blocks.filter (fun b => b.1 != ptr)
    trace := s.trace ++ [Event.free ptr] }

/-! ## The counter macros (lines 83-151) -/

/-- The statement
`if (_n&(sizeof(long)-1)) _n += sizeof(long)-(_n&(sizeof(long)-1));`
that occurs in `update_zmalloc_stat_alloc`, `update_zmalloc_stat_free` and
`zmalloc_size`, as a function of `_n`; the addition is in `size_t`. -/
def pad_to_long (pf : Platform) (_n : Nat) : Nat :=
  if _n &&& (pf.sizeof_long - 1) ≠ 0 then
    (_n + (pf.sizeof_long - (_n &&& (pf.sizeof_long - 1)))) % pf.SIZE_MOD
  else _n

/-- The macro `update_zmalloc_stat_add`: `used_memory += __n` under the mutex
(or as one atomic add). -/
def update_zmalloc_stat_add (pf : Platform) (s : State) (__n : Nat) : State :=
  { s with used_memory := (s.used_memory + __n) % pf.SIZE_MOD }

/-- The macro `update_zmalloc_stat_sub`: `used_memory -= __n` under the mutex
(or as one atomic subtract). -/
def update_zmalloc_stat_sub (pf : Platform) (s : State) (__n : Nat) : State :=
  { s with used_memory := (s.used_memory + pf.SIZE_MOD - __n % pf.SIZE_MOD) % pf.SIZE_MOD }

/-- The macro `update_zmalloc_stat_alloc` (lines 118-139). -/
def update_zmalloc_stat_alloc (pf : Platform) (s : State) (__n : Nat) : State :=
  let _n := __n % pf.SIZE_MOD
  let _n := pad_to_long pf _n
  if s.zmalloc_thread_safe then
    update_zmalloc_stat_add pf s _n
  else
    { s with used_memory := (s.used_memory + _n) % pf.SIZE_MOD }

/-- The macro `update_zmalloc_stat_free` (lines 143-151). -/
def update_zmalloc_stat_free (pf : Platform) (s : State) (__n : Nat) : State :=
  let _n := __n % pf.SIZE_MOD
  let _n := pad_to_long pf _n
  if s.zmalloc_thread_safe then
    update_zmalloc_stat_sub pf s _n
  else
    { s with used_memory := (s.used_memory + pf.SIZE_MOD - _n % pf.SIZE_MOD) % pf.SIZE_MOD }

/-! ## The OOM handler -/

/-- The call `zmalloc_oom_handler(size)`.  The default handler prints its
diagnostic and aborts; an installed handler is logged and returns or not as it
is declared.  The result says whether control comes back to the caller. -/
def call_oom_handler (s : State) (size : Nat) : Bool × State :=
  match s.zmalloc_oom_handler with
  | OomHandler.zmalloc_default_oom =>
      (false, { s with trace := s.trace ++
          [Event.oom OomHandler.zmalloc_default_oom size, Event.stderr_out_of_memory size] })
  | OomHandler.custom tag returns =>
      (returns, { s with trace := s.trace ++ [Event.oom (OomHandler.custom tag returns) size] })

/-! ## The public functions -/

/-- The function `zmalloc` (lines 180-212); `ret` is what the backend `malloc`
returns.  When the handler returns after a failed allocation, the next
statement stores through the null pointer. -/
def zmalloc (pf : Platform) (s : State) (size : Nat) (ret : Nat) : Outcome :=
  let s1 := malloc s ((size + PREFIX_SIZE pf) % pf.SIZE_MOD) ret
  let ptr := ret
  if ptr = 0 then
    let r := call_oom_handler s1 size
    if r.1 then ⟨Result.null_store, r.2⟩ else ⟨Result.aborted, r.2⟩
  else
    let s2 := { s1 with mem := store_size_t pf s1.mem ptr size }
    let s3 := update_zmalloc_stat_alloc pf s2 (size + PREFIX_SIZE pf)
    ⟨Result.ret (ptr + PREFIX_SIZE pf), s3⟩

/-- The function `zcalloc` (lines 219-234); `ret` is what the backend `calloc`
returns. -/
def zcalloc (pf : Platform) (s : State) (size : Nat) (ret : Nat) : Outcome :=
  let s1 := calloc s 1 ((size + PREFIX_SIZE pf) % pf.SIZE_MOD) ret
  let ptr := ret
  if ptr = 0 then
    let r := call_oom_handler s1 size
    if r.1 then ⟨Result.null_store, r.2⟩ else ⟨Result.aborted, r.2⟩
  else
    let s2 := { s1 with mem := store_size_t pf s1.mem ptr size }
    let s3 := update_zmalloc_stat_alloc pf s2 (size + PREFIX_SIZE pf)
    ⟨Result.ret (ptr + PREFIX_SIZE pf), s3⟩

/-- The function `zrealloc` (lines 241-276); `ret` is what the backend call
(`malloc` when `ptr` is null, `realloc` otherwise) returns. -/
def zrealloc (pf : Platform) (s : State) (ptr size : Nat) (ret : Nat) : Outcome :=
  if ptr = 0 then zmalloc pf s size ret
  else
    let realptr := ptr - PREFIX_SIZE pf
    let oldsize := load_size_t pf s.mem realptr
    let s1 := realloc s realptr ((size + PREFIX_SIZE pf) % pf.SIZE_MOD) ret
    let newptr := ret
    if newptr = 0 then
      let r := call_oom_handler s1 size
      if r.1 then ⟨Result.null_store, r.2⟩ else ⟨Result.aborted, r.2⟩
    else
      let s2 := { s1 with mem := store_size_t pf s1.mem newptr size }
      let s3 := update_zmalloc_stat_free pf s2 oldsize
      let s4 := update_zmalloc_stat_alloc pf s3 size
      ⟨Result.ret (newptr + PREFIX_SIZE pf), s4⟩

/-- The function `zmalloc_size` (lines 282-289). -/
def zmalloc_size (pf : Platform) (s : State) (ptr : Nat) : Nat :=
  let realptr := ptr - PREFIX_SIZE pf
  let size := load_size_t pf s.mem realptr
  let size := pad_to_long pf size
  (size + PREFIX_SIZE pf) % pf.SIZE_MOD

/-- The function `zfree` (lines 296-314). -/
def zfree (pf : Platform) (s : State) (ptr : Nat) : State :=
  if ptr = 0 then s
  else
    let realptr := ptr - PREFIX_SIZE pf
    let oldsize := load_size_t pf s.mem realptr
    let s1 := update_zmalloc_stat_free pf s (oldsize + PREFIX_SIZE pf)
    free s1 realptr

/-- The function `zmalloc_used_memory` (lines 331-348). -/
def zmalloc_used_memory (s : State) : Nat :=
  if s.zmalloc_thread_safe then s.used_memory else s.used_memory

/-- The function `zmalloc_enable_thread_safeness` (lines 350-352). -/
def zmalloc_enable_thread_safeness (s : State) : State :=
  { s with zmalloc_thread_safe := true }

/-- The function `zmalloc_set_oom_handler` (lines 354-356). -/
def zmalloc_set_oom_handler (s : State) (oom_handler : OomHandler) : State :=
  { s with zmalloc_oom_handler := oom_handler }

/-! ## Accounting helpers -/

/-- Distance from `y` up to the next multiple of `sizeof(long)`. -/
def slack (pf : Platform) (y : Nat) : Nat :=
  if y % pf.sizeof_long = 0 then 0 else pf.sizeof_long - y % pf.sizeof_long

/-- What `zmalloc` adds to, and `zfree` subtracts from, the counter for a block
whose header holds `h`: the padded value of `h + PREFIX_SIZE`. -/
def accounted (pf : Platform) (h : Nat) : Nat :=
  pad_to_long pf ((h + PREFIX_SIZE pf) % pf.SIZE_MOD)

/-- The OOM-handler invocations recorded in a log, oldest first, each with the
handler that ran and the argument it received. -/
def oom_calls (t : List Event) : List (OomHandler × Nat) :=
  t.filterMap (fun e => match e with
    | Event.oom h size => some (h, size)
    | _ => none)

/-- The caller storing the bytes `data` at the addresses from `p` onwards. -/
def write_bytes (s : State) (p : Nat) (data : List Nat) : State :=
  { s with mem := fun x => if p ≤ x ∧ x < p + data.length then data.getD (x - p) 0 else s.mem x }

/-! ## Call sequences -/

/-- One call of the allocation interface, together with the value the backend
returns to the call that reaches it. -/
inductive Call where
  | zmalloc (size ret : Nat)
  | zcalloc (size ret : Nat)
  | zrealloc (ptr size ret : Nat)
  | zfree (ptr : Nat)
  deriving DecidableEq, Repr

/-- The state in which a call returned to its caller, if it did. -/
def Outcome.returned (o : Outcome) : Option State :=
  match o.res with
  | Result.ret _ => some o.st
  | _ => none

/-- Perform one call: the state afterwards if the call returns, `none` if the
process does not survive it. -/
def Call.exec (pf : Platform) (s : State) : Call → Option State
  | Call.zmalloc size ret => (Zmalloc.zmalloc pf s size ret).returned
  | Call.zcalloc size ret => (Zmalloc.zcalloc pf s size ret).returned
  | Call.zrealloc ptr size ret => (Zmalloc.zrealloc pf s ptr size ret).returned
  | Call.zfree ptr => some (Zmalloc.zfree pf s ptr)

/-- Perform a sequence of calls one after the other. -/
def run (pf : Platform) : State → List Call → Option State
  | s, [] => some s
  | s, c :: cs =>
    match c.exec pf s with
    | some s1 => run pf s1 cs
    | none => none

/-- The payload pointers of the live allocations: every raw block of the
backend, advanced by `PREFIX_SIZE`. -/
def live_payloads (pf : Platform) (s : State) : List Nat :=
  s.blocks.map (fun b => b.1 + PREFIX_SIZE pf)

/-- Two backend blocks `(base, size)` are apart: different bases, and the
extents do not overlap, each block counted as holding at least one `size_t`
word (an allocator never hands out less than that). -/
def Apart (pf : Platform) (x y : Nat × Nat) : Prop :=
  x.1 ≠ y.1 ∧
  (x.1 + max x.2 pf.sizeof_size_t ≤ y.1 ∨ y.1 + max y.2 pf.sizeof_size_t ≤ x.1)

/-- The backend's answer `ret` to a request for `size` bytes is a successful
one: non-null, and the new block is apart from every live block, except the
block `old` being resized, if any. -/
def backend_ok (pf : Platform) (s : State) (old : Option Nat) (size ret : Nat) : Prop :=
  ret ≠ 0 ∧ ∀ b ∈ s.blocks, some b.1 ≠ old → Apart pf (ret, size) b

/-- A call is well-formed in a state: the backend succeeds, and `zrealloc` and
`zfree` are applied to a live payload pointer. -/
def Call.ok (pf : Platform) (s : State) : Call → Prop
  | Call.zmalloc size ret => backend_ok pf s none ((size + PREFIX_SIZE pf) % pf.SIZE_MOD) ret
  | Call.zcalloc size ret => backend_ok pf s none ((size + PREFIX_SIZE pf) % pf.SIZE_MOD) ret
  | Call.zrealloc ptr size ret =>
      ptr ∈ live_payloads pf s ∧
      backend_ok pf s (some (ptr - PREFIX_SIZE pf)) ((size + PREFIX_SIZE pf) % pf.SIZE_MOD) ret
  | Call.zfree ptr => ptr ∈ live_payloads pf s

/-- A sequence of calls is well-formed from a state: each call is well-formed
in the state the previous calls produced. -/
def WellFormed (pf : Platform) : State → List Call → Prop
  | _, [] => True
  | s, c :: cs =>
    c.ok pf s ∧
    match c.exec pf s with
    | some s1 => WellFormed pf s1 cs
    | none => True

/-- Whether a call is `zmalloc` or `zfree`. -/
def Call.is_malloc_or_free : Call → Bool
  | Call.zmalloc _ _ => true
  | Call.zfree _ => true
  | _ => false

/-- The sum of what was accounted for each live block, read off the headers. -/
def accounted_sum (pf : Platform) (s : State) : Nat :=
  (s.blocks.map (fun b => accounted pf (load_size_t pf s.mem b.1))).sum

/-- The heap is consistent: the bases of the live blocks are non-null, the
blocks are pairwise apart, and each block carries the header the allocation
functions wrote, the request that, with `PREFIX_SIZE` added in `size_t`, gave
the block its size. -/
def HeapOK (pf : Platform) (s : State) : Prop :=
  (∀ b ∈ s.blocks, b.1 ≠ 0) ∧ s.blocks.Pairwise (Apart pf) ∧
  (∀ b ∈ s.blocks, (load_size_t pf s.mem b.1 + PREFIX_SIZE pf) % pf.SIZE_MOD = b.2)

/-- The heap is consistent and the counter is `u0` plus what is accounted for
the live blocks. -/
def HeapInv (pf : Platform) (u0 : Nat) (s : State) : Prop :=
  HeapOK pf s ∧ s.used_memory = (u0 + accounted_sum pf s) % pf.SIZE_MOD

instance Apart.decidable (pf : Platform) (x y : Nat × Nat) : Decidable (Apart pf x y) := by
  unfold Apart
  infer_instance

instance backend_ok.decidable (pf : Platform) (s : State) (old : Option Nat) (size ret : Nat) :
    Decidable (backend_ok pf s old size ret) := by
  unfold backend_ok
  infer_instance

instance Call.ok.decidable (pf : Platform) (s : State) (c : Call) : Decidable (c.ok pf s) := by
  cases c <;> unfold Call.ok <;> infer_instance

instance HeapOK.decidable (pf : Platform) (s : State) : Decidable (HeapOK pf s) := by
  unfold HeapOK
  infer_instance

/-- Well-formedness of a call sequence can be checked by running it. -/
def WellFormed.decide (pf : Platform) : (s : State) → (calls : List Call) →
    Decidable (WellFormed pf s calls)
  | _, [] => isTrue trivial
  | s, c :: cs =>
    match h : c.exec pf s with
    | some s1 =>
      match Call.ok.decidable pf s c, WellFormed.decide pf s1 cs with
      | isTrue h1, isTrue h2 => isTrue (by unfold WellFormed; rw [h]; exact ⟨h1, h2⟩)
      | isFalse h1, _ => isFalse (by unfold WellFormed; exact fun hw => h1 hw.1)
      | _, isFalse h2 => isFalse (by unfold WellFormed; rw [h]; exact fun hw => h2 hw.2)
    | none =>
      match Call.ok.decidable pf s c with
      | isTrue h1 => isTrue (by unfold WellFormed; rw [h]; exact ⟨h1, trivial⟩)
      | isFalse h1 => isFalse (by unfold WellFormed; exact fun hw => h1 hw.1)

instance WellFormed.decidable (pf : Platform) (s : State) (calls : List Call) :
    Decidable (WellFormed pf s calls) :=
  WellFormed.decide pf s calls

/-! ## Resident set size and fragmentation (lines 358-439) -/

/-- A value of type `float`: a finite number, an infinity, or not-a-number.  A
finite value is the rational it stands for; the values that occur are those
`FloatVal.round` produces, the numbers of IEEE 754 binary32. -/
inductive FloatVal where
  | finite (q : ℚ)
  | pos_inf
  | neg_inf
  | nan
  deriving DecidableEq

/-- Rounding of a non-negative rational to an integer, to nearest, a tie going
to the even neighbour. -/
def round_half_even (x : ℚ) : Int :=
  if x - ⌊x⌋ < 1 / 2 then ⌊x⌋
  else if 1 / 2 < x - ⌊x⌋ then ⌊x⌋ + 1
  else if ⌊x⌋ % 2 = 0 then ⌊x⌋ else ⌊x⌋ + 1

/-- Rounding of a rational to `float` (IEEE 754 binary32, round to nearest, ties
to even): 24 significant bits, exponents from -126 (below that the spacing stays
`2^-149`) to 127, and infinity from `2^128` on. -/
def FloatVal.round (q : ℚ) : FloatVal :=
  if q = 0 then FloatVal.finite 0
  else
    let e := max (Int.log 2 |q|) (-126)
    let quantum : ℚ := 2 ^ (e - 23)
    let r : ℚ := (round_half_even (|q| / quantum) : ℚ) * quantum
    if 2 ^ 128 ≤ r then (if 0 < q then FloatVal.pos_inf else FloatVal.neg_inf)
    else FloatVal.finite (if 0 < q then r else -r)

/-- Conversion of a `size_t` to `float`: the value is rounded to 24 significant
bits, so `(float)16777217` is `16777216`. -/
def FloatVal.of_size_t (n : Nat) : FloatVal := FloatVal.round n

/-- Floating-point division: a zero divisor gives an infinity for a non-zero
dividend and not-a-number for a zero dividend; the quotient of two finite values
is rounded to `float`. -/
def FloatVal.div : FloatVal → FloatVal → FloatVal
  | FloatVal.finite a, FloatVal.finite b =>
      if b = 0 then
        if a = 0 then FloatVal.nan
        else if 0 < a then FloatVal.pos_inf else FloatVal.neg_inf
      else FloatVal.round (a / b)
  | FloatVal.finite _, FloatVal.pos_inf => FloatVal.finite 0
  | FloatVal.finite _, FloatVal.neg_inf => FloatVal.finite 0
  | FloatVal.pos_inf, FloatVal.finite b =>
      if b < 0 then FloatVal.neg_inf else FloatVal.pos_inf
  | FloatVal.neg_inf, FloatVal.finite b =>
      if b < 0 then FloatVal.pos_inf else FloatVal.neg_inf
  | _, _ => FloatVal.nan

/-- The function `zmalloc_get_rss` of the build with neither `HAVE_PROC_STAT`
nor `HAVE_TASKINFO` (lines 426-433).  It only reads the counter. -/
def zmalloc_get_rss_fallback (s : State) : Nat :=
  zmalloc_used_memory s

/-- The function `zmalloc_get_fragmentation_ratio` (lines 437-439):
`(float)rss/zmalloc_used_memory()`.  The cast rounds `rss` to `float`, the usual
arithmetic conversions round the counter to `float`, and the division is
carried out in `float` (`FLT_EVAL_METHOD` 0). -/
def zmalloc_get_fragmentation_ratio (s : State) (rss : Nat) : FloatVal :=
  FloatVal.div (FloatVal.of_size_t rss) (FloatVal.of_size_t (zmalloc_used_memory s))

/-! ## Sequences with counter reads and the thread-safety switch -/

/-- One step of a client: a call of the allocation interface, a call of
`zmalloc_used_memory()`, or a call of `zmalloc_enable_thread_safeness()`. -/
inductive Op where
  | call (c : Call)
  | used_memory
  | enable_thread_safeness
  deriving DecidableEq, Repr

/-- What the client sees of one step: how an allocating call ended, that
`zfree` returned, or the value `zmalloc_used_memory()` returned. -/
inductive Obs where
  | result (r : Result)
  | freed
  | value (v : Nat)
  deriving DecidableEq, Repr

/-- How a call ends and the state it leaves; `none` for `zfree`, which returns
nothing. -/
def Call.outcome (pf : Platform) (s : State) : Call → Option Result × State
  | Call.zmalloc size ret =>
      (some (Zmalloc.zmalloc pf s size ret).res, (Zmalloc.zmalloc pf s size ret).st)
  | Call.zcalloc size ret =>
      (some (Zmalloc.zcalloc pf s size ret).res, (Zmalloc.zcalloc pf s size ret).st)
  | Call.zrealloc ptr size ret =>
      (some (Zmalloc.zrealloc pf s ptr size ret).res, (Zmalloc.zrealloc pf s ptr size ret).st)
  | Call.zfree ptr => (none, Zmalloc.zfree pf s ptr)

/-- Run a client: the observations in order and the final state.  The run ends
with the first call that does not return. -/
def observe (pf : Platform) : State → List Op → List Obs × State
  | s, [] => ([], s)
  | s, Op.enable_thread_safeness :: ops => observe pf (zmalloc_enable_thread_safeness s) ops
  | s, Op.used_memory :: ops =>
      (Obs.value (zmalloc_used_memory s) :: (observe pf s ops).1, (observe pf s ops).2)
  | s, Op.call c :: ops =>
      match c.outcome pf s with
      | (none, s1) => (Obs.freed :: (observe pf s1 ops).1, (observe pf s1 ops).2)
      | (some (Result.ret p), s1) =>
          (Obs.result (Result.ret p) :: (observe pf s1 ops).1, (observe pf s1 ops).2)
      | (some r, s1) => ([Obs.result r], s1)

/-- The same client with every `zmalloc_enable_thread_safeness()` call left out. -/
def without_enable (ops : List Op) : List Op :=
  ops.filter (fun o => o != Op.enable_thread_safeness)

/-- Two states agree on everything but the thread-safety flag. -/
def same_but_flag (s t : State) : Prop :=
  s.used_memory = t.used_memory ∧ s.zmalloc_oom_handler = t.zmalloc_oom_handler ∧
  s.mem = t.mem ∧ s.blocks = t.blocks ∧ s.trace = t.trace

/-! ## String duplication (lines 319-329) -/

/-- The library function `strlen` on the string at address `a`: the number of
bytes before the first NUL.  At most `fuel` bytes are examined; `none` if no
NUL is among them. -/
def strlen (m : Nat → Nat) (a : Nat) : Nat → Option Nat
  | 0 => none
  | fuel + 1 => if m a = 0 then some 0 else (strlen m (a + 1) fuel).map (fun k => k + 1)

/-- The library function `memcpy(dst, src, n)` on non-overlapping regions. -/
def memcpy (m : Nat → Nat) (dst src n : Nat) : Nat → Nat :=
  fun x => if dst ≤ x ∧ x < dst + n then m (src + (x - dst)) else m x

/-- The function `zstrdup` (lines 319-329); `s` is the address of the string,
`ret` what the backend `malloc` returns, `fuel` bounds the scan of `strlen`.
The result is `none` only if `strlen` finds no NUL within `fuel` bytes. -/
def zstrdup (pf : Platform) (st : State) (s : Nat) (fuel : Nat) (ret : Nat) : Option Outcome :=
  match strlen st.mem s fuel with
  | none => none
  | some len =>
    let l := (len + 1) % pf.SIZE_MOD
    let o := zmalloc pf st l ret
    match o.res with
    | Result.ret p => some ⟨Result.ret p, { o.st with mem := memcpy o.st.mem p s l }⟩
    | r => some ⟨r, o.st⟩

/-! ## The client's ledger of live allocations -/

/-- The client's bookkeeping after one more call.  An entry `(raw, size)` says
that the backend returned `raw` to the most recent successful call that
produced the payload pointer `raw + PREFIX_SIZE`, and that `size` was the size
argument of that call.  `zfree(ptr)` and `zrealloc(ptr, ..)` retire the entry
of `ptr`. -/
def ledger_step (pf : Platform) (L : List (Nat × Nat)) : Call → List (Nat × Nat)
  | Call.zmalloc size ret => (ret, size) :: L
  | Call.zcalloc size ret => (ret, size) :: L
  | Call.zrealloc ptr size ret =>
      (ret, size) :: L.filter (fun e => e.1 + PREFIX_SIZE pf != ptr)
  | Call.zfree ptr => L.filter (fun e => e.1 + PREFIX_SIZE pf != ptr)

/-- The ledger after a sequence of calls. -/
def ledger (pf : Platform) : List (Nat × Nat) → List Call → List (Nat × Nat)
  | L, [] => L
  | L, c :: cs => ledger pf (ledger_step pf L c) cs

/-- The backend block that belongs to a ledger entry: same raw pointer, and
the size the backend was asked for, `size + PREFIX_SIZE` in `size_t`. -/
def ledger_block (pf : Platform) (e : Nat × Nat) : Nat × Nat :=
  (e.1, (e.2 + PREFIX_SIZE pf) % pf.SIZE_MOD)

/-- The backend call a well-formed call of the interface is expected to make:
`zrealloc` and `zfree` pass the payload pointer moved back by `PREFIX_SIZE`. -/
def backend_event (pf : Platform) : Call → Event
  | Call.zmalloc size ret => Event.malloc ((size + PREFIX_SIZE pf) % pf.SIZE_MOD) ret
  | Call.zcalloc size ret => Event.calloc 1 ((size + PREFIX_SIZE pf) % pf.SIZE_MOD) ret
  | Call.zrealloc ptr size ret =>
      Event.realloc (ptr - PREFIX_SIZE pf) ((size + PREFIX_SIZE pf) % pf.SIZE_MOD) ret
  | Call.zfree ptr => Event.free (ptr - PREFIX_SIZE pf)

/-! ## Subtractions from the counter -/

/-- The size accounted for a block whose header holds `h`, computed in the
integers, without wrap-around: `h` rounded up to a multiple of `sizeof(long)`,
plus `PREFIX_SIZE`. -/
def ideal_size (pf : Platform) (h : Nat) : Nat := h + slack pf h + PREFIX_SIZE pf

/-- The sum of the unwrapped accounted sizes of the live blocks. -/
def ideal_sum (pf : Platform) (s : State) : Nat :=
  (s.blocks.map (fun b => ideal_size pf (load_size_t pf s.mem b.1))).sum

/-- The sum of `zmalloc_size(p)` over the live payload pointers. -/
def accounted_total (pf : Platform) (s : State) : Nat :=
  ((live_payloads pf s).map (zmalloc_size pf s)).sum

/-- The value a call subtracts from `used_memory`: the `_n` that
`update_zmalloc_stat_free` computes from its argument, which is
`oldsize+PREFIX_SIZE` in `zfree` and `oldsize` in `zrealloc`.  It is 0 for a
call that subtracts nothing. -/
def Call.subtrahend (pf : Platform) (s : State) : Call → Nat
  | Call.zfree ptr =>
      if ptr = 0 then 0
      else pad_to_long pf
        ((load_size_t pf s.mem (ptr - PREFIX_SIZE pf) + PREFIX_SIZE pf) % pf.SIZE_MOD)
  | Call.zrealloc ptr _ ret =>
      if ptr = 0 ∨ ret = 0 then 0
      else pad_to_long pf (load_size_t pf s.mem (ptr - PREFIX_SIZE pf) % pf.SIZE_MOD)
  | _ => 0

/-- No subtraction of the run wraps below zero: each call subtracts no more
than the counter holds when the call is made. -/
def NoUnderflow (pf : Platform) : State → List Call → Prop
  | _, [] => True
  | s, c :: cs =>
    c.subtrahend pf s ≤ s.used_memory ∧
    match c.exec pf s with
    | some s1 => NoUnderflow pf s1 cs
    | none => True

/-- At every point of the run the unwrapped accounted sizes of the live blocks
sum to less than `2^w`. -/
def Bounded (pf : Platform) : State → List Call → Prop
  | s, [] => ideal_sum pf s < pf.SIZE_MOD
  | s, c :: cs =>
    ideal_sum pf s < pf.SIZE_MOD ∧
    match c.exec pf s with
    | some s1 => Bounded pf s1 cs
    | none => True

/-- Whether no subtraction wraps can be checked by running the calls. -/
def NoUnderflow.decide (pf : Platform) : (s : State) → (calls : List Call) →
    Decidable (NoUnderflow pf s calls)
  | _, [] => isTrue trivial
  | s, c :: cs =>
    match h : c.exec pf s with
    | some s1 =>
      match Nat.decLe (c.subtrahend pf s) s.used_memory, NoUnderflow.decide pf s1 cs with
      | isTrue h1, isTrue h2 => isTrue (by unfold NoUnderflow; rw [h]; exact ⟨h1, h2⟩)
      | isFalse h1, _ => isFalse (by unfold NoUnderflow; exact fun hw => h1 hw.1)
      | _, isFalse h2 => isFalse (by unfold NoUnderflow; rw [h]; exact fun hw => h2 hw.2)
    | none =>
      match Nat.decLe (c.subtrahend pf s) s.used_memory with
      | isTrue h1 => isTrue (by unfold NoUnderflow; rw [h]; exact ⟨h1, trivial⟩)
      | isFalse h1 => isFalse (by unfold NoUnderflow; exact fun hw => h1 hw.1)

instance NoUnderflow.decidable (pf : Platform) (s : State) (calls : List Call) :
    Decidable (NoUnderflow pf s calls) :=
  NoUnderflow.decide pf s calls

/-- Whether the bound holds along the run can be checked by running the calls. -/
def Bounded.decide (pf : Platform) : (s : State) → (calls : List Call) →
    Decidable (Bounded pf s calls)
  | s, [] => Nat.decLt (ideal_sum pf s) pf.SIZE_MOD
  | s, c :: cs =>
    match h : c.exec pf s with
    | some s1 =>
      match Nat.decLt (ideal_sum pf s) pf.SIZE_MOD, Bounded.decide pf s1 cs with
      | isTrue h1, isTrue h2 => isTrue (by unfold Bounded; rw [h]; exact ⟨h1, h2⟩)
      | isFalse h1, _ => isFalse (by unfold Bounded; exact fun hw => h1 hw.1)
      | _, isFalse h2 => isFalse (by unfold Bounded; rw [h]; exact fun hw => h2 hw.2)
    | none =>
      match Nat.decLt (ideal_sum pf s) pf.SIZE_MOD with
      | isTrue h1 => isTrue (by unfold Bounded; rw [h]; exact ⟨h1, trivial⟩)
      | isFalse h1 => isFalse (by unfold Bounded; exact fun hw => h1 hw.1)

instance Bounded.decidable (pf : Platform) (s : State) (calls : List Call) :
    Decidable (Bounded pf s calls) :=
  Bounded.decide pf s calls

/-! ## The `/proc/<pid>/stat` probe (lines 374-404) -/

/-- The library function `strchr(s, c)` for a non-NUL `c`, with a string given
by the bytes from its address on: the rest of the string from the first `c`,
or `none` (a null pointer) when the terminating NUL, or the end of the bytes
given, comes first. -/
def strchr (s : List Nat) (c : Nat) : Option (List Nat) :=
  match s with
  | [] => none
  | b :: t => if b = c then some (b :: t) else if b = 0 then none else strchr t c

/-- The loop `while(p && count--) { p = strchr(p,' '); if (p) p++; }`, started
with `count` on the pointer `p`. -/
def skip_fields : Nat → Option (List Nat) → Option (List Nat)
  | 0, p => p
  | _ + 1, none => none
  | count + 1, some s => skip_fields count ((strchr s 32).map List.tail)

/-- The predicate `isspace` of the C locale. -/
def isspace (c : Nat) : Bool := c == 32 || (9 ≤ c && c ≤ 13)

/-- The predicate `isdigit`. -/
def isdigit (c : Nat) : Bool := 48 ≤ c && c ≤ 57

/-- The digit loop of `strtoll` in base 10: the value of the longest prefix of
decimal digits, continuing from `acc`. -/
def digits_value : List Nat → Nat → Nat
  | [], acc => acc
  | c :: cs, acc => if isdigit c then digits_value cs (acc * 10 + (c - 48)) else acc

/-- The largest `long long`. -/
def LLONG_MAX (pf : Platform) : Int := 2 ^ (8 * pf.sizeof_long_long - 1) - 1

/-- The smallest `long long`. -/
def LLONG_MIN (pf : Platform) : Int := - 2 ^ (8 * pf.sizeof_long_long - 1)

/-- The library function `strtoll(s, NULL, 10)` on the bytes of a string: white
space is skipped, a sign is accepted, the longest run of digits is converted,
anything after it is ignored; no digits give 0; a value out of range gives
`LLONG_MAX` or `LLONG_MIN`. -/
def strtoll (pf : Platform) (s : List Nat) : Int :=
  let t := s.dropWhile isspace
  if t.head? = some 45 then max (-(digits_value t.tail 0 : Int)) (LLONG_MIN pf)
  else if t.head? = some 43 then min (digits_value t.tail 0 : Int) (LLONG_MAX pf)
  else min (digits_value t 0 : Int) (LLONG_MAX pf)

/-- The function `zmalloc_get_rss` of the build with `HAVE_PROC_STAT` (lines
374-404).  `page` is the value of `sysconf(_SC_PAGESIZE)`, `fd` what `open`
returns, `nread` what `read` returns, and `buf` the bytes in memory from the
start of `buf` on after the `read`: the bytes read, followed by whatever the
memory held before (the code does not terminate what it read). -/
def zmalloc_get_rss_proc_stat (pf : Platform) (page : Nat) (fd nread : Int)
    (buf : List Nat) : Nat :=
  if fd = -1 then 0
  else if nread ≤ 0 then 0
  else
    match skip_fields 23 (some buf) with
    | none => 0
    | some p =>
      match strchr p 32 with
      | none => 0
      | some x =>
        let field := p.take (p.length - x.length)
        let rss := (strtoll pf field % (pf.SIZE_MOD : Int)).toNat
        (rss * page) % pf.SIZE_MOD

/-- The value of a string of decimal digits, most significant digit first. -/
def decimal_value (field : List Nat) : Nat :=
  Nat.ofDigits 10 (field.reverse.map (fun c => c - 48))

/-- The text `"a a a ... a "` of `k` one-letter fields, each followed by a
space. -/
def sample_fields (k : Nat) : List Nat := (List.replicate k [97, 32]).flatten

/-! ## Memory lemmas -/

theorem SIZE_MOD_eq (pf : Platform) : pf.SIZE_MOD = 256 ^ pf.sizeof_size_t := by
  unfold Platform.SIZE_MOD
  rw [pow_mul]
  norm_num

theorem SIZE_MOD_pos (pf : Platform) : 0 < pf.SIZE_MOD := by
  unfold Platform.SIZE_MOD
  positivity

theorem digits_sum (v : Nat) : ∀ k : Nat,
    ((List.range k).map (fun i => (v / 256 ^ i % 256) * 256 ^ i)).sum = v % 256 ^ k := by
  intro k
  induction k with
  | zero => simp [Nat.mod_one]
  | succ k ih =>
    rw [List.range_succ, List.map_append, List.sum_append, ih, Nat.mod_pow_succ]
    simp [Nat.mul_comm]

theorem load_congr (pf : Platform) (m m' : Nat → Nat) (b : Nat)
    (h : ∀ i, i < pf.sizeof_size_t → m' (b + i) = m (b + i)) :
    load_size_t pf m' b = load_size_t pf m b := by
  unfold load_size_t
  congr 1
  apply List.map_congr_left
  intro i hi
  rw [h i (List.mem_range.mp hi)]

theorem load_store_same (pf : Platform) (m : Nat → Nat) (a v : Nat) :
    load_size_t pf (store_size_t pf m a v) a = v % pf.SIZE_MOD := by
  rw [SIZE_MOD_eq, ← digits_sum v pf.sizeof_size_t]
  unfold load_size_t
  congr 1
  apply List.map_congr_left
  intro i hi
  have hi' : i < pf.sizeof_size_t := List.mem_range.mp hi
  simp [store_size_t, hi']

theorem load_store_disjoint (pf : Platform) (m : Nat → Nat) (a v b : Nat)
    (h : a + pf.sizeof_size_t ≤ b ∨ b + pf.sizeof_size_t ≤ a) :
    load_size_t pf (store_size_t pf m a v) b = load_size_t pf m b := by
  apply load_congr
  intro i hi
  unfold store_size_t
  rw [if_neg]
  omega

theorem bytes_sum_lt (f : Nat → Nat) : ∀ k : Nat,
    ((List.range k).map (fun i => (f i % 256) * 256 ^ i)).sum < 256 ^ k := by
  intro k
  induction k with
  | zero => simp
  | succ k ih =>
    rw [List.range_succ, List.map_append, List.sum_append]
    have h1 : f k % 256 < 256 := Nat.mod_lt _ (by norm_num)
    have h2 : f k % 256 * 256 ^ k ≤ 255 * 256 ^ k := Nat.mul_le_mul_right _ (by omega)
    simp only [List.map_cons, List.map_nil, List.sum_cons, List.sum_nil, Nat.add_zero]
    rw [pow_succ]
    omega

theorem load_lt (pf : Platform) (m : Nat → Nat) (a : Nat) :
    load_size_t pf m a < pf.SIZE_MOD := by
  rw [SIZE_MOD_eq]
  exact bytes_sum_lt (fun i => m (a + i)) pf.sizeof_size_t

/-! ## Arithmetic of the padding -/

theorem pad_to_long_lt (pf : Platform) (x : Nat) (hx : x < pf.SIZE_MOD) :
    pad_to_long pf x < pf.SIZE_MOD := by
  unfold pad_to_long
  split_ifs
  · exact Nat.mod_lt _ (SIZE_MOD_pos pf)
  · exact hx

theorem accounted_lt (pf : Platform) (h : Nat) : accounted pf h < pf.SIZE_MOD :=
  pad_to_long_lt pf _ (Nat.mod_lt _ (SIZE_MOD_pos pf))

theorem pad_to_long_eq (pf : Platform) (a : Nat) (hL : pf.sizeof_long = 2 ^ a) (x : Nat)
    (hx : x < pf.SIZE_MOD) : pad_to_long pf x = (x + slack pf x) % pf.SIZE_MOD := by
  unfold pad_to_long slack
  rw [hL, Nat.and_pow_two_sub_one_eq_mod]
  by_cases h1 : x % 2 ^ a = 0
  · simp [h1, Nat.mod_eq_of_lt hx]
  · simp [h1]

theorem Platform.Valid.long_dvd_PREFIX_SIZE {pf : Platform} (hv : pf.Valid) :
    pf.sizeof_long ∣ PREFIX_SIZE pf := by
  unfold PREFIX_SIZE
  split_ifs
  · exact dvd_trans hv.long_dvd hv.size_t_dvd
  · exact hv.long_dvd

theorem Platform.Valid.size_t_le_PREFIX_SIZE {pf : Platform} (hv : pf.Valid) :
    pf.sizeof_size_t ≤ PREFIX_SIZE pf := by
  unfold PREFIX_SIZE
  split_ifs
  · exact Nat.le_of_dvd hv.long_long_pos hv.size_t_dvd
  · exact le_rfl

theorem Platform.Valid.long_dvd_mod {pf : Platform} (hv : pf.Valid) :
    pf.sizeof_long ∣ pf.SIZE_MOD := by
  obtain ⟨a, ha⟩ := hv.long_pow
  have h1 : pf.sizeof_long ≤ pf.sizeof_size_t := Nat.le_of_dvd hv.size_t_pos hv.long_dvd
  have h2 : a < 2 ^ a := Nat.lt_two_pow a
  unfold Platform.SIZE_MOD
  rw [ha]
  apply pow_dvd_pow
  omega

theorem slack_add_PREFIX_SIZE {pf : Platform} (hv : pf.Valid) (h : Nat) :
    slack pf ((h + PREFIX_SIZE pf) % pf.SIZE_MOD) = slack pf h := by
  unfold slack
  rw [Nat.mod_mod_of_dvd _ hv.long_dvd_mod]
  obtain ⟨k, hk⟩ := hv.long_dvd_PREFIX_SIZE
  rw [hk, Nat.add_mul_mod_self_left]

theorem slack_mod {pf : Platform} (hv : pf.Valid) (h : Nat) :
    slack pf (h % pf.SIZE_MOD) = slack pf h := by
  unfold slack
  rw [Nat.mod_mod_of_dvd _ hv.long_dvd_mod]

/-- On a valid platform the amount accounted for a block equals the padded
header plus the prefix, in `size_t` arithmetic. -/
theorem accounted_eq {pf : Platform} (hv : pf.Valid) (h : Nat) :
    accounted pf h = (pad_to_long pf (h % pf.SIZE_MOD) + PREFIX_SIZE pf) % pf.SIZE_MOD := by
  obtain ⟨a, ha⟩ := hv.long_pow
  have hM := SIZE_MOD_pos pf
  unfold accounted
  rw [pad_to_long_eq pf a ha _ (Nat.mod_lt _ hM), pad_to_long_eq pf a ha _ (Nat.mod_lt _ hM),
    slack_add_PREFIX_SIZE hv, slack_mod hv]
  have e1 : (h + PREFIX_SIZE pf) % pf.SIZE_MOD + slack pf h
      ≡ h + PREFIX_SIZE pf + slack pf h [MOD pf.SIZE_MOD] :=
    (Nat.mod_modEq _ _).add_right _
  have e2 : (h % pf.SIZE_MOD + slack pf h) % pf.SIZE_MOD + PREFIX_SIZE pf
      ≡ h + slack pf h + PREFIX_SIZE pf [MOD pf.SIZE_MOD] :=
    ((Nat.mod_modEq _ _).trans ((Nat.mod_modEq _ _).add_right _)).add_right _
  have e3 : h + PREFIX_SIZE pf + slack pf h = h + slack pf h + PREFIX_SIZE pf := by omega
  exact (e1.trans (e3 ▸ e2.symm))

/-! ## What each function does to the state -/

theorem update_zmalloc_stat_alloc_eq (pf : Platform) (s : State) (n : Nat) :
    update_zmalloc_stat_alloc pf s n =
      { s with used_memory := (s.used_memory + pad_to_long pf (n % pf.SIZE_MOD)) % pf.SIZE_MOD } := by
  unfold update_zmalloc_stat_alloc update_zmalloc_stat_add
  split_ifs <;> rfl

theorem update_zmalloc_stat_free_eq (pf : Platform) (s : State) (n : Nat) :
    update_zmalloc_stat_free pf s n =
      { s with used_memory :=
          (s.used_memory + pf.SIZE_MOD - pad_to_long pf (n % pf.SIZE_MOD) % pf.SIZE_MOD)
            % pf.SIZE_MOD } := by
  unfold update_zmalloc_stat_free update_zmalloc_stat_sub
  split_ifs <;> rfl

theorem zmalloc_success (pf : Platform) (s : State) (n r : Nat) (hr : r ≠ 0) :
    zmalloc pf s n r =
      ⟨Result.ret (r + PREFIX_SIZE pf),
        { s with
          used_memory := (s.used_memory + accounted pf n) % pf.SIZE_MOD
          mem := store_size_t pf s.mem r n
          blocks := (r, (n + PREFIX_SIZE pf) % pf.SIZE_MOD) :: s.blocks
          trace := s.trace ++ [Event.malloc ((n + PREFIX_SIZE pf) % pf.SIZE_MOD) r] }⟩ := by
  simp [zmalloc, hr, update_zmalloc_stat_alloc_eq, malloc, accounted]

theorem zcalloc_success (pf : Platform) (s : State) (n r : Nat) (hr : r ≠ 0) :
    zcalloc pf s n r =
      ⟨Result.ret (r + PREFIX_SIZE pf),
        { s with
          used_memory := (s.used_memory + accounted pf n) % pf.SIZE_MOD
          mem := store_size_t pf
            (fun x => if r ≤ x ∧ x < r + (n + PREFIX_SIZE pf) % pf.SIZE_MOD then 0 else s.mem x) r n
          blocks := (r, (n + PREFIX_SIZE pf) % pf.SIZE_MOD) :: s.blocks
          trace := s.trace ++ [Event.calloc 1 ((n + PREFIX_SIZE pf) % pf.SIZE_MOD) r] }⟩ := by
  simp [zcalloc, hr, update_zmalloc_stat_alloc_eq, calloc, accounted]

theorem zrealloc_success (pf : Platform) (s : State) (p n r : Nat) (hp : p ≠ 0) (hr : r ≠ 0) :
    zrealloc pf s p n r =
      ⟨Result.ret (r + PREFIX_SIZE pf),
        { s with
          used_memory :=
            ((s.used_memory + pf.SIZE_MOD
                - pad_to_long pf (load_size_t pf s.mem (p - PREFIX_SIZE pf) % pf.SIZE_MOD)
                    % pf.SIZE_MOD) % pf.SIZE_MOD
              + pad_to_long pf (n % pf.SIZE_MOD)) % pf.SIZE_MOD
          mem := store_size_t pf
            (fun x =>
              if r ≤ x ∧ x < r + min (block_size s.blocks (p - PREFIX_SIZE pf))
                  ((n + PREFIX_SIZE pf) % pf.SIZE_MOD)
              then s.mem (p - PREFIX_SIZE pf + (x - r)) else s.mem x) r n
          blocks := (r, (n + PREFIX_SIZE pf) % pf.SIZE_MOD)
            :: s.blocks.filter (fun b => b.1 != p - PREFIX_SIZE pf)
          trace := s.trace ++
            [Event.realloc (p - PREFIX_SIZE pf) ((n + PREFIX_SIZE pf) % pf.SIZE_MOD) r] }⟩ := by
  simp [zrealloc, hp, hr, update_zmalloc_stat_alloc_eq, update_zmalloc_stat_free_eq, realloc]

theorem zfree_live (pf : Platform) (s : State) (p : Nat) (hp : p ≠ 0) :
    zfree pf s p =
      { s with
        used_memory :=
          (s.used_memory + pf.SIZE_MOD
            - accounted pf (load_size_t pf s.mem (p - PREFIX_SIZE pf)) % pf.SIZE_MOD) % pf.SIZE_MOD
        blocks := s.blocks.filter (fun b => b.1 != p - PREFIX_SIZE pf)
        trace := s.trace ++ [Event.free (p - PREFIX_SIZE pf)] } := by
  simp [zfree, hp, update_zmalloc_stat_free_eq, free, accounted]

theorem zmalloc_used_memory_eq (s : State) : zmalloc_used_memory s = s.used_memory := by
  unfold zmalloc_used_memory
  split_ifs <;> rfl

/-! ## Size queries -/

theorem lp64_valid : lp64.Valid :=
  ⟨by decide, ⟨3, by decide⟩, by decide, by decide, by decide⟩

theorem ilp32_valid : ilp32.Valid :=
  ⟨by decide, ⟨2, by decide⟩, by decide, by decide, by decide⟩

theorem zmalloc_size_after_zmalloc (pf : Platform) (s : State) (n r : Nat) (hr : r ≠ 0) :
    zmalloc_size pf (zmalloc pf s n r).st (r + PREFIX_SIZE pf) =
      (pad_to_long pf (n % pf.SIZE_MOD) + PREFIX_SIZE pf) % pf.SIZE_MOD := by
  rw [zmalloc_success pf s n r hr]
  simp [zmalloc_size, load_store_same]

theorem modEq_of_zmod (M a b : Nat) (h : (a : ZMod M) = (b : ZMod M)) : a % M = b % M :=
  (ZMod.natCast_eq_natCast_iff a b M).mp h

theorem dvd_pad_to_long {pf : Platform} (hv : pf.Valid) (x : Nat) (hx : x < pf.SIZE_MOD) :
    pf.sizeof_long ∣ pad_to_long pf x := by
  obtain ⟨a, ha⟩ := hv.long_pow
  rw [pad_to_long_eq pf a ha x hx]
  apply (Nat.dvd_mod_iff hv.long_dvd_mod).mpr
  unfold slack
  have hL : 0 < pf.sizeof_long := by rw [ha]; positivity
  split_ifs with h
  · simpa using Nat.dvd_of_mod_eq_zero h
  · have h1 : x % pf.sizeof_long < pf.sizeof_long := Nat.mod_lt _ hL
    have h2 : x + (pf.sizeof_long - x % pf.sizeof_long)
        = pf.sizeof_long * (x / pf.sizeof_long + 1) := by
      have := Nat.div_add_mod x pf.sizeof_long
      rw [Nat.mul_add, Nat.mul_one]
      omega
    rw [h2]
    exact Nat.dvd_mul_right _ _

/-- C3, the claim as stated fails: on the 64-bit ABI the request `2^64 - 1` is
served (the backend is asked for 7 bytes), `zmalloc` returns, and the size
reported for the returned pointer is 8, far below the request. -/
theorem zmalloc_size_below_request :
    lp64.Valid ∧ 2 ^ 64 - 1 < lp64.SIZE_MOD ∧
    (zmalloc lp64 State.init (2 ^ 64 - 1) 4096).res = Result.ret 4104 ∧
    zmalloc_size lp64 (zmalloc lp64 State.init (2 ^ 64 - 1) 4096).st 4104 = 8 ∧
    ¬ (2 ^ 64 - 1 ≤ zmalloc_size lp64 (zmalloc lp64 State.init (2 ^ 64 - 1) 4096).st 4104) := by
  exact ⟨lp64_valid, by decide, by decide, by decide, by decide⟩

/-- C3, amended: whenever `zmalloc(n)` returns `p`, `zmalloc_size(p)` is a
multiple of `sizeof(long)`; and when rounding `n` up to a multiple of
`sizeof(long)` and adding `PREFIX_SIZE` does not exceed the range of `size_t`,
`zmalloc_size(p)` is exactly that sum, hence at least `n`. -/
theorem zmalloc_size_ge_and_aligned (pf : Platform) (hv : pf.Valid) (s : State) (n r p : Nat)
    (hn : n < pf.SIZE_MOD) (hret : (zmalloc pf s n r).res = Result.ret p) :
    pf.sizeof_long ∣ zmalloc_size pf (zmalloc pf s n r).st p ∧
    (n + slack pf n + PREFIX_SIZE pf < pf.SIZE_MOD →
      zmalloc_size pf (zmalloc pf s n r).st p = n + slack pf n + PREFIX_SIZE pf ∧
      n ≤ zmalloc_size pf (zmalloc pf s n r).st p) := by
  have hr : r ≠ 0 := by
    intro h0
    subst h0
    simp only [zmalloc, if_true] at hret
    split_ifs at hret
  have hp : p = r + PREFIX_SIZE pf := by
    rw [zmalloc_success pf s n r hr] at hret
    simpa using hret.symm
  subst hp
  rw [zmalloc_size_after_zmalloc pf s n r hr, Nat.mod_eq_of_lt hn]
  obtain ⟨a, ha⟩ := hv.long_pow
  constructor
  · apply (Nat.dvd_mod_iff hv.long_dvd_mod).mpr
    exact Nat.dvd_add (dvd_pad_to_long hv n hn) hv.long_dvd_PREFIX_SIZE
  · intro hfit
    have h1 : n + slack pf n < pf.SIZE_MOD := by omega
    rw [pad_to_long_eq pf a ha n hn, Nat.mod_eq_of_lt h1, Nat.mod_eq_of_lt hfit]
    exact ⟨rfl, by omega⟩

theorem zmalloc_size_ge_and_aligned_witness :
    (5 < ilp32.SIZE_MOD ∧ (zmalloc ilp32 State.init 5 64).res = Result.ret 68) ∧
    (4 ∣ zmalloc_size ilp32 (zmalloc ilp32 State.init 5 64).st 68 ∧
    (5 + slack ilp32 5 + PREFIX_SIZE ilp32 < ilp32.SIZE_MOD →
      zmalloc_size ilp32 (zmalloc ilp32 State.init 5 64).st 68
        = 5 + slack ilp32 5 + PREFIX_SIZE ilp32 ∧
      5 ≤ zmalloc_size ilp32 (zmalloc ilp32 State.init 5 64).st 68)) :=
  ⟨⟨by decide, by decide⟩,
    zmalloc_size_ge_and_aligned ilp32 ilp32_valid State.init 5 64 68 (by decide) (by decide)⟩

/-- C4, the claim as stated fails: with 8-byte words and the prefix header,
`zmalloc(10)` yields an allocation whose reported size is 24 (the padded
payload, 16, plus the 8-byte prefix), and the counter rises by 24, not 16. -/
theorem zmalloc_ten_is_not_sixteen :
    (zmalloc lp64 State.init 10 4096).res = Result.ret 4104 ∧
    zmalloc_size lp64 (zmalloc lp64 State.init 10 4096).st 4104 ≠ 16 ∧
    zmalloc_used_memory (zmalloc lp64 State.init 10 4096).st
      ≠ zmalloc_used_memory State.init + 16 := by
  refine ⟨by decide, by decide, by decide⟩

/-- C4, amended: in the prefix-header build with `sizeof(long) = sizeof(size_t)
= PREFIX_SIZE = 8`, a successful `zmalloc(10)` returns `p` with
`zmalloc_size(p) = 24`, and `zmalloc_used_memory()` afterwards is the previous
value plus 24 (in `size_t` arithmetic). -/
theorem zmalloc_ten_accounts_24 (pf : Platform) (s : State) (r : Nat)
    (hW : pf.sizeof_size_t = 8) (hL : pf.sizeof_long = 8) (hP : PREFIX_SIZE pf = 8)
    (hr : r ≠ 0) :
    (zmalloc pf s 10 r).res = Result.ret (r + 8) ∧
    zmalloc_size pf (zmalloc pf s 10 r).st (r + 8) = 24 ∧
    zmalloc_used_memory (zmalloc pf s 10 r).st = (zmalloc_used_memory s + 24) % 2 ^ 64 := by
  have hM : pf.SIZE_MOD = 2 ^ 64 := by unfold Platform.SIZE_MOD; rw [hW]
  have h1 := zmalloc_size_after_zmalloc pf s 10 r hr
  rw [hP] at h1
  refine ⟨?_, ?_, ?_⟩
  · rw [zmalloc_success pf s 10 r hr, hP]
  · rw [h1]
    simp only [pad_to_long, hM, hL]
    decide
  · rw [zmalloc_success pf s 10 r hr, zmalloc_used_memory_eq, zmalloc_used_memory_eq]
    simp only [accounted, pad_to_long, hM, hL, hP]
    congr 1

theorem zmalloc_ten_accounts_24_witness :
    (4096 ≠ 0) ∧
    ((zmalloc lp64 State.init 10 4096).res = Result.ret (4096 + 8) ∧
    zmalloc_size lp64 (zmalloc lp64 State.init 10 4096).st (4096 + 8) = 24 ∧
    zmalloc_used_memory (zmalloc lp64 State.init 10 4096).st
      = (zmalloc_used_memory State.init + 24) % 2 ^ 64) :=
  ⟨by decide, zmalloc_ten_accounts_24 lp64 State.init 4096 rfl rfl rfl (by decide)⟩

/-- C7: `zfree(NULL)` returns at once.  The whole process state (counter, OOM
handler, thread-safety flag, memory, the backend's block table and the log of
backend calls) is the same afterwards, so `zmalloc_used_memory()` is unchanged
and no backend `free` has been issued. -/
theorem zfree_null_noop (pf : Platform) (s : State) :
    zfree pf s 0 = s ∧
    zmalloc_used_memory (zfree pf s 0) = zmalloc_used_memory s ∧
    (zfree pf s 0).zmalloc_oom_handler = s.zmalloc_oom_handler ∧
    (zfree pf s 0).zmalloc_thread_safe = s.zmalloc_thread_safe ∧
    (zfree pf s 0).mem = s.mem ∧ (zfree pf s 0).blocks = s.blocks ∧
    (zfree pf s 0).trace = s.trace := by
  have h : zfree pf s 0 = s := by simp [zfree]
  rw [h]
  exact ⟨rfl, rfl, rfl, rfl, rfl, rfl, rfl⟩

/-- C8: `zrealloc(NULL, n)` is `zmalloc(n)`: for every state, size and backend
answer the two calls end the same way (same returned pointer, or the same
abnormal end) in the same state: same counter, same memory and so same header,
same log of backend calls and OOM-handler invocations. -/
theorem zrealloc_null_eq_zmalloc (pf : Platform) (s : State) (n ret : Nat) :
    zrealloc pf s 0 n ret = zmalloc pf s n ret ∧
    (zrealloc pf s 0 n ret).res = (zmalloc pf s n ret).res ∧
    (zrealloc pf s 0 n ret).st.used_memory = (zmalloc pf s n ret).st.used_memory ∧
    (zrealloc pf s 0 n ret).st.mem = (zmalloc pf s n ret).st.mem ∧
    (zrealloc pf s 0 n ret).st.trace = (zmalloc pf s n ret).st.trace := by
  have h : zrealloc pf s 0 n ret = zmalloc pf s n ret := by simp [zrealloc]
  rw [h]
  exact ⟨rfl, rfl, rfl, rfl, rfl⟩

/-- C5: a successful `zrealloc(p, n)` on a non-null `p` returns
`q = newptr + PREFIX_SIZE`, and the counter afterwards is the counter before,
minus `zmalloc_size(p)` as it was before the call, plus `zmalloc_size(q)` as it
is after the call, in `size_t` arithmetic. -/
theorem zrealloc_counter_delta (pf : Platform) (s : State) (p n r : Nat)
    (hp : p ≠ 0) (hr : r ≠ 0) :
    (zrealloc pf s p n r).res = Result.ret (r + PREFIX_SIZE pf) ∧
    zmalloc_used_memory (zrealloc pf s p n r).st =
      (zmalloc_used_memory s + (pf.SIZE_MOD - zmalloc_size pf s p)
        + zmalloc_size pf (zrealloc pf s p n r).st (r + PREFIX_SIZE pf)) % pf.SIZE_MOD := by
  have hM := SIZE_MOD_pos pf
  rw [zrealloc_success pf s p n r hp hr, zmalloc_used_memory_eq, zmalloc_used_memory_eq]
  refine ⟨rfl, ?_⟩
  simp only [zmalloc_size, Nat.add_sub_cancel, load_store_same]
  rw [Nat.mod_eq_of_lt (load_lt pf s.mem (p - PREFIX_SIZE pf))]
  generalize load_size_t pf s.mem (p - PREFIX_SIZE pf) = old
  have hA : pad_to_long pf old % pf.SIZE_MOD ≤ s.used_memory + pf.SIZE_MOD :=
    le_trans (Nat.le_of_lt (Nat.mod_lt _ hM)) (Nat.le_add_left _ _)
  have hZ : (pad_to_long pf old + PREFIX_SIZE pf) % pf.SIZE_MOD ≤ pf.SIZE_MOD :=
    Nat.le_of_lt (Nat.mod_lt _ hM)
  rw [← Nat.mod_mod ((s.used_memory + pf.SIZE_MOD - pad_to_long pf old % pf.SIZE_MOD)
    % pf.SIZE_MOD + pad_to_long pf (n % pf.SIZE_MOD)) pf.SIZE_MOD]
  rw [← Nat.mod_mod (s.used_memory + (pf.SIZE_MOD
    - (pad_to_long pf old + PREFIX_SIZE pf) % pf.SIZE_MOD)
    + (pad_to_long pf (n % pf.SIZE_MOD) + PREFIX_SIZE pf) % pf.SIZE_MOD) pf.SIZE_MOD]
  congr 1
  apply modEq_of_zmod
  push_cast [Nat.cast_sub hA, Nat.cast_sub hZ, ZMod.natCast_mod, ZMod.natCast_self]
  ring

theorem zrealloc_counter_delta_witness :
    (4104 ≠ 0 ∧ 8192 ≠ 0) ∧
    ((zrealloc lp64 (zmalloc lp64 State.init 10 4096).st 4104 100 8192).res
      = Result.ret (8192 + PREFIX_SIZE lp64) ∧
    zmalloc_used_memory (zrealloc lp64 (zmalloc lp64 State.init 10 4096).st 4104 100 8192).st =
      (zmalloc_used_memory (zmalloc lp64 State.init 10 4096).st
        + (lp64.SIZE_MOD - zmalloc_size lp64 (zmalloc lp64 State.init 10 4096).st 4104)
        + zmalloc_size lp64
            (zrealloc lp64 (zmalloc lp64 State.init 10 4096).st 4104 100 8192).st
            (8192 + PREFIX_SIZE lp64)) % lp64.SIZE_MOD) :=
  ⟨⟨by decide, by decide⟩,
    zrealloc_counter_delta lp64 (zmalloc lp64 State.init 10 4096).st 4104 100 8192
      (by decide) (by decide)⟩

/-! ## Out-of-memory behaviour -/

theorem oom_calls_append (t u : List Event) : oom_calls (t ++ u) = oom_calls t ++ oom_calls u := by
  simp [oom_calls, List.filterMap_append]

theorem call_oom_handler_trace (s : State) (size : Nat) :
    oom_calls (call_oom_handler s size).2.trace
      = oom_calls s.trace ++ [(s.zmalloc_oom_handler, size)] := by
  unfold call_oom_handler
  cases h : s.zmalloc_oom_handler <;> simp [oom_calls, List.filterMap_append]

theorem zmalloc_failure_oom (pf : Platform) (s : State) (n : Nat) :
    oom_calls (zmalloc pf s n 0).st.trace = oom_calls s.trace ++ [(s.zmalloc_oom_handler, n)] := by
  have h := call_oom_handler_trace (malloc s ((n + PREFIX_SIZE pf) % pf.SIZE_MOD) 0) n
  simp only [zmalloc, if_true]
  split_ifs <;> simpa [malloc, oom_calls_append, oom_calls] using h

theorem zcalloc_failure_oom (pf : Platform) (s : State) (n : Nat) :
    oom_calls (zcalloc pf s n 0).st.trace = oom_calls s.trace ++ [(s.zmalloc_oom_handler, n)] := by
  have h := call_oom_handler_trace (calloc s 1 ((n + PREFIX_SIZE pf) % pf.SIZE_MOD) 0) n
  simp only [zcalloc, if_true]
  split_ifs <;> simpa [calloc, oom_calls_append, oom_calls] using h

theorem zrealloc_failure_oom (pf : Platform) (s : State) (p n : Nat) :
    oom_calls (zrealloc pf s p n 0).st.trace
      = oom_calls s.trace ++ [(s.zmalloc_oom_handler, n)] := by
  by_cases hp : p = 0
  · subst hp
    simpa [zrealloc] using zmalloc_failure_oom pf s n
  · have h := call_oom_handler_trace
      (realloc s (p - PREFIX_SIZE pf) ((n + PREFIX_SIZE pf) % pf.SIZE_MOD) 0) n
    simp only [zrealloc, if_neg hp, if_true]
    split_ifs <;> simpa [realloc, oom_calls_append, oom_calls] using h

/-- C9: after `zmalloc_set_oom_handler(h)`, a call of `zmalloc(n)`, `zcalloc(n)`
or `zrealloc(p, n)` (with `p` null or not) whose backend allocation fails adds
exactly one handler invocation to the log, namely `h` applied to the requested
size `n` itself; a call whose backend allocation succeeds adds none. -/
theorem oom_handler_called_once_with_request (pf : Platform) (s : State) (h : OomHandler)
    (n p r : Nat) (hr : r ≠ 0) :
    oom_calls (zmalloc pf (zmalloc_set_oom_handler s h) n 0).st.trace
      = oom_calls s.trace ++ [(h, n)] ∧
    oom_calls (zcalloc pf (zmalloc_set_oom_handler s h) n 0).st.trace
      = oom_calls s.trace ++ [(h, n)] ∧
    oom_calls (zrealloc pf (zmalloc_set_oom_handler s h) p n 0).st.trace
      = oom_calls s.trace ++ [(h, n)] ∧
    oom_calls (zrealloc pf (zmalloc_set_oom_handler s h) 0 n 0).st.trace
      = oom_calls s.trace ++ [(h, n)] ∧
    oom_calls (zmalloc pf (zmalloc_set_oom_handler s h) n r).st.trace = oom_calls s.trace ∧
    oom_calls (zcalloc pf (zmalloc_set_oom_handler s h) n r).st.trace = oom_calls s.trace ∧
    oom_calls (zrealloc pf (zmalloc_set_oom_handler s h) p n r).st.trace = oom_calls s.trace := by
  refine ⟨zmalloc_failure_oom pf _ n, zcalloc_failure_oom pf _ n, zrealloc_failure_oom pf _ p n,
    zrealloc_failure_oom pf _ 0 n, ?_, ?_, ?_⟩
  · rw [zmalloc_success pf _ n r hr]
    simp [oom_calls_append, oom_calls, zmalloc_set_oom_handler]
  · rw [zcalloc_success pf _ n r hr]
    simp [oom_calls_append, oom_calls, zmalloc_set_oom_handler]
  · by_cases hp : p = 0
    · subst hp
      simp only [zrealloc, if_true]
      rw [zmalloc_success pf _ n r hr]
      simp [oom_calls_append, oom_calls, zmalloc_set_oom_handler]
    · rw [zrealloc_success pf _ p n r hp hr]
      simp [oom_calls_append, oom_calls, zmalloc_set_oom_handler]

theorem oom_handler_called_once_with_request_witness :
    (4096 : Nat) ≠ 0 ∧
    (oom_calls (zmalloc lp64 (zmalloc_set_oom_handler State.init (OomHandler.custom 7 true))
        100 0).st.trace
      = oom_calls State.init.trace ++ [(OomHandler.custom 7 true, 100)] ∧
    oom_calls (zcalloc lp64 (zmalloc_set_oom_handler State.init (OomHandler.custom 7 true))
        100 0).st.trace
      = oom_calls State.init.trace ++ [(OomHandler.custom 7 true, 100)] ∧
    oom_calls (zrealloc lp64 (zmalloc_set_oom_handler State.init (OomHandler.custom 7 true))
        520 100 0).st.trace
      = oom_calls State.init.trace ++ [(OomHandler.custom 7 true, 100)] ∧
    oom_calls (zrealloc lp64 (zmalloc_set_oom_handler State.init (OomHandler.custom 7 true))
        0 100 0).st.trace
      = oom_calls State.init.trace ++ [(OomHandler.custom 7 true, 100)] ∧
    oom_calls (zmalloc lp64 (zmalloc_set_oom_handler State.init (OomHandler.custom 7 true))
        100 4096).st.trace = oom_calls State.init.trace ∧
    oom_calls (zcalloc lp64 (zmalloc_set_oom_handler State.init (OomHandler.custom 7 true))
        100 4096).st.trace = oom_calls State.init.trace ∧
    oom_calls (zrealloc lp64 (zmalloc_set_oom_handler State.init (OomHandler.custom 7 true))
        520 100 4096).st.trace = oom_calls State.init.trace) :=
  ⟨by decide, oom_handler_called_once_with_request lp64 State.init (OomHandler.custom 7 true)
    100 520 4096 (by decide)⟩

/-- C10: with the default handler installed, each call of `zmalloc(n)`,
`zcalloc(n)` and `zrealloc(p, n)` ends in one of two ways: the backend returned
null and the process is aborted, or the backend returned a non-null block and
the call returns a non-null pointer.  No call returns null. -/
theorem default_oom_never_returns_null (pf : Platform) (s : State) (n p ret : Nat)
    (hd : s.zmalloc_oom_handler = OomHandler.zmalloc_default_oom) :
    ((ret = 0 ∧ (zmalloc pf s n ret).res = Result.aborted) ∨
      (ret ≠ 0 ∧ ∃ q, q ≠ 0 ∧ (zmalloc pf s n ret).res = Result.ret q)) ∧
    ((ret = 0 ∧ (zcalloc pf s n ret).res = Result.aborted) ∨
      (ret ≠ 0 ∧ ∃ q, q ≠ 0 ∧ (zcalloc pf s n ret).res = Result.ret q)) ∧
    ((ret = 0 ∧ (zrealloc pf s p n ret).res = Result.aborted) ∨
      (ret ≠ 0 ∧ ∃ q, q ≠ 0 ∧ (zrealloc pf s p n ret).res = Result.ret q)) := by
  have hm : (ret = 0 ∧ (zmalloc pf s n ret).res = Result.aborted) ∨
      (ret ≠ 0 ∧ ∃ q, q ≠ 0 ∧ (zmalloc pf s n ret).res = Result.ret q) := by
    by_cases hr : ret = 0
    · left
      subst hr
      simp [zmalloc, call_oom_handler, malloc, hd]
    · right
      refine ⟨hr, ret + PREFIX_SIZE pf, by omega, ?_⟩
      rw [zmalloc_success pf s n ret hr]
  refine ⟨hm, ?_, ?_⟩
  · by_cases hr : ret = 0
    · left
      subst hr
      simp [zcalloc, call_oom_handler, calloc, hd]
    · right
      refine ⟨hr, ret + PREFIX_SIZE pf, by omega, ?_⟩
      rw [zcalloc_success pf s n ret hr]
  · by_cases hp : p = 0
    · subst hp
      simpa [zrealloc] using hm
    · by_cases hr : ret = 0
      · left
        subst hr
        simp [zrealloc, hp, call_oom_handler, realloc, hd]
      · right
        refine ⟨hr, ret + PREFIX_SIZE pf, by omega, ?_⟩
        rw [zrealloc_success pf s p n ret hp hr]

theorem default_oom_never_returns_null_witness :
    State.init.zmalloc_oom_handler = OomHandler.zmalloc_default_oom ∧
    (((0 = 0 ∧ (zmalloc lp64 State.init 100 0).res = Result.aborted) ∨
      (0 ≠ 0 ∧ ∃ q, q ≠ 0 ∧ (zmalloc lp64 State.init 100 0).res = Result.ret q)) ∧
    ((0 = 0 ∧ (zcalloc lp64 State.init 100 0).res = Result.aborted) ∨
      (0 ≠ 0 ∧ ∃ q, q ≠ 0 ∧ (zcalloc lp64 State.init 100 0).res = Result.ret q)) ∧
    ((0 = 0 ∧ (zrealloc lp64 State.init 520 100 0).res = Result.aborted) ∨
      (0 ≠ 0 ∧ ∃ q, q ≠ 0 ∧ (zrealloc lp64 State.init 520 100 0).res = Result.ret q))) :=
  ⟨rfl, default_oom_never_returns_null lp64 State.init 100 520 0 rfl⟩

/-! ## Content preservation across `zrealloc` -/

theorem block_size_cons_self (r sz : Nat) (bs : List (Nat × Nat)) :
    block_size ((r, sz) :: bs) r = sz := by
  simp [block_size]

theorem store_size_t_above (pf : Platform) (m : Nat → Nat) (a v x : Nat)
    (hx : a + pf.sizeof_size_t ≤ x) : store_size_t pf m a v x = m x := by
  unfold store_size_t
  rw [if_neg]
  omega

/-- C6: let `p = zmalloc(n1)`, let the caller fill the `n1` payload bytes with
`data`, and let `q = zrealloc(p, n2)`, both backend calls succeeding and neither
`n1 + PREFIX_SIZE` nor `n2 + PREFIX_SIZE` overflowing.  Then `q` is the new raw
block plus `PREFIX_SIZE`; its first `min(n1, n2)` payload bytes are those `p`
had, namely `data`; and every payload byte of `q` is as the backend `realloc`
left it, untouched by the header store. -/
theorem zrealloc_preserves_payload (pf : Platform) (s : State) (n1 n2 r1 r2 : Nat)
    (data : List Nat)
    (hW : pf.sizeof_size_t ≤ PREFIX_SIZE pf)
    (h1 : n1 + PREFIX_SIZE pf < pf.SIZE_MOD) (h2 : n2 + PREFIX_SIZE pf < pf.SIZE_MOD)
    (hr1 : r1 ≠ 0) (hr2 : r2 ≠ 0) (hd : data.length = n1) :
    (zmalloc pf s n1 r1).res = Result.ret (r1 + PREFIX_SIZE pf) ∧
    (zrealloc pf (write_bytes (zmalloc pf s n1 r1).st (r1 + PREFIX_SIZE pf) data)
        (r1 + PREFIX_SIZE pf) n2 r2).res = Result.ret (r2 + PREFIX_SIZE pf) ∧
    (∀ i, i < min n1 n2 →
      (zrealloc pf (write_bytes (zmalloc pf s n1 r1).st (r1 + PREFIX_SIZE pf) data)
          (r1 + PREFIX_SIZE pf) n2 r2).st.mem (r2 + PREFIX_SIZE pf + i)
        = (write_bytes (zmalloc pf s n1 r1).st (r1 + PREFIX_SIZE pf) data).mem
            (r1 + PREFIX_SIZE pf + i) ∧
      (write_bytes (zmalloc pf s n1 r1).st (r1 + PREFIX_SIZE pf) data).mem
          (r1 + PREFIX_SIZE pf + i) = data.getD i 0) ∧
    (∀ i,
      (zrealloc pf (write_bytes (zmalloc pf s n1 r1).st (r1 + PREFIX_SIZE pf) data)
          (r1 + PREFIX_SIZE pf) n2 r2).st.mem (r2 + PREFIX_SIZE pf + i)
        = (realloc (write_bytes (zmalloc pf s n1 r1).st (r1 + PREFIX_SIZE pf) data)
            r1 ((n2 + PREFIX_SIZE pf) % pf.SIZE_MOD) r2).mem (r2 + PREFIX_SIZE pf + i)) := by
  have hp : r1 + PREFIX_SIZE pf ≠ 0 := by omega
  rw [zrealloc_success pf _ _ n2 r2 hp hr2, zmalloc_success pf s n1 r1 hr1]
  refine ⟨rfl, rfl, ?_, ?_⟩
  · intro i hi
    have hi1 : i < n1 := lt_of_lt_of_le hi (min_le_left _ _)
    have hi2 : i < n2 := lt_of_lt_of_le hi (min_le_right _ _)
    constructor
    · simp only [write_bytes, Nat.add_sub_cancel, block_size_cons_self,
        Nat.mod_eq_of_lt h1, Nat.mod_eq_of_lt h2]
      rw [store_size_t_above pf _ r2 n2 _ (by omega)]
      have hc : r2 ≤ r2 + PREFIX_SIZE pf + i ∧
          r2 + PREFIX_SIZE pf + i < r2 + min (n1 + PREFIX_SIZE pf) (n2 + PREFIX_SIZE pf) := by
        refine ⟨by omega, ?_⟩
        have : PREFIX_SIZE pf + i < min (n1 + PREFIX_SIZE pf) (n2 + PREFIX_SIZE pf) :=
          lt_min (by omega) (by omega)
        omega
      rw [if_pos hc]
      have he : r1 + (r2 + PREFIX_SIZE pf + i - r2) = r1 + PREFIX_SIZE pf + i := by omega
      rw [he]
    · simp only [write_bytes]
      rw [if_pos ⟨by omega, by omega⟩]
      congr 1
      omega
  · intro i
    simp only [write_bytes, Nat.add_sub_cancel, realloc, if_neg hr2]
    rw [store_size_t_above pf _ r2 n2 _ (by omega)]

theorem zrealloc_preserves_payload_witness :
    (lp64.sizeof_size_t ≤ PREFIX_SIZE lp64 ∧ 3 + PREFIX_SIZE lp64 < lp64.SIZE_MOD ∧
      2 + PREFIX_SIZE lp64 < lp64.SIZE_MOD ∧ 4096 ≠ 0 ∧ 8192 ≠ 0 ∧ [65, 66, 67].length = 3) ∧
    ((zmalloc lp64 State.init 3 4096).res = Result.ret (4096 + PREFIX_SIZE lp64) ∧
    (zrealloc lp64 (write_bytes (zmalloc lp64 State.init 3 4096).st (4096 + PREFIX_SIZE lp64)
        [65, 66, 67]) (4096 + PREFIX_SIZE lp64) 2 8192).res
      = Result.ret (8192 + PREFIX_SIZE lp64) ∧
    (∀ i, i < min 3 2 →
      (zrealloc lp64 (write_bytes (zmalloc lp64 State.init 3 4096).st (4096 + PREFIX_SIZE lp64)
          [65, 66, 67]) (4096 + PREFIX_SIZE lp64) 2 8192).st.mem (8192 + PREFIX_SIZE lp64 + i)
        = (write_bytes (zmalloc lp64 State.init 3 4096).st (4096 + PREFIX_SIZE lp64)
            [65, 66, 67]).mem (4096 + PREFIX_SIZE lp64 + i) ∧
      (write_bytes (zmalloc lp64 State.init 3 4096).st (4096 + PREFIX_SIZE lp64)
          [65, 66, 67]).mem (4096 + PREFIX_SIZE lp64 + i) = [65, 66, 67].getD i 0) ∧
    (∀ i,
      (zrealloc lp64 (write_bytes (zmalloc lp64 State.init 3 4096).st (4096 + PREFIX_SIZE lp64)
          [65, 66, 67]) (4096 + PREFIX_SIZE lp64) 2 8192).st.mem (8192 + PREFIX_SIZE lp64 + i)
        = (realloc (write_bytes (zmalloc lp64 State.init 3 4096).st (4096 + PREFIX_SIZE lp64)
            [65, 66, 67]) 4096 ((2 + PREFIX_SIZE lp64) % lp64.SIZE_MOD) 8192).mem
            (8192 + PREFIX_SIZE lp64 + i))) :=
  ⟨⟨by decide, by decide, by decide, by decide, by decide, by decide⟩,
    zrealloc_preserves_payload lp64 State.init 3 2 4096 8192 [65, 66, 67]
      (by decide) (by decide) (by decide) (by decide) (by decide) (by decide)⟩

/-! ## The counter invariant over call sequences -/

theorem sum_split_filter (pf : Platform) (f : Nat × Nat → Nat) :
    ∀ (bs : List (Nat × Nat)) (b0 : Nat × Nat), bs.Pairwise (Apart pf) → b0 ∈ bs →
      (bs.map f).sum = f b0 + ((bs.filter (fun b => b.1 != b0.1)).map f).sum := by
  intro bs
  induction bs with
  | nil => intro b0 _ h; simp at h
  | cons x xs ih =>
    intro b0 hpw hmem
    rw [List.pairwise_cons] at hpw
    rcases List.mem_cons.mp hmem with h | h
    · subst h
      have hf : xs.filter (fun b => b.1 != b0.1) = xs := by
        apply List.filter_eq_self.mpr
        intro b hb
        have := (hpw.1 b hb).1
        simpa [bne_iff_ne] using fun e => this e.symm
      simp [hf]
    · have hne : x.1 ≠ b0.1 := (hpw.1 b0 h).1
      have hx : (x.1 != b0.1) = true := by simpa [bne_iff_ne] using hne
      have hf : (x :: xs).filter (fun b => b.1 != b0.1)
          = x :: xs.filter (fun b => b.1 != b0.1) := by
        simp [List.filter_cons, hx]
      rw [hf]
      simp only [List.map_cons, List.sum_cons]
      rw [ih b0 hpw.2 h]
      omega

theorem accounted_mod (pf : Platform) (n : Nat) :
    accounted pf (n % pf.SIZE_MOD) = accounted pf n := by
  unfold accounted
  rw [Nat.mod_add_mod]

theorem Apart.words_disjoint {pf : Platform} {x y : Nat × Nat} (h : Apart pf x y) :
    x.1 + pf.sizeof_size_t ≤ y.1 ∨ y.1 + pf.sizeof_size_t ≤ x.1 := by
  rcases h.2 with h | h
  · left; exact le_trans (Nat.add_le_add_left (le_max_right _ _) _) h
  · right; exact le_trans (Nat.add_le_add_left (le_max_right _ _) _) h

theorem accounted_sum_congr (pf : Platform) (bs : List (Nat × Nat)) (m m' : Nat → Nat)
    (h : ∀ b ∈ bs, load_size_t pf m' b.1 = load_size_t pf m b.1) :
    (bs.map (fun b => accounted pf (load_size_t pf m' b.1))).sum
      = (bs.map (fun b => accounted pf (load_size_t pf m b.1))).sum := by
  congr 1
  apply List.map_congr_left
  intro b hb
  rw [h b hb]

theorem counter_add (M u S a : Nat) : ((u + S) % M + a) % M = (u + (a + S)) % M := by
  rw [Nat.mod_add_mod]
  congr 1
  omega

theorem counter_sub (M u S a : Nat) (hM : 0 < M) :
    ((u + (a + S)) % M + M - a % M) % M = (u + S) % M := by
  have h1 : a % M ≤ (u + (a + S)) % M + M :=
    le_trans (Nat.le_of_lt (Nat.mod_lt _ hM)) (Nat.le_add_left _ _)
  apply modEq_of_zmod
  push_cast [Nat.cast_sub h1, ZMod.natCast_mod, ZMod.natCast_self]
  ring

theorem counter_resize (M u S x y P : Nat) (hM : 0 < M) :
    (((u + ((x + P) % M + S)) % M + M - x % M) % M + y) % M = (u + ((y + P) % M + S)) % M := by
  have h1 : x % M ≤ (u + ((x + P) % M + S)) % M + M :=
    le_trans (Nat.le_of_lt (Nat.mod_lt _ hM)) (Nat.le_add_left _ _)
  apply modEq_of_zmod
  push_cast [Nat.cast_sub h1, ZMod.natCast_mod, ZMod.natCast_self]
  ring

theorem zmalloc_preserves (pf : Platform) (u0 : Nat) (s : State) (n r : Nat)
    (hI : HeapInv pf u0 s)
    (hok : backend_ok pf s none ((n + PREFIX_SIZE pf) % pf.SIZE_MOD) r) :
    HeapInv pf u0 (zmalloc pf s n r).st := by
  obtain ⟨⟨hnz, hpw, hhm⟩, hu⟩ := hI
  obtain ⟨hr, hap⟩ := hok
  rw [zmalloc_success pf s n r hr]
  refine ⟨⟨?_, ?_, ?_⟩, ?_⟩
  · intro b hb
    rcases List.mem_cons.mp hb with h | h
    · subst h; exact hr
    · exact hnz b h
  · exact List.pairwise_cons.mpr ⟨fun b hb => hap b hb (by simp), hpw⟩
  · intro b hb
    rcases List.mem_cons.mp hb with h | h
    · subst h
      show (load_size_t pf (store_size_t pf s.mem r n) r + PREFIX_SIZE pf) % pf.SIZE_MOD = _
      rw [load_store_same, Nat.mod_add_mod]
    · show (load_size_t pf (store_size_t pf s.mem r n) b.1 + PREFIX_SIZE pf) % pf.SIZE_MOD = _
      rw [load_store_disjoint pf s.mem r n b.1 (hap b h (by simp)).words_disjoint]
      exact hhm b h
  · simp only [accounted_sum, List.map_cons, List.sum_cons, load_store_same, accounted_mod]
    rw [accounted_sum_congr pf s.blocks s.mem (store_size_t pf s.mem r n)
      (fun b hb => load_store_disjoint pf s.mem r n b.1 (hap b hb (by simp)).words_disjoint)]
    rw [hu]
    exact counter_add _ _ _ _

theorem load_zero_fill_disjoint (pf : Platform) (m : Nat → Nat) (r sz b : Nat)
    (h : r + sz ≤ b ∨ b + pf.sizeof_size_t ≤ r) :
    load_size_t pf (fun x => if r ≤ x ∧ x < r + sz then 0 else m x) b = load_size_t pf m b := by
  apply load_congr
  intro i hi
  show (if r ≤ b + i ∧ b + i < r + sz then 0 else m (b + i)) = m (b + i)
  rw [if_neg]
  omega

theorem Apart.extent_disjoint {pf : Platform} {r sz : Nat} {y : Nat × Nat}
    (h : Apart pf (r, sz) y) : r + sz ≤ y.1 ∨ y.1 + pf.sizeof_size_t ≤ r := by
  rcases h.2 with h | h
  · left; exact le_trans (Nat.add_le_add_left (le_max_left _ _) _) h
  · right; exact le_trans (Nat.add_le_add_left (le_max_right _ _) _) h

theorem zcalloc_preserves (pf : Platform) (u0 : Nat) (s : State) (n r : Nat)
    (hI : HeapInv pf u0 s)
    (hok : backend_ok pf s none ((n + PREFIX_SIZE pf) % pf.SIZE_MOD) r) :
    HeapInv pf u0 (zcalloc pf s n r).st := by
  obtain ⟨⟨hnz, hpw, hhm⟩, hu⟩ := hI
  obtain ⟨hr, hap⟩ := hok
  rw [zcalloc_success pf s n r hr]
  have hload : ∀ b ∈ s.blocks,
      load_size_t pf (store_size_t pf
        (fun x => if r ≤ x ∧ x < r + (n + PREFIX_SIZE pf) % pf.SIZE_MOD then 0 else s.mem x)
        r n) b.1 = load_size_t pf s.mem b.1 :=
    fun b hb => (load_store_disjoint pf _ r n b.1 (hap b hb (by simp)).words_disjoint).trans
      (load_zero_fill_disjoint pf s.mem r _ b.1 (hap b hb (by simp)).extent_disjoint)
  refine ⟨⟨?_, ?_, ?_⟩, ?_⟩
  · intro b hb
    rcases List.mem_cons.mp hb with h | h
    · subst h; exact hr
    · exact hnz b h
  · exact List.pairwise_cons.mpr ⟨fun b hb => hap b hb (by simp), hpw⟩
  · intro b hb
    rcases List.mem_cons.mp hb with h | h
    · subst h
      show (load_size_t pf (store_size_t pf _ r n) r + PREFIX_SIZE pf) % pf.SIZE_MOD = _
      rw [load_store_same, Nat.mod_add_mod]
    · show (load_size_t pf (store_size_t pf _ r n) b.1 + PREFIX_SIZE pf) % pf.SIZE_MOD = _
      rw [hload b h]
      exact hhm b h
  · simp only [accounted_sum, List.map_cons, List.sum_cons, load_store_same, accounted_mod]
    rw [accounted_sum_congr pf s.blocks s.mem _ hload]
    rw [hu]
    exact counter_add _ _ _ _

theorem live_payload_block (pf : Platform) (s : State) (p : Nat)
    (hp : p ∈ live_payloads pf s) : ∃ b ∈ s.blocks, p = b.1 + PREFIX_SIZE pf := by
  unfold live_payloads at hp
  obtain ⟨b, hb, hbp⟩ := List.mem_map.mp hp
  exact ⟨b, hb, hbp.symm⟩

theorem zfree_preserves (pf : Platform) (u0 : Nat) (s : State) (p : Nat)
    (hI : HeapInv pf u0 s) (hp : p ∈ live_payloads pf s) :
    HeapInv pf u0 (zfree pf s p) := by
  obtain ⟨⟨hnz, hpw, hhm⟩, hu⟩ := hI
  obtain ⟨b0, hb0, hpb⟩ := live_payload_block pf s p hp
  have hp0 : p ≠ 0 := by have := hnz b0 hb0; omega
  have hreal : p - PREFIX_SIZE pf = b0.1 := by omega
  rw [zfree_live pf s p hp0, hreal]
  refine ⟨⟨?_, ?_, ?_⟩, ?_⟩
  · intro b hb
    exact hnz b (List.mem_of_mem_filter hb)
  · exact hpw.sublist (List.filter_sublist _)
  · intro b hb
    exact hhm b (List.mem_of_mem_filter hb)
  · simp only [accounted_sum]
    rw [hu]
    simp only [accounted_sum]
    rw [sum_split_filter pf (fun b => accounted pf (load_size_t pf s.mem b.1)) s.blocks b0 hpw hb0]
    exact counter_sub _ _ _ _ (SIZE_MOD_pos pf)

theorem load_copy_disjoint (pf : Platform) (m : Nat → Nat) (r len src b : Nat)
    (h : r + len ≤ b ∨ b + pf.sizeof_size_t ≤ r) :
    load_size_t pf (fun x => if r ≤ x ∧ x < r + len then m (src + (x - r)) else m x) b
      = load_size_t pf m b := by
  apply load_congr
  intro i hi
  show (if r ≤ b + i ∧ b + i < r + len then m (src + (b + i - r)) else m (b + i)) = m (b + i)
  rw [if_neg]
  omega

theorem zrealloc_preserves (pf : Platform) (hv : pf.Valid) (u0 : Nat) (s : State) (p n r : Nat)
    (hI : HeapInv pf u0 s) (hp : p ∈ live_payloads pf s)
    (hok : backend_ok pf s (some (p - PREFIX_SIZE pf)) ((n + PREFIX_SIZE pf) % pf.SIZE_MOD) r) :
    HeapInv pf u0 (zrealloc pf s p n r).st := by
  obtain ⟨⟨hnz, hpw, hhm⟩, hu⟩ := hI
  obtain ⟨hr, hap⟩ := hok
  obtain ⟨b0, hb0, hpb⟩ := live_payload_block pf s p hp
  have hp0 : p ≠ 0 := by have := hnz b0 hb0; omega
  have hreal : p - PREFIX_SIZE pf = b0.1 := by omega
  rw [hreal] at hap
  rw [zrealloc_success pf s p n r hp0 hr, hreal]
  have hap' : ∀ b ∈ s.blocks.filter (fun b => b.1 != b0.1),
      Apart pf (r, (n + PREFIX_SIZE pf) % pf.SIZE_MOD) b := by
    intro b hb
    have hb' := List.mem_filter.mp hb
    apply hap b hb'.1
    have : b.1 ≠ b0.1 := by simpa [bne_iff_ne] using hb'.2
    simpa using this
  have hload : ∀ b ∈ s.blocks.filter (fun b => b.1 != b0.1),
      load_size_t pf (store_size_t pf
        (fun x =>
          if r ≤ x ∧ x < r + min (block_size s.blocks b0.1) ((n + PREFIX_SIZE pf) % pf.SIZE_MOD)
          then s.mem (b0.1 + (x - r)) else s.mem x) r n) b.1 = load_size_t pf s.mem b.1 :=
    fun b hb => (load_store_disjoint pf _ r n b.1 (hap' b hb).words_disjoint).trans
      (load_copy_disjoint pf s.mem r _ b0.1 b.1
        (by
          rcases (hap' b hb).extent_disjoint with h | h
          · left
            exact le_trans (Nat.add_le_add_left (min_le_right _ _) _) h
          · right
            exact h))
  refine ⟨⟨?_, ?_, ?_⟩, ?_⟩
  · intro b hb
    rcases List.mem_cons.mp hb with h | h
    · subst h; exact hr
    · exact hnz b (List.mem_of_mem_filter h)
  · exact List.pairwise_cons.mpr ⟨hap', hpw.sublist (List.filter_sublist _)⟩
  · intro b hb
    rcases List.mem_cons.mp hb with h | h
    · subst h
      show (load_size_t pf (store_size_t pf _ r n) r + PREFIX_SIZE pf) % pf.SIZE_MOD = _
      rw [load_store_same, Nat.mod_add_mod]
    · show (load_size_t pf (store_size_t pf _ r n) b.1 + PREFIX_SIZE pf) % pf.SIZE_MOD = _
      rw [hload b h]
      exact hhm b (List.mem_of_mem_filter h)
  · simp only [accounted_sum, List.map_cons, List.sum_cons, load_store_same]
    rw [accounted_sum_congr pf (s.blocks.filter (fun b => b.1 != b0.1)) s.mem _ hload]
    rw [hu]
    simp only [accounted_sum]
    rw [sum_split_filter pf (fun b => accounted pf (load_size_t pf s.mem b.1)) s.blocks b0 hpw hb0]
    rw [accounted_eq hv, accounted_eq hv, Nat.mod_mod]
    exact counter_resize _ _ _ _ _ _ (SIZE_MOD_pos pf)

theorem Outcome.returned_of_ret (o : Outcome) (q : Nat) (h : o.res = Result.ret q) :
    o.returned = some o.st := by
  unfold Outcome.returned
  rw [h]

/-- One well-formed call returns and keeps the invariant.  Only `zrealloc`
needs the platform to be valid. -/
theorem step_preserves (pf : Platform) (u0 : Nat) (s : State) (c : Call)
    (hv : c.is_malloc_or_free = true ∨ pf.Valid)
    (hI : HeapInv pf u0 s) (hok : c.ok pf s) :
    ∃ s1, c.exec pf s = some s1 ∧ HeapInv pf u0 s1 := by
  cases c with
  | zmalloc n r =>
    refine ⟨(zmalloc pf s n r).st, ?_, zmalloc_preserves pf u0 s n r hI hok⟩
    exact Outcome.returned_of_ret _ (r + PREFIX_SIZE pf) (by rw [zmalloc_success pf s n r hok.1])
  | zcalloc n r =>
    refine ⟨(zcalloc pf s n r).st, ?_, zcalloc_preserves pf u0 s n r hI hok⟩
    exact Outcome.returned_of_ret _ (r + PREFIX_SIZE pf) (by rw [zcalloc_success pf s n r hok.1])
  | zrealloc p n r =>
    have hv' : pf.Valid := by
      rcases hv with h | h
      · simp [Call.is_malloc_or_free] at h
      · exact h
    refine ⟨(zrealloc pf s p n r).st, ?_, zrealloc_preserves pf hv' u0 s p n r hI hok.1 hok.2⟩
    obtain ⟨b0, hb0, hpb⟩ := live_payload_block pf s p hok.1
    have hp0 : p ≠ 0 := by have := hI.1.1 b0 hb0; omega
    exact Outcome.returned_of_ret _ (r + PREFIX_SIZE pf)
      (by rw [zrealloc_success pf s p n r hp0 hok.2.1])
  | zfree p =>
    exact ⟨zfree pf s p, rfl, zfree_preserves pf u0 s p hI hok⟩

/-- A well-formed sequence runs to the end and keeps the invariant. -/
theorem run_preserves (pf : Platform) (u0 : Nat) :
    ∀ (calls : List Call) (s : State),
      ((∀ c ∈ calls, c.is_malloc_or_free = true) ∨ pf.Valid) →
      HeapInv pf u0 s → WellFormed pf s calls →
      ∃ s1, run pf s calls = some s1 ∧ HeapInv pf u0 s1 := by
  intro calls
  induction calls with
  | nil => intro s _ hI _; exact ⟨s, rfl, hI⟩
  | cons c cs ih =>
    intro s hv hI hwf
    have hvc : c.is_malloc_or_free = true ∨ pf.Valid := by
      rcases hv with h | h
      · exact Or.inl (h c (List.mem_cons_self _ _))
      · exact Or.inr h
    have hvcs : (∀ c ∈ cs, c.is_malloc_or_free = true) ∨ pf.Valid := by
      rcases hv with h | h
      · exact Or.inl (fun c hc => h c (List.mem_cons_of_mem _ hc))
      · exact Or.inr h
    obtain ⟨s1, hs1, hI1⟩ := step_preserves pf u0 s c hvc hI hwf.1
    have hwf1 : WellFormed pf s1 cs := by
      have := hwf.2
      rw [hs1] at this
      exact this
    obtain ⟨s2, hs2, hI2⟩ := ih s1 hvcs hI1 hwf1
    refine ⟨s2, ?_, hI2⟩
    simp only [run, hs1]
    exact hs2

theorem accounted_sum_eq_of_headers (pf : Platform) (s : State)
    (hh : ∀ b ∈ s.blocks, (load_size_t pf s.mem b.1 + PREFIX_SIZE pf) % pf.SIZE_MOD = b.2) :
    accounted_sum pf s = (s.blocks.map (fun b => pad_to_long pf b.2)).sum := by
  unfold accounted_sum
  congr 1
  apply List.map_congr_left
  intro b hb
  unfold accounted
  rw [hh b hb]

theorem counter_restore (M u S : Nat) (hM : 0 < M) (hu : u < M) :
    (u + (M - S % M) + S) % M = u := by
  have h1 : S % M ≤ M := Nat.le_of_lt (Nat.mod_lt _ hM)
  have h2 : (u + (M - S % M) + S) % M = u % M := by
    apply modEq_of_zmod
    push_cast [Nat.cast_sub h1, ZMod.natCast_mod, ZMod.natCast_self]
    ring
  rw [h2, Nat.mod_eq_of_lt hu]

/-- C1: start from any counter value and any consistent heap (the live blocks,
if any, were obtained through the allocation functions), and perform any
sequence of `zmalloc(n)` and `zfree(p)` calls in which the backend always
succeeds and every `zfree` is given a live pointer.  The sequence runs to its
end, and if the live blocks are then the ones there were at the start (every
allocation of the sequence has been freed), `zmalloc_used_memory()` is what it
was at the start.  No bound is put on the sizes: requests for which
`n + PREFIX_SIZE` or the padding wraps around are included, and no assumption
on the platform is needed. -/
theorem balanced_zmalloc_zfree_net_zero (pf : Platform) (s : State) (calls : List Call)
    (hu : s.used_memory < pf.SIZE_MOD) (hh : HeapOK pf s)
    (hmf : ∀ c ∈ calls, c.is_malloc_or_free = true)
    (hwf : WellFormed pf s calls) :
    ∃ s1, run pf s calls = some s1 ∧
      (s1.blocks.Perm s.blocks → zmalloc_used_memory s1 = zmalloc_used_memory s) := by
  have hM := SIZE_MOD_pos pf
  have hI0 : HeapInv pf (s.used_memory + (pf.SIZE_MOD - accounted_sum pf s % pf.SIZE_MOD)) s :=
    ⟨hh, (counter_restore _ _ _ hM hu).symm⟩
  obtain ⟨s1, hrun, hI⟩ := run_preserves pf _ calls s (Or.inl hmf) hI0 hwf
  refine ⟨s1, hrun, ?_⟩
  intro hperm
  have hsum : accounted_sum pf s1 = accounted_sum pf s := by
    rw [accounted_sum_eq_of_headers pf s1 hI.1.2.2, accounted_sum_eq_of_headers pf s hh.2.2]
    exact (hperm.map _).sum_eq
  rw [zmalloc_used_memory_eq, zmalloc_used_memory_eq, hI.2, hsum]
  exact counter_restore _ _ _ hM hu

theorem balanced_zmalloc_zfree_net_zero_witness :
    ((zmalloc lp64 State.init 7 256).st.used_memory < lp64.SIZE_MOD ∧
      HeapOK lp64 (zmalloc lp64 State.init 7 256).st ∧
      (∀ c ∈ [Call.zmalloc 10 4096, Call.zmalloc (2 ^ 64 - 3) 8192, Call.zfree 4104,
          Call.zfree 8200], c.is_malloc_or_free = true) ∧
      WellFormed lp64 (zmalloc lp64 State.init 7 256).st
        [Call.zmalloc 10 4096, Call.zmalloc (2 ^ 64 - 3) 8192, Call.zfree 4104,
          Call.zfree 8200] ∧
      (run lp64 (zmalloc lp64 State.init 7 256).st
        [Call.zmalloc 10 4096, Call.zmalloc (2 ^ 64 - 3) 8192, Call.zfree 4104,
          Call.zfree 8200]).map State.blocks = some (zmalloc lp64 State.init 7 256).st.blocks) ∧
    ∃ s1, run lp64 (zmalloc lp64 State.init 7 256).st
        [Call.zmalloc 10 4096, Call.zmalloc (2 ^ 64 - 3) 8192, Call.zfree 4104,
          Call.zfree 8200] = some s1 ∧
      (s1.blocks.Perm (zmalloc lp64 State.init 7 256).st.blocks →
        zmalloc_used_memory s1 = zmalloc_used_memory (zmalloc lp64 State.init 7 256).st) :=
  ⟨⟨by decide, by decide, by decide, by decide, by decide⟩,
    balanced_zmalloc_zfree_net_zero lp64 (zmalloc lp64 State.init 7 256).st
      [Call.zmalloc 10 4096, Call.zmalloc (2 ^ 64 - 3) 8192, Call.zfree 4104, Call.zfree 8200]
      (by decide) (by decide) (by decide) (by decide)⟩

theorem zmalloc_size_eq_accounted {pf : Platform} (hv : pf.Valid) (s : State) (b : Nat) :
    zmalloc_size pf s (b + PREFIX_SIZE pf) = accounted pf (load_size_t pf s.mem b) := by
  rw [accounted_eq hv, Nat.mod_eq_of_lt (load_lt pf s.mem b)]
  simp [zmalloc_size]

theorem heapInv_of_empty (pf : Platform) (s : State) (hu : s.used_memory = 0)
    (h0 : s.blocks = []) : HeapInv pf 0 s := by
  refine ⟨⟨by simp [h0], by simp [h0], by simp [h0]⟩, ?_⟩
  simp [accounted_sum, h0, hu]

/-- C2: in the prefix-header build on a valid platform, start with the counter
at zero and nothing allocated, and perform any well-formed sequence of
`zmalloc`, `zcalloc`, `zrealloc` and `zfree` calls (backend always succeeding,
`zrealloc` and `zfree` only on live pointers).  The sequence runs to its end,
and the counter then equals, modulo `2^w`, the sum of `zmalloc_size(p)` over
the live payload pointers `p`. -/
theorem used_memory_is_sum_of_live_sizes (pf : Platform) (hv : pf.Valid) (s : State)
    (calls : List Call) (hu : s.used_memory = 0) (h0 : s.blocks = [])
    (hwf : WellFormed pf s calls) :
    ∃ s1, run pf s calls = some s1 ∧
      s1.used_memory = ((live_payloads pf s1).map (zmalloc_size pf s1)).sum % pf.SIZE_MOD ∧
      zmalloc_used_memory s1
        = ((live_payloads pf s1).map (zmalloc_size pf s1)).sum % pf.SIZE_MOD := by
  obtain ⟨s1, hrun, hI⟩ :=
    run_preserves pf 0 calls s (Or.inr hv) (heapInv_of_empty pf s hu h0) hwf
  have hsum : ((live_payloads pf s1).map (zmalloc_size pf s1)).sum = accounted_sum pf s1 := by
    unfold live_payloads accounted_sum
    rw [List.map_map]
    congr 1
    apply List.map_congr_left
    intro b _
    exact zmalloc_size_eq_accounted hv s1 b.1
  have hused : s1.used_memory
      = ((live_payloads pf s1).map (zmalloc_size pf s1)).sum % pf.SIZE_MOD := by
    rw [hI.2, hsum, Nat.zero_add]
  exact ⟨s1, hrun, hused, by rw [zmalloc_used_memory_eq]; exact hused⟩

theorem used_memory_is_sum_of_live_sizes_witness :
    (State.init.used_memory = 0 ∧ State.init.blocks = [] ∧
      WellFormed lp64 State.init
        [Call.zmalloc 10 4096, Call.zcalloc 3 8192, Call.zrealloc 4104 100 12288,
          Call.zfree 8200, Call.zmalloc 1 8192]) ∧
    ∃ s1, run lp64 State.init
        [Call.zmalloc 10 4096, Call.zcalloc 3 8192, Call.zrealloc 4104 100 12288,
          Call.zfree 8200, Call.zmalloc 1 8192] = some s1 ∧
      s1.used_memory
        = ((live_payloads lp64 s1).map (zmalloc_size lp64 s1)).sum % lp64.SIZE_MOD ∧
      zmalloc_used_memory s1
        = ((live_payloads lp64 s1).map (zmalloc_size lp64 s1)).sum % lp64.SIZE_MOD :=
  ⟨⟨rfl, rfl, by decide⟩,
    used_memory_is_sum_of_live_sizes lp64 lp64_valid State.init
      [Call.zmalloc 10 4096, Call.zcalloc 3 8192, Call.zrealloc 4104 100 12288,
        Call.zfree 8200, Call.zmalloc 1 8192] rfl rfl (by decide)⟩

/-! ## Fragmentation ratio -/

theorem round_half_even_bounds (x : ℚ) :
    ⌊x⌋ ≤ round_half_even x ∧ round_half_even x ≤ ⌊x⌋ + 1 := by
  unfold round_half_even
  split_ifs <;> constructor <;> omega

theorem round_half_even_ge (x : ℚ) (N : ℤ) (h : (N : ℚ) ≤ x) : N ≤ round_half_even x :=
  le_trans (Int.le_floor.mpr h) (round_half_even_bounds x).1

theorem round_half_even_le (x : ℚ) (N : ℤ) (h : x < (N : ℚ)) : round_half_even x ≤ N := by
  have h1 : ⌊x⌋ < N := Int.floor_lt.mpr h
  have h2 := (round_half_even_bounds x).2
  omega

theorem round_half_even_intCast (n : ℤ) : round_half_even (n : ℚ) = n := by
  unfold round_half_even
  simp

theorem two_pow_23_mul (e : ℤ) : (8388608 : ℚ) * 2 ^ (e - 23) = 2 ^ e := by
  have h : (8388608 : ℚ) = 2 ^ (23 : ℤ) := by norm_num
  rw [h, ← zpow_add₀ (by norm_num : (2 : ℚ) ≠ 0)]
  congr 1
  omega

theorem two_pow_24_mul (e : ℤ) : (16777216 : ℚ) * 2 ^ (e - 23) = 2 ^ (e + 1) := by
  have h : (16777216 : ℚ) = 2 ^ (24 : ℤ) := by norm_num
  rw [h, ← zpow_add₀ (by norm_num : (2 : ℚ) ≠ 0)]
  congr 1
  omega

/-- Rounding in the normal range: the result lies between the powers of two
that enclose the argument, and is infinite only if it reaches `2^128`. -/
theorem FloatVal.round_normal (q : ℚ) (hq : (2 : ℚ) ^ (-126 : ℤ) ≤ q) :
    (2 : ℚ) ^ (Int.log 2 q) ≤
        (round_half_even (q / 2 ^ (Int.log 2 q - 23)) : ℚ) * 2 ^ (Int.log 2 q - 23) ∧
    (round_half_even (q / 2 ^ (Int.log 2 q - 23)) : ℚ) * 2 ^ (Int.log 2 q - 23)
        ≤ (2 : ℚ) ^ (Int.log 2 q + 1) ∧
    FloatVal.round q =
      if (2 : ℚ) ^ 128 ≤
          (round_half_even (q / 2 ^ (Int.log 2 q - 23)) : ℚ) * 2 ^ (Int.log 2 q - 23)
      then FloatVal.pos_inf
      else FloatVal.finite
        ((round_half_even (q / 2 ^ (Int.log 2 q - 23)) : ℚ) * 2 ^ (Int.log 2 q - 23)) := by
  have hpos : (0 : ℚ) < q := lt_of_lt_of_le (by positivity) hq
  have hb : 1 < (2 : ℕ) := by norm_num
  have he : (-126 : ℤ) ≤ Int.log 2 q :=
    (Int.zpow_le_iff_le_log hb hpos (x := -126)).mp (by exact_mod_cast hq)
  have hlo : (2 : ℚ) ^ (Int.log 2 q) ≤ q := by
    have := Int.zpow_log_le_self hb hpos
    exact_mod_cast this
  have hhi : q < (2 : ℚ) ^ (Int.log 2 q + 1) := by
    have := Int.lt_zpow_succ_log_self hb q
    exact_mod_cast this
  have hround : FloatVal.round q =
      if (2 : ℚ) ^ 128 ≤
          (round_half_even (q / 2 ^ (Int.log 2 q - 23)) : ℚ) * 2 ^ (Int.log 2 q - 23)
      then FloatVal.pos_inf
      else FloatVal.finite
        ((round_half_even (q / 2 ^ (Int.log 2 q - 23)) : ℚ) * 2 ^ (Int.log 2 q - 23)) := by
    unfold FloatVal.round
    rw [if_neg (ne_of_gt hpos), abs_of_pos hpos]
    simp only [hpos, if_true, max_eq_left he]
  refine ⟨?_, ?_, hround⟩
  · generalize Int.log 2 q = e at he hlo hhi
    have hQ : (0 : ℚ) < 2 ^ (e - 23) := by positivity
    have hx1 : ((8388608 : ℤ) : ℚ) ≤ q / 2 ^ (e - 23) := by
      rw [le_div_iff₀ hQ]
      push_cast
      rw [two_pow_23_mul]
      exact hlo
    have hn1 := round_half_even_ge _ _ hx1
    have h1 : (8388608 : ℚ) ≤ (round_half_even (q / 2 ^ (e - 23)) : ℚ) := by exact_mod_cast hn1
    rw [← two_pow_23_mul e]
    exact mul_le_mul_of_nonneg_right h1 (le_of_lt hQ)
  · generalize Int.log 2 q = e at he hlo hhi
    have hQ : (0 : ℚ) < 2 ^ (e - 23) := by positivity
    have hx2 : q / 2 ^ (e - 23) < ((16777216 : ℤ) : ℚ) := by
      rw [div_lt_iff₀ hQ]
      push_cast
      rw [two_pow_24_mul]
      exact hhi
    have hn2 := round_half_even_le _ _ hx2
    have h1 : (round_half_even (q / 2 ^ (e - 23)) : ℚ) ≤ (16777216 : ℚ) := by exact_mod_cast hn2
    rw [← two_pow_24_mul e]
    exact mul_le_mul_of_nonneg_right h1 (le_of_lt hQ)

/-- A rational between `2^a` and `2^b`, inside the normal range, rounds to a
finite value between the same bounds. -/
theorem FloatVal.round_between (q : ℚ) (a b : ℤ) (ha : -126 ≤ a) (hb : b ≤ 127)
    (h1 : (2 : ℚ) ^ a ≤ q) (h2 : q < (2 : ℚ) ^ b) :
    ∃ r : ℚ, (2 : ℚ) ^ a ≤ r ∧ r ≤ (2 : ℚ) ^ b ∧ FloatVal.round q = FloatVal.finite r := by
  have h126 : (2 : ℚ) ^ (-126 : ℤ) ≤ q :=
    le_trans (zpow_le_zpow_right₀ (by norm_num) ha) h1
  have hpos : (0 : ℚ) < q := lt_of_lt_of_le (by positivity) h126
  have hb2 : 1 < (2 : ℕ) := by norm_num
  obtain ⟨hr1, hr2, hround⟩ := FloatVal.round_normal q h126
  have hae : a ≤ Int.log 2 q :=
    (Int.zpow_le_iff_le_log hb2 hpos).mp (by exact_mod_cast h1)
  have heb : Int.log 2 q < b :=
    (Int.lt_zpow_iff_log_lt hb2 hpos).mp (by exact_mod_cast h2)
  refine ⟨_, le_trans (zpow_le_zpow_right₀ (by norm_num) hae) hr1,
    le_trans hr2 (zpow_le_zpow_right₀ (by norm_num) (by omega)), ?_⟩
  rw [hround, if_neg]
  rw [not_le]
  have h127 : (2 : ℚ) ^ (Int.log 2 q + 1) ≤ 2 ^ (127 : ℤ) :=
    zpow_le_zpow_right₀ (by norm_num) (by omega)
  have hlt : (2 : ℚ) ^ (127 : ℤ) < 2 ^ 128 := by norm_num
  exact lt_of_le_of_lt (le_trans hr2 h127) hlt

theorem FloatVal.round_zero : FloatVal.round 0 = FloatVal.finite 0 := by
  simp [FloatVal.round]

theorem FloatVal.of_size_t_zero : FloatVal.of_size_t 0 = FloatVal.finite 0 := by
  simp [FloatVal.of_size_t, FloatVal.round]

/-- A positive `size_t` converts to a positive finite value, or to infinity. -/
theorem FloatVal.of_size_t_pos (n : Nat) (hn : 0 < n) :
    FloatVal.of_size_t n = FloatVal.pos_inf ∨
      ∃ r : ℚ, 0 < r ∧ FloatVal.of_size_t n = FloatVal.finite r := by
  have h1 : (1 : ℚ) ≤ (n : ℚ) := by exact_mod_cast hn
  have h126 : (2 : ℚ) ^ (-126 : ℤ) ≤ (n : ℚ) :=
    le_trans (by norm_num) h1
  obtain ⟨hr1, _, hround⟩ := FloatVal.round_normal (n : ℚ) h126
  unfold FloatVal.of_size_t
  rw [hround]
  split_ifs
  · exact Or.inl rfl
  · exact Or.inr ⟨_, lt_of_lt_of_le (by positivity) hr1, rfl⟩

/-- A positive `size_t` below `2^64` converts to a finite value between 1 and
`2^64`. -/
theorem FloatVal.of_size_t_finite (n : Nat) (hn : 0 < n) (h64 : n < 2 ^ 64) :
    ∃ r : ℚ, 1 ≤ r ∧ r ≤ 2 ^ 64 ∧ FloatVal.of_size_t n = FloatVal.finite r := by
  have h1 : (2 : ℚ) ^ (0 : ℤ) ≤ (n : ℚ) := by
    have : (1 : ℚ) ≤ (n : ℚ) := by exact_mod_cast hn
    simpa using this
  have h2 : (n : ℚ) < (2 : ℚ) ^ (64 : ℤ) := by
    have : (n : ℚ) < ((2 ^ 64 : ℕ) : ℚ) := by exact_mod_cast h64
    rw [show (2 : ℚ) ^ (64 : ℤ) = ((2 ^ 64 : ℕ) : ℚ) by norm_num]
    exact this
  obtain ⟨r, hr1, hr2, hr⟩ := FloatVal.round_between (n : ℚ) 0 64 (by norm_num) (by norm_num) h1 h2
  refine ⟨r, by simpa using hr1, ?_, hr⟩
  rw [show (2 : ℚ) ^ (64 : ℕ) = (2 : ℚ) ^ (64 : ℤ) by norm_num]
  exact hr2

theorem round_half_even_down (x : ℚ) (f : ℤ) (h1 : (f : ℚ) ≤ x) (h2 : x < (f : ℚ) + 1 / 2) :
    round_half_even x = f := by
  have hf : ⌊x⌋ = f := Int.floor_eq_iff.mpr ⟨h1, by linarith⟩
  unfold round_half_even
  rw [hf, if_pos (by linarith)]

theorem round_half_even_up (x : ℚ) (f : ℤ) (h1 : (f : ℚ) + 1 / 2 < x) (h2 : x < (f : ℚ) + 1) :
    round_half_even x = f + 1 := by
  have hf : ⌊x⌋ = f := Int.floor_eq_iff.mpr ⟨by linarith, h2⟩
  unfold round_half_even
  rw [hf, if_neg (by linarith), if_pos (by linarith)]

theorem round_half_even_tie (x : ℚ) (f : ℤ) (h : x = (f : ℚ) + 1 / 2) :
    round_half_even x = if f % 2 = 0 then f else f + 1 := by
  have hf : ⌊x⌋ = f := Int.floor_eq_iff.mpr ⟨by linarith, by linarith⟩
  unfold round_half_even
  rw [hf, if_neg (by linarith), if_neg (by linarith)]

/-- Rounding, given the exponent and the rounded significand. -/
theorem FloatVal.round_eval (q : ℚ) (e n : ℤ) (he : -126 ≤ e) (h1 : (2 : ℚ) ^ e ≤ q)
    (h2 : q < (2 : ℚ) ^ (e + 1)) (hn : round_half_even (q / 2 ^ (e - 23)) = n)
    (hfin : (n : ℚ) * 2 ^ (e - 23) < 2 ^ 128) :
    FloatVal.round q = FloatVal.finite ((n : ℚ) * 2 ^ (e - 23)) := by
  have h126 : (2 : ℚ) ^ (-126 : ℤ) ≤ q :=
    le_trans (zpow_le_zpow_right₀ (by norm_num) he) h1
  have hpos : (0 : ℚ) < q := lt_of_lt_of_le (by positivity) h126
  have hb2 : 1 < (2 : ℕ) := by norm_num
  have hlog : Int.log 2 q = e := by
    have ha : e ≤ Int.log 2 q :=
      (Int.zpow_le_iff_le_log hb2 hpos).mp (by exact_mod_cast h1)
    have hb : Int.log 2 q < e + 1 :=
      (Int.lt_zpow_iff_log_lt hb2 hpos).mp (by exact_mod_cast h2)
    omega
  obtain ⟨_, _, hround⟩ := FloatVal.round_normal q h126
  rw [hround, hlog, hn, if_neg (not_le.mpr hfin)]

/-- The conversion `(float)16777217` gives 16777216: the tie goes to the even
significand. -/
theorem FloatVal.of_size_t_16777217 :
    FloatVal.of_size_t 16777217 = FloatVal.finite 16777216 := by
  have hn : round_half_even ((16777217 : ℚ) / 2 ^ ((24 : ℤ) - 23)) = 8388608 := by
    rw [round_half_even_tie _ 8388608 (by norm_num)]
    norm_num
  have h := FloatVal.round_eval (16777217 : ℚ) 24 8388608 (by norm_num) (by norm_num)
    (by norm_num) hn (by norm_num)
  unfold FloatVal.of_size_t
  rw [show ((16777217 : ℕ) : ℚ) = (16777217 : ℚ) by norm_num, h]
  norm_num

theorem FloatVal.of_size_t_4096 : FloatVal.of_size_t 4096 = FloatVal.finite 4096 := by
  have hn : round_half_even ((4096 : ℚ) / 2 ^ ((12 : ℤ) - 23)) = 8388608 := by
    rw [round_half_even_down _ 8388608 (by norm_num) (by norm_num)]
  have h := FloatVal.round_eval (4096 : ℚ) 12 8388608 (by norm_num) (by norm_num)
    (by norm_num) hn (by norm_num)
  unfold FloatVal.of_size_t
  rw [show ((4096 : ℕ) : ℚ) = (4096 : ℚ) by norm_num, h]
  norm_num

theorem FloatVal.of_size_t_24 : FloatVal.of_size_t 24 = FloatVal.finite 24 := by
  have hn : round_half_even ((24 : ℚ) / 2 ^ ((4 : ℤ) - 23)) = 12582912 := by
    rw [round_half_even_down _ 12582912 (by norm_num) (by norm_num)]
  have h := FloatVal.round_eval (24 : ℚ) 4 12582912 (by norm_num) (by norm_num)
    (by norm_num) hn (by norm_num)
  unfold FloatVal.of_size_t
  rw [show ((24 : ℕ) : ℚ) = (24 : ℚ) by norm_num, h]
  norm_num

/-- The quotient `(float)4096/24` is `11184811/65536`, not `512/3`. -/
theorem FloatVal.div_4096_24 :
    FloatVal.div (FloatVal.of_size_t 4096) (FloatVal.of_size_t 24)
      = FloatVal.finite (11184811 / 65536) := by
  have hn : round_half_even ((4096 / 24 : ℚ) / 2 ^ ((7 : ℤ) - 23)) = 11184810 + 1 := by
    rw [round_half_even_up _ 11184810 (by norm_num) (by norm_num)]
  have h := FloatVal.round_eval (4096 / 24 : ℚ) 7 (11184810 + 1) (by norm_num) (by norm_num)
    (by norm_num) hn (by norm_num)
  rw [FloatVal.of_size_t_4096, FloatVal.of_size_t_24]
  simp only [FloatVal.div]
  rw [if_neg (by norm_num), h]
  norm_num

theorem round_half_even_error (x : ℚ) : |(round_half_even x : ℚ) - x| ≤ 1 / 2 := by
  have h1 : (⌊x⌋ : ℚ) ≤ x := Int.floor_le x
  have h2 : x < (⌊x⌋ : ℚ) + 1 := Int.lt_floor_add_one x
  unfold round_half_even
  split_ifs with ha hb hc
  · rw [abs_le]
    constructor <;> linarith
  · push_cast
    rw [abs_le]
    constructor <;> linarith
  · rw [abs_le]
    constructor <;> linarith
  · push_cast
    rw [abs_le]
    constructor <;> linarith

/-- In the normal range a finite rounded value differs from the argument by at
most the fraction `2^-24` of it. -/
theorem FloatVal.round_error (q r : ℚ) (hq : (2 : ℚ) ^ (-126 : ℤ) ≤ q)
    (h : FloatVal.round q = FloatVal.finite r) : |r - q| ≤ q / 2 ^ 24 := by
  have hpos : (0 : ℚ) < q := lt_of_lt_of_le (by positivity) hq
  have hb : 1 < (2 : ℕ) := by norm_num
  have hlo : (2 : ℚ) ^ (Int.log 2 q) ≤ q := by
    have := Int.zpow_log_le_self hb hpos
    exact_mod_cast this
  obtain ⟨_, _, hround⟩ := FloatVal.round_normal q hq
  rw [hround] at h
  split_ifs at h
  have hr : (round_half_even (q / 2 ^ (Int.log 2 q - 23)) : ℚ) * 2 ^ (Int.log 2 q - 23) = r := by
    injection h
  generalize Int.log 2 q = e at hlo hr
  have hQ : (0 : ℚ) < 2 ^ (e - 23) := by positivity
  have herr := round_half_even_error (q / 2 ^ (e - 23))
  have hsplit : r - q = ((round_half_even (q / 2 ^ (e - 23)) : ℚ) - q / 2 ^ (e - 23))
      * 2 ^ (e - 23) := by
    rw [sub_mul, hr, div_mul_cancel₀ _ (ne_of_gt hQ)]
  rw [hsplit, abs_mul, abs_of_pos hQ]
  have h1 : |(round_half_even (q / 2 ^ (e - 23)) : ℚ) - q / 2 ^ (e - 23)| * 2 ^ (e - 23)
      ≤ 1 / 2 * 2 ^ (e - 23) := mul_le_mul_of_nonneg_right herr (le_of_lt hQ)
  have h2 : (1 / 2 : ℚ) * 2 ^ (e - 23) = 2 ^ e / 2 ^ 24 := by
    rw [← two_pow_23_mul e]
    ring
  have h3 : (2 : ℚ) ^ e / 2 ^ 24 ≤ q / 2 ^ 24 := by
    apply div_le_div_of_nonneg_right hlo
    positivity
  linarith

/-- Three roundings in a row, of a dividend, of a divisor and of the quotient
of the rounded values, each exact to the fraction `2^-24`, leave the result
within the fraction `2^-22` of the true quotient. -/
theorem quotient_error (a b x y z : ℚ) (ha : 0 < a) (hb : 0 < b)
    (hx : |x - a| ≤ a / 2 ^ 24) (hy : |y - b| ≤ b / 2 ^ 24)
    (hz : |z - x / y| ≤ x / y / 2 ^ 24) :
    |z - a / b| ≤ a / b / 2 ^ 22 := by
  rw [abs_le] at hx hy hz ⊢
  have hy0 : 0 < y := by linarith [hy.1]
  have hx0 : 0 < x := by linarith [hx.1]
  have hxy : 0 < x / y := div_pos hx0 hy0
  have hab : 0 < a / b := div_pos ha hb
  -- bounds on x / y in terms of a / b
  have hup : x / y ≤ a / b * ((1 + 1 / 2 ^ 24) / (1 - 1 / 2 ^ 24)) := by
    rw [div_le_iff₀ hy0]
    have h1 : x ≤ a * (1 + 1 / 2 ^ 24) := by linarith [hx.2]
    have h2 : b * (1 - 1 / 2 ^ 24) ≤ y := by linarith [hy.1]
    have h3 : a / b * ((1 + 1 / 2 ^ 24) / (1 - 1 / 2 ^ 24)) * (b * (1 - 1 / 2 ^ 24))
        = a * (1 + 1 / 2 ^ 24) := by
      field_simp
    have h4 : a / b * ((1 + 1 / 2 ^ 24) / (1 - 1 / 2 ^ 24)) * (b * (1 - 1 / 2 ^ 24))
        ≤ a / b * ((1 + 1 / 2 ^ 24) / (1 - 1 / 2 ^ 24)) * y :=
      mul_le_mul_of_nonneg_left h2 (by positivity)
    linarith
  have hdown : a / b * ((1 - 1 / 2 ^ 24) / (1 + 1 / 2 ^ 24)) ≤ x / y := by
    rw [le_div_iff₀ hy0]
    have h1 : a * (1 - 1 / 2 ^ 24) ≤ x := by linarith [hx.1]
    have h2 : y ≤ b * (1 + 1 / 2 ^ 24) := by linarith [hy.2]
    have h3 : a / b * ((1 - 1 / 2 ^ 24) / (1 + 1 / 2 ^ 24)) * (b * (1 + 1 / 2 ^ 24))
        = a * (1 - 1 / 2 ^ 24) := by
      field_simp
    have h4 : a / b * ((1 - 1 / 2 ^ 24) / (1 + 1 / 2 ^ 24)) * y
        ≤ a / b * ((1 - 1 / 2 ^ 24) / (1 + 1 / 2 ^ 24)) * (b * (1 + 1 / 2 ^ 24)) :=
      mul_le_mul_of_nonneg_left h2 (by positivity)
    linarith
  have hz2 : z ≤ x / y * (1 + 1 / 2 ^ 24) := by linarith [hz.2]
  have hz1 : x / y * (1 - 1 / 2 ^ 24) ≤ z := by linarith [hz.1]
  have hU : x / y * (1 + 1 / 2 ^ 24)
      ≤ a / b * ((1 + 1 / 2 ^ 24) / (1 - 1 / 2 ^ 24)) * (1 + 1 / 2 ^ 24) :=
    mul_le_mul_of_nonneg_right hup (by norm_num)
  have hL : a / b * ((1 - 1 / 2 ^ 24) / (1 + 1 / 2 ^ 24)) * (1 - 1 / 2 ^ 24)
      ≤ x / y * (1 - 1 / 2 ^ 24) :=
    mul_le_mul_of_nonneg_right hdown (by norm_num)
  have hcU : ((1 + 1 / 2 ^ 24) / (1 - 1 / 2 ^ 24) : ℚ) * (1 + 1 / 2 ^ 24) ≤ 1 + 1 / 2 ^ 22 := by
    norm_num
  have hcL : (1 - 1 / 2 ^ 22 : ℚ) ≤ (1 - 1 / 2 ^ 24) / (1 + 1 / 2 ^ 24) * (1 - 1 / 2 ^ 24) := by
    norm_num
  have hU2 : a / b * ((1 + 1 / 2 ^ 24) / (1 - 1 / 2 ^ 24)) * (1 + 1 / 2 ^ 24)
      ≤ a / b * (1 + 1 / 2 ^ 22) := by
    rw [mul_assoc]
    exact mul_le_mul_of_nonneg_left hcU (le_of_lt hab)
  have hL2 : a / b * (1 - 1 / 2 ^ 22)
      ≤ a / b * ((1 - 1 / 2 ^ 24) / (1 + 1 / 2 ^ 24)) * (1 - 1 / 2 ^ 24) := by
    rw [mul_assoc]
    exact mul_le_mul_of_nonneg_left hcL (le_of_lt hab)
  constructor
  · have : a / b * (1 - 1 / 2 ^ 22) ≤ z := by linarith
    linarith
  · have : z ≤ a / b * (1 + 1 / 2 ^ 22) := by linarith
    linarith

theorem FloatVal.round_one : FloatVal.round 1 = FloatVal.finite 1 := by
  have hn : round_half_even ((1 : ℚ) / 2 ^ ((0 : ℤ) - 23)) = 8388608 := by
    rw [round_half_even_down _ 8388608 (by norm_num) (by norm_num)]
  have h := FloatVal.round_eval (1 : ℚ) 0 8388608 (by norm_num) (by norm_num)
    (by norm_num) hn (by norm_num)
  rw [h]
  norm_num

/-- A positive `size_t` below `2^64` converts to a finite value that differs
from it by at most the fraction `2^-24`. -/
theorem FloatVal.of_size_t_error (n : Nat) (hn : 0 < n) (h64 : n < 2 ^ 64) :
    ∃ r : ℚ, 1 ≤ r ∧ r ≤ 2 ^ 64 ∧ |r - (n : ℚ)| ≤ (n : ℚ) / 2 ^ 24 ∧
      FloatVal.of_size_t n = FloatVal.finite r := by
  obtain ⟨r, h1, h2, hr⟩ := FloatVal.of_size_t_finite n hn h64
  have hq : (2 : ℚ) ^ (-126 : ℤ) ≤ (n : ℚ) := by
    have : (1 : ℚ) ≤ (n : ℚ) := by exact_mod_cast hn
    exact le_trans (by norm_num) this
  exact ⟨r, h1, h2, FloatVal.round_error (n : ℚ) r hq hr, hr⟩

/-- The quotient of two finite values between 1 and `2^64` is a positive finite
value that differs from the exact quotient by at most the fraction `2^-24`. -/
theorem FloatVal.div_finite (x y : ℚ) (hx1 : 1 ≤ x) (hx2 : x ≤ 2 ^ 64) (hy1 : 1 ≤ y)
    (hy2 : y ≤ 2 ^ 64) :
    ∃ z : ℚ, 0 < z ∧ |z - x / y| ≤ x / y / 2 ^ 24 ∧
      FloatVal.div (FloatVal.finite x) (FloatVal.finite y) = FloatVal.finite z := by
  have hy0 : (0 : ℚ) < y := by linarith
  have hlo : (2 : ℚ) ^ (-64 : ℤ) ≤ x / y := by
    rw [le_div_iff₀ hy0]
    have h : (2 : ℚ) ^ (-64 : ℤ) * y ≤ (2 : ℚ) ^ (-64 : ℤ) * 2 ^ 64 :=
      mul_le_mul_of_nonneg_left hy2 (by positivity)
    have h2 : (2 : ℚ) ^ (-64 : ℤ) * 2 ^ 64 = 1 := by norm_num
    linarith
  have hhi : x / y < (2 : ℚ) ^ (65 : ℤ) := by
    rw [div_lt_iff₀ hy0]
    have h : (2 : ℚ) ^ (65 : ℤ) * 1 ≤ (2 : ℚ) ^ (65 : ℤ) * y :=
      mul_le_mul_of_nonneg_left hy1 (by positivity)
    have h2 : (2 : ℚ) ^ (64 : ℕ) < (2 : ℚ) ^ (65 : ℤ) * 1 := by norm_num
    linarith
  obtain ⟨z, hz1, _, hz⟩ := FloatVal.round_between (x / y) (-64) 65 (by norm_num)
    (by norm_num) hlo hhi
  have h126 : (2 : ℚ) ^ (-126 : ℤ) ≤ x / y := le_trans (by norm_num) hlo
  refine ⟨z, lt_of_lt_of_le (by positivity) hz1, FloatVal.round_error (x / y) z h126 hz, ?_⟩
  simp only [FloatVal.div]
  rw [if_neg (ne_of_gt hy0), hz]

theorem zmalloc_get_fragmentation_ratio_zero (s : State) (rss : Nat)
    (hu : zmalloc_used_memory s = 0) :
    zmalloc_get_fragmentation_ratio s rss
      = if rss = 0 then FloatVal.nan else FloatVal.pos_inf := by
  unfold zmalloc_get_fragmentation_ratio
  rw [hu, FloatVal.of_size_t_zero]
  by_cases h : rss = 0
  · subst h
    rw [FloatVal.of_size_t_zero]
    simp [FloatVal.div]
  · rw [if_neg h]
    rcases FloatVal.of_size_t_pos rss (Nat.pos_of_ne_zero h) with hinf | ⟨r, hr, hfin⟩
    · rw [hinf]
      simp [FloatVal.div]
    · rw [hfin]
      simp [FloatVal.div, hr, ne_of_gt hr]

/-- With positive values below `2^64` on both sides the ratio is a positive
finite `float` within the fraction `2^-22` of the exact quotient. -/
theorem zmalloc_get_fragmentation_ratio_finite (s : State) (rss : Nat) (hr : 0 < rss)
    (hr64 : rss < 2 ^ 64) (hu : zmalloc_used_memory s ≠ 0)
    (hu64 : zmalloc_used_memory s < 2 ^ 64) :
    ∃ q : ℚ, zmalloc_get_fragmentation_ratio s rss = FloatVal.finite q ∧ 0 < q ∧
      |q - (rss : ℚ) / (zmalloc_used_memory s : ℚ)|
        ≤ (rss : ℚ) / (zmalloc_used_memory s : ℚ) / 2 ^ 22 := by
  obtain ⟨x, hx1, hx2, hxe, hx⟩ := FloatVal.of_size_t_error rss hr hr64
  obtain ⟨y, hy1, hy2, hye, hy⟩ :=
    FloatVal.of_size_t_error (zmalloc_used_memory s) (Nat.pos_of_ne_zero hu) hu64
  obtain ⟨z, hz0, hze, hz⟩ := FloatVal.div_finite x y hx1 hx2 hy1 hy2
  have ha : (0 : ℚ) < (rss : ℚ) := by exact_mod_cast hr
  have hb : (0 : ℚ) < (zmalloc_used_memory s : ℚ) := by
    exact_mod_cast Nat.pos_of_ne_zero hu
  refine ⟨z, ?_, hz0, quotient_error _ _ x y z ha hb hxe hye hze⟩
  unfold zmalloc_get_fragmentation_ratio
  rw [hx, hy, hz]

/-- After `zmalloc(10)` on the 64-bit platform the counter is 24, and the ratio
for a resident set of 4096 bytes is the `float` nearest to `4096/24`. -/
theorem zmalloc_get_fragmentation_ratio_4096_24 :
    zmalloc_used_memory (zmalloc lp64 State.init 10 4096).st = 24 ∧
    zmalloc_get_fragmentation_ratio (zmalloc lp64 State.init 10 4096).st 4096
      = FloatVal.finite (11184811 / 65536) := by
  have h24 : zmalloc_used_memory (zmalloc lp64 State.init 10 4096).st = 24 := by decide
  refine ⟨h24, ?_⟩
  unfold zmalloc_get_fragmentation_ratio
  rw [h24]
  exact FloatVal.div_4096_24

/-- C11, the claim as stated fails: with the counter at zero the function
still divides.  For `rss = 0` the result is not-a-number, for `rss = 1` it is
positive infinity; so not-a-number does occur and there is no single sentinel. -/
theorem fragmentation_ratio_zero_divisor_no_policy :
    zmalloc_used_memory State.init = 0 ∧
    zmalloc_get_fragmentation_ratio State.init 0 = FloatVal.nan ∧
    zmalloc_get_fragmentation_ratio State.init 1 = FloatVal.pos_inf ∧
    zmalloc_get_fragmentation_ratio State.init 0
      ≠ zmalloc_get_fragmentation_ratio State.init 1 := by
  have h0 : zmalloc_used_memory State.init = 0 := rfl
  refine ⟨h0, ?_, ?_, ?_⟩
  · rw [zmalloc_get_fragmentation_ratio_zero _ _ h0]; rfl
  · rw [zmalloc_get_fragmentation_ratio_zero _ _ h0]; rfl
  · rw [zmalloc_get_fragmentation_ratio_zero _ _ h0, zmalloc_get_fragmentation_ratio_zero _ _ h0]
    simp

/-- C11, amended: the function applies no zero-divisor policy, it always
returns the `float` quotient of `rss` by `zmalloc_used_memory()`.  For positive
`rss` that quotient is positive infinity when the counter is zero; when the
counter is not zero, both values being below `2^64`, it is a positive finite
`float` within the fraction `2^-22` of the exact ratio. -/
theorem fragmentation_ratio_is_plain_quotient (s : State) (rss : Nat) (hr : 0 < rss)
    (hr64 : rss < 2 ^ 64) (hu64 : zmalloc_used_memory s < 2 ^ 64) :
    if zmalloc_used_memory s = 0 then
      zmalloc_get_fragmentation_ratio s rss = FloatVal.pos_inf
    else
      ∃ q : ℚ, zmalloc_get_fragmentation_ratio s rss = FloatVal.finite q ∧ 0 < q ∧
        |q - (rss : ℚ) / (zmalloc_used_memory s : ℚ)|
          ≤ (rss : ℚ) / (zmalloc_used_memory s : ℚ) / 2 ^ 22 := by
  by_cases hu : zmalloc_used_memory s = 0
  · rw [if_pos hu, zmalloc_get_fragmentation_ratio_zero s rss hu,
      if_neg (Nat.pos_iff_ne_zero.mp hr)]
  · rw [if_neg hu]
    exact zmalloc_get_fragmentation_ratio_finite s rss hr hr64 hu hu64

theorem fragmentation_ratio_is_plain_quotient_witness :
    0 < 4096 ∧ 4096 < 2 ^ 64 ∧
    zmalloc_used_memory (zmalloc lp64 State.init 10 4096).st < 2 ^ 64 ∧
    (if zmalloc_used_memory (zmalloc lp64 State.init 10 4096).st = 0 then
      zmalloc_get_fragmentation_ratio (zmalloc lp64 State.init 10 4096).st 4096
        = FloatVal.pos_inf
    else
      ∃ q : ℚ, zmalloc_get_fragmentation_ratio (zmalloc lp64 State.init 10 4096).st 4096
          = FloatVal.finite q ∧ 0 < q ∧
        |q - ((4096 : Nat) : ℚ) / (zmalloc_used_memory (zmalloc lp64 State.init 10 4096).st : ℚ)|
          ≤ ((4096 : Nat) : ℚ) / (zmalloc_used_memory (zmalloc lp64 State.init 10 4096).st : ℚ)
              / 2 ^ 22) :=
  ⟨by decide, by decide, by decide,
    fragmentation_ratio_is_plain_quotient (zmalloc lp64 State.init 10 4096).st 4096
      (by decide) (by decide) (by decide)⟩

/-- With a counter that is not zero and is below `2^64`, the ratio of the
counter to itself is exactly 1: both conversions give the same `float`. -/
theorem fallback_ratio_nonzero (s : State) (hu : zmalloc_used_memory s ≠ 0)
    (hu64 : zmalloc_used_memory s < 2 ^ 64) :
    zmalloc_get_fragmentation_ratio s (zmalloc_get_rss_fallback s) = FloatVal.finite 1 := by
  obtain ⟨x, hx1, _, hx⟩ :=
    FloatVal.of_size_t_finite (zmalloc_used_memory s) (Nat.pos_of_ne_zero hu) hu64
  have hx0 : x ≠ 0 := by
    intro h
    rw [h] at hx1
    norm_num at hx1
  unfold zmalloc_get_fragmentation_ratio zmalloc_get_rss_fallback
  rw [hx]
  simp only [FloatVal.div]
  rw [if_neg hx0, div_self hx0, FloatVal.round_one]

/-- C12, the code at the failing input: in the build without an OS probe, at
process start `zmalloc_get_rss()` returns `zmalloc_used_memory()`, which is 0,
and `zmalloc_get_fragmentation_ratio` of that value is not-a-number, not 1. -/
theorem fallback_ratio_at_start_is_nan :
    zmalloc_get_rss_fallback State.init = zmalloc_used_memory State.init ∧
    zmalloc_get_rss_fallback State.init = 0 ∧
    zmalloc_get_fragmentation_ratio State.init (zmalloc_get_rss_fallback State.init)
      = FloatVal.nan ∧
    zmalloc_get_fragmentation_ratio State.init (zmalloc_get_rss_fallback State.init)
      ≠ FloatVal.finite 1 := by
  have h0 : zmalloc_used_memory State.init = 0 := rfl
  have hn : zmalloc_get_fragmentation_ratio State.init (zmalloc_get_rss_fallback State.init)
      = FloatVal.nan := by
    rw [zmalloc_get_fragmentation_ratio_zero _ _ h0]; rfl
  refine ⟨rfl, rfl, hn, ?_⟩
  rw [hn]; simp

/-! ## A handler that returns -/

theorem zmalloc_failure_state (pf : Platform) (s : State) (n : Nat) :
    (zmalloc pf s n 0).st.used_memory = s.used_memory ∧
    (zmalloc pf s n 0).st.mem = s.mem ∧ (zmalloc pf s n 0).st.blocks = s.blocks := by
  simp only [zmalloc, if_true]
  unfold call_oom_handler
  cases h : (malloc s ((n + PREFIX_SIZE pf) % pf.SIZE_MOD) 0).zmalloc_oom_handler with
  | zmalloc_default_oom => simp [malloc]
  | custom tag returns => cases returns <;> simp [malloc]

theorem zcalloc_failure_state (pf : Platform) (s : State) (n : Nat) :
    (zcalloc pf s n 0).st.used_memory = s.used_memory ∧
    (zcalloc pf s n 0).st.mem = s.mem ∧ (zcalloc pf s n 0).st.blocks = s.blocks := by
  simp only [zcalloc, if_true]
  unfold call_oom_handler
  cases h : (calloc s 1 ((n + PREFIX_SIZE pf) % pf.SIZE_MOD) 0).zmalloc_oom_handler with
  | zmalloc_default_oom => simp [calloc]
  | custom tag returns => cases returns <;> simp [calloc]

theorem zrealloc_failure_state (pf : Platform) (s : State) (p n : Nat) :
    (zrealloc pf s p n 0).st.used_memory = s.used_memory ∧
    (zrealloc pf s p n 0).st.mem = s.mem ∧ (zrealloc pf s p n 0).st.blocks = s.blocks := by
  by_cases hp : p = 0
  · subst hp
    simpa [zrealloc] using zmalloc_failure_state pf s n
  · simp only [zrealloc, if_neg hp, if_true]
    unfold call_oom_handler
    cases h : (realloc s (p - PREFIX_SIZE pf) ((n + PREFIX_SIZE pf) % pf.SIZE_MOD)
        0).zmalloc_oom_handler with
    | zmalloc_default_oom => simp [realloc]
    | custom tag returns => cases returns <;> simp [realloc]

/-- C18, the claim as stated fails: with a handler that returns installed and
the backend failing, `zmalloc(100)` and `zrealloc(p, 100)` do not return a null
pointer (nor any pointer): they end in the store through the null backend
result that follows the handler call. -/
theorem returning_handler_no_null_result :
    (zmalloc lp64 (zmalloc_set_oom_handler State.init (OomHandler.custom 7 true)) 100 0).res
      = Result.null_store ∧
    (zmalloc lp64 (zmalloc_set_oom_handler State.init (OomHandler.custom 7 true)) 100 0).res
      ≠ Result.ret 0 ∧
    (zrealloc lp64 (zmalloc_set_oom_handler State.init (OomHandler.custom 7 true)) 520 100 0).res
      = Result.null_store ∧
    (zrealloc lp64 (zmalloc_set_oom_handler State.init (OomHandler.custom 7 true)) 520 100 0).res
      ≠ Result.ret 0 := by
  refine ⟨by decide, by decide, by decide, by decide⟩

/-- C18, amended: when a custom OOM handler that returns is installed and the
backend allocation fails, `zmalloc(n)`, `zcalloc(n)` and `zrealloc(p, n)` call
the handler once with `n` and then store `size` through the null backend
result, inside the allocator; no pointer is handed back.  Up to that store the
counter, the memory and the backend's blocks are untouched. -/
theorem returning_handler_null_store (pf : Platform) (s : State) (tag n p : Nat)
    (hh : s.zmalloc_oom_handler = OomHandler.custom tag true) :
    ((zmalloc pf s n 0).res = Result.null_store ∧
      oom_calls (zmalloc pf s n 0).st.trace
        = oom_calls s.trace ++ [(OomHandler.custom tag true, n)] ∧
      (zmalloc pf s n 0).st.used_memory = s.used_memory ∧
      (zmalloc pf s n 0).st.mem = s.mem ∧ (zmalloc pf s n 0).st.blocks = s.blocks) ∧
    ((zcalloc pf s n 0).res = Result.null_store ∧
      oom_calls (zcalloc pf s n 0).st.trace
        = oom_calls s.trace ++ [(OomHandler.custom tag true, n)] ∧
      (zcalloc pf s n 0).st.used_memory = s.used_memory ∧
      (zcalloc pf s n 0).st.mem = s.mem ∧ (zcalloc pf s n 0).st.blocks = s.blocks) ∧
    ((zrealloc pf s p n 0).res = Result.null_store ∧
      oom_calls (zrealloc pf s p n 0).st.trace
        = oom_calls s.trace ++ [(OomHandler.custom tag true, n)] ∧
      (zrealloc pf s p n 0).st.used_memory = s.used_memory ∧
      (zrealloc pf s p n 0).st.mem = s.mem ∧ (zrealloc pf s p n 0).st.blocks = s.blocks) := by
  have hm : (zmalloc pf s n 0).res = Result.null_store := by
    simp [zmalloc, call_oom_handler, malloc, hh]
  refine ⟨⟨hm, ?_, zmalloc_failure_state pf s n⟩, ⟨?_, ?_, zcalloc_failure_state pf s n⟩,
    ⟨?_, ?_, zrealloc_failure_state pf s p n⟩⟩
  · rw [zmalloc_failure_oom, hh]
  · simp [zcalloc, call_oom_handler, calloc, hh]
  · rw [zcalloc_failure_oom, hh]
  · by_cases hp : p = 0
    · subst hp
      simpa [zrealloc] using hm
    · simp [zrealloc, hp, call_oom_handler, realloc, hh]
  · rw [zrealloc_failure_oom, hh]

theorem returning_handler_null_store_witness :
    (zmalloc_set_oom_handler State.init (OomHandler.custom 7 true)).zmalloc_oom_handler
      = OomHandler.custom 7 true ∧
    (zmalloc lp64 (zmalloc_set_oom_handler State.init (OomHandler.custom 7 true)) 100 0).res
      = Result.null_store :=
  ⟨rfl, (returning_handler_null_store lp64
    (zmalloc_set_oom_handler State.init (OomHandler.custom 7 true)) 7 100 520 rfl).1.1⟩

/-! ## The thread-safety flag does not change sequential behaviour -/

theorem same_but_flag_eq (s t : State) (h : same_but_flag s t) :
    t = { s with zmalloc_thread_safe := t.zmalloc_thread_safe } := by
  obtain ⟨h1, h2, h3, h4, h5⟩ := h
  cases s
  cases t
  simp_all

theorem zmalloc_flag (pf : Platform) (s : State) (b : Bool) (n r : Nat) :
    zmalloc pf { s with zmalloc_thread_safe := b } n r =
      ⟨(zmalloc pf s n r).res, { (zmalloc pf s n r).st with zmalloc_thread_safe := b }⟩ := by
  by_cases hr : r = 0
  · subst hr
    simp only [zmalloc, if_true, call_oom_handler, malloc]
    cases h : s.zmalloc_oom_handler with
    | zmalloc_default_oom => simp
    | custom tag returns => cases returns <;> simp
  · rw [zmalloc_success pf _ n r hr, zmalloc_success pf s n r hr]

theorem zcalloc_flag (pf : Platform) (s : State) (b : Bool) (n r : Nat) :
    zcalloc pf { s with zmalloc_thread_safe := b } n r =
      ⟨(zcalloc pf s n r).res, { (zcalloc pf s n r).st with zmalloc_thread_safe := b }⟩ := by
  by_cases hr : r = 0
  · subst hr
    simp only [zcalloc, if_true, call_oom_handler, calloc]
    cases h : s.zmalloc_oom_handler with
    | zmalloc_default_oom => simp
    | custom tag returns => cases returns <;> simp
  · rw [zcalloc_success pf _ n r hr, zcalloc_success pf s n r hr]

theorem zrealloc_flag (pf : Platform) (s : State) (b : Bool) (p n r : Nat) :
    zrealloc pf { s with zmalloc_thread_safe := b } p n r =
      ⟨(zrealloc pf s p n r).res, { (zrealloc pf s p n r).st with zmalloc_thread_safe := b }⟩ := by
  by_cases hp : p = 0
  · subst hp
    simpa [zrealloc] using zmalloc_flag pf s b n r
  · by_cases hr : r = 0
    · subst hr
      simp only [zrealloc, if_neg hp, if_true, call_oom_handler, realloc]
      cases h : s.zmalloc_oom_handler with
      | zmalloc_default_oom => simp
      | custom tag returns => cases returns <;> simp
    · rw [zrealloc_success pf _ p n r hp hr, zrealloc_success pf s p n r hp hr]

theorem zfree_flag (pf : Platform) (s : State) (b : Bool) (p : Nat) :
    zfree pf { s with zmalloc_thread_safe := b } p =
      { (zfree pf s p) with zmalloc_thread_safe := b } := by
  by_cases hp : p = 0
  · subst hp
    simp [zfree]
  · rw [zfree_live pf _ p hp, zfree_live pf s p hp]

theorem outcome_flag (pf : Platform) (s : State) (b : Bool) (c : Call) :
    c.outcome pf { s with zmalloc_thread_safe := b } =
      ((c.outcome pf s).1, { (c.outcome pf s).2 with zmalloc_thread_safe := b }) := by
  cases c with
  | zmalloc n r => simp only [Call.outcome, zmalloc_flag]
  | zcalloc n r => simp only [Call.outcome, zcalloc_flag]
  | zrealloc p n r => simp only [Call.outcome, zrealloc_flag]
  | zfree p => simp only [Call.outcome, zfree_flag]

theorem same_but_flag_set (s : State) (b : Bool) :
    same_but_flag s { s with zmalloc_thread_safe := b } :=
  ⟨rfl, rfl, rfl, rfl, rfl⟩

theorem same_but_flag_trans {s t u : State} (h1 : same_but_flag s t) (h2 : same_but_flag t u) :
    same_but_flag s u :=
  ⟨h1.1.trans h2.1, h1.2.1.trans h2.2.1, h1.2.2.1.trans h2.2.2.1,
    h1.2.2.2.1.trans h2.2.2.2.1, h1.2.2.2.2.trans h2.2.2.2.2⟩

theorem observe_flag (pf : Platform) :
    ∀ (ops : List Op) (s t : State), same_but_flag s t →
      (observe pf s ops).1 = (observe pf t (without_enable ops)).1 ∧
      same_but_flag (observe pf s ops).2 (observe pf t (without_enable ops)).2 := by
  intro ops
  induction ops with
  | nil => intro s t h; exact ⟨rfl, h⟩
  | cons o ops ih =>
    intro s t h
    cases o with
    | enable_thread_safeness =>
      have hw : without_enable (Op.enable_thread_safeness :: ops) = without_enable ops := by
        simp [without_enable]
      rw [hw]
      simp only [observe]
      exact ih _ t ⟨h.1, h.2.1, h.2.2.1, h.2.2.2.1, h.2.2.2.2⟩
    | used_memory =>
      have hw : without_enable (Op.used_memory :: ops) = Op.used_memory :: without_enable ops := by
        simp [without_enable]
      rw [hw]
      simp only [observe]
      obtain ⟨i1, i2⟩ := ih s t h
      refine ⟨?_, i2⟩
      rw [i1, zmalloc_used_memory_eq, zmalloc_used_memory_eq, h.1]
    | call c =>
      have hw : without_enable (Op.call c :: ops) = Op.call c :: without_enable ops := by
        simp [without_enable]
      rw [hw]
      have ht := same_but_flag_eq s t h
      have ho : c.outcome pf t
          = ((c.outcome pf s).1,
              { (c.outcome pf s).2 with zmalloc_thread_safe := t.zmalloc_thread_safe }) := by
        rw [ht]
        exact outcome_flag pf s _ c
      simp only [observe]
      rw [ho]
      generalize c.outcome pf s = o
      obtain ⟨r, s1⟩ := o
      have hs1 := same_but_flag_set s1 t.zmalloc_thread_safe
      cases r with
      | none =>
        obtain ⟨i1, i2⟩ := ih s1 _ hs1
        exact ⟨by simp only [i1], i2⟩
      | some r =>
        cases r with
        | ret p =>
          obtain ⟨i1, i2⟩ := ih s1 _ hs1
          exact ⟨by simp only [i1], i2⟩
        | aborted => exact ⟨rfl, hs1⟩
        | null_store => exact ⟨rfl, hs1⟩

/-- C20: take any client, that is any sequence of `zmalloc`, `zcalloc`,
`zrealloc`, `zfree` and `zmalloc_used_memory` calls with calls of
`zmalloc_enable_thread_safeness()` placed anywhere, started in any state; and
the same client without the enabling calls, started with the flag at 0.  Both
see the same results (returned pointers, values of `zmalloc_used_memory()`),
and the final states agree on the counter and on everything else but the flag.
Enabling thread safety itself changes neither the counter nor the handler. -/
theorem thread_safety_flag_is_unobservable (pf : Platform) (s : State) (ops : List Op) :
    (observe pf s ops).1
      = (observe pf { s with zmalloc_thread_safe := false } (without_enable ops)).1 ∧
    (observe pf s ops).2.used_memory
      = (observe pf { s with zmalloc_thread_safe := false } (without_enable ops)).2.used_memory ∧
    same_but_flag (observe pf s ops).2
      (observe pf { s with zmalloc_thread_safe := false } (without_enable ops)).2 ∧
    (zmalloc_enable_thread_safeness s).used_memory = s.used_memory ∧
    (zmalloc_enable_thread_safeness s).zmalloc_oom_handler = s.zmalloc_oom_handler ∧
    (zmalloc_enable_thread_safeness s).zmalloc_thread_safe = true := by
  obtain ⟨h1, h2⟩ := observe_flag pf ops s _ (same_but_flag_set s false)
  exact ⟨h1, h2.1, h2, rfl, rfl, rfl⟩

/-! ## `zstrdup` -/

theorem strlen_eq (m : Nat → Nat) :
    ∀ (len a fuel : Nat), (∀ i, i < len → m (a + i) ≠ 0) → m (a + len) = 0 → len < fuel →
      strlen m a fuel = some len := by
  intro len
  induction len with
  | zero =>
    intro a fuel _ hz hf
    obtain ⟨f, rfl⟩ : ∃ f, fuel = f + 1 := ⟨fuel - 1, by omega⟩
    simp only [Nat.add_zero] at hz
    simp [strlen, hz]
  | succ len ih =>
    intro a fuel hnz hz hf
    obtain ⟨f, rfl⟩ : ∃ f, fuel = f + 1 := ⟨fuel - 1, by omega⟩
    have h0 : m a ≠ 0 := by simpa using hnz 0 (Nat.succ_pos _)
    have hrec : strlen m (a + 1) f = some len := by
      apply ih (a + 1) f
      · intro i hi
        have := hnz (i + 1) (by omega)
        rwa [show a + (i + 1) = a + 1 + i by omega] at this
      · rwa [show a + (len + 1) = a + 1 + len by omega] at hz
      · omega
    simp [strlen, h0, hrec]

/-- C14: let `s` be the address of a string of `len` non-NUL bytes followed by
a NUL, and let the backend `malloc` succeed with a block that does not overlap
the string.  Then `zstrdup(s)` returns the payload pointer of that block; the
first `len + 1` bytes there equal those of `s`, the NUL included; the bytes of
`s` are unchanged; and the counter, the block table and the log of backend
calls are exactly what the single call `zmalloc(len + 1)` leaves: one backend
`malloc` and nothing else. -/
theorem zstrdup_copies_string (pf : Platform) (st : State) (s len fuel ret : Nat)
    (hW : pf.sizeof_size_t ≤ PREFIX_SIZE pf)
    (hnz : ∀ i, i < len → st.mem (s + i) ≠ 0) (hz : st.mem (s + len) = 0)
    (hfuel : len < fuel) (hlen : len + 1 < pf.SIZE_MOD) (hret : ret ≠ 0)
    (hdisj : ret + (PREFIX_SIZE pf + (len + 1)) ≤ s ∨ s + (len + 1) ≤ ret) :
    ∃ o, zstrdup pf st s fuel ret = some o ∧
      o.res = Result.ret (ret + PREFIX_SIZE pf) ∧
      (∀ i, i ≤ len → o.st.mem (ret + PREFIX_SIZE pf + i) = st.mem (s + i)) ∧
      (∀ i, i ≤ len → o.st.mem (s + i) = st.mem (s + i)) ∧
      o.st.used_memory = (zmalloc pf st (len + 1) ret).st.used_memory ∧
      o.st.blocks = (zmalloc pf st (len + 1) ret).st.blocks ∧
      o.st.trace = (zmalloc pf st (len + 1) ret).st.trace ∧
      o.st.trace = st.trace ++ [Event.malloc ((len + 1 + PREFIX_SIZE pf) % pf.SIZE_MOD) ret] := by
  have hs : strlen st.mem s fuel = some len := strlen_eq st.mem len s fuel hnz hz hfuel
  have hsrc : ∀ i, i ≤ len → store_size_t pf st.mem ret (len + 1) (s + i) = st.mem (s + i) := by
    intro i hi
    unfold store_size_t
    rw [if_neg]
    omega
  refine ⟨⟨Result.ret (ret + PREFIX_SIZE pf),
    { (zmalloc pf st (len + 1) ret).st with
      mem := memcpy (zmalloc pf st (len + 1) ret).st.mem (ret + PREFIX_SIZE pf) s (len + 1) }⟩,
    ?_, rfl, ?_, ?_, rfl, rfl, rfl, ?_⟩
  · simp only [zstrdup, hs, Nat.mod_eq_of_lt hlen]
    rw [zmalloc_success pf st (len + 1) ret hret]
  · intro i hi
    rw [zmalloc_success pf st (len + 1) ret hret]
    simp only [memcpy]
    rw [if_pos ⟨by omega, by omega⟩]
    rw [show s + (ret + PREFIX_SIZE pf + i - (ret + PREFIX_SIZE pf)) = s + i by omega]
    exact hsrc i hi
  · intro i hi
    rw [zmalloc_success pf st (len + 1) ret hret]
    simp only [memcpy]
    rw [if_neg (by omega)]
    exact hsrc i hi
  · rw [zmalloc_success pf st (len + 1) ret hret]

theorem zstrdup_copies_string_witness :
    (lp64.sizeof_size_t ≤ PREFIX_SIZE lp64 ∧
      (∀ i, i < 2 → (write_bytes State.init 100 [104, 105, 0]).mem (100 + i) ≠ 0) ∧
      (write_bytes State.init 100 [104, 105, 0]).mem (100 + 2) = 0 ∧
      2 < 10 ∧ 2 + 1 < lp64.SIZE_MOD ∧ 4096 ≠ 0 ∧
      (4096 + (PREFIX_SIZE lp64 + (2 + 1)) ≤ 100 ∨ 100 + (2 + 1) ≤ 4096)) ∧
    ∃ o, zstrdup lp64 (write_bytes State.init 100 [104, 105, 0]) 100 10 4096 = some o ∧
      o.res = Result.ret (4096 + PREFIX_SIZE lp64) ∧
      (∀ i, i ≤ 2 → o.st.mem (4096 + PREFIX_SIZE lp64 + i)
        = (write_bytes State.init 100 [104, 105, 0]).mem (100 + i)) ∧
      (∀ i, i ≤ 2 → o.st.mem (100 + i) = (write_bytes State.init 100 [104, 105, 0]).mem (100 + i)) ∧
      o.st.used_memory
        = (zmalloc lp64 (write_bytes State.init 100 [104, 105, 0]) (2 + 1) 4096).st.used_memory ∧
      o.st.blocks
        = (zmalloc lp64 (write_bytes State.init 100 [104, 105, 0]) (2 + 1) 4096).st.blocks ∧
      o.st.trace
        = (zmalloc lp64 (write_bytes State.init 100 [104, 105, 0]) (2 + 1) 4096).st.trace ∧
      o.st.trace = (write_bytes State.init 100 [104, 105, 0]).trace
        ++ [Event.malloc ((2 + 1 + PREFIX_SIZE lp64) % lp64.SIZE_MOD) 4096] :=
  ⟨⟨by decide, by decide, by decide, by decide, by decide, by decide, by decide⟩,
    zstrdup_copies_string lp64 (write_bytes State.init 100 [104, 105, 0]) 100 2 10 4096
      (by decide) (by decide) (by decide) (by decide) (by decide) (by decide) (by decide)⟩

/-! ## Raw pointers and headers along call sequences -/

theorem filter_ledger_block (pf : Platform) (L : List (Nat × Nat)) (p : Nat)
    (hp : PREFIX_SIZE pf ≤ p) :
    (L.map (ledger_block pf)).filter (fun b => b.1 != p - PREFIX_SIZE pf)
      = (L.filter (fun e => e.1 + PREFIX_SIZE pf != p)).map (ledger_block pf) := by
  rw [List.filter_map]
  congr 1
  apply List.filter_congr
  intro e _
  have hiff : e.1 ≠ p - PREFIX_SIZE pf ↔ e.1 + PREFIX_SIZE pf ≠ p := by
    constructor <;> intro h <;> omega
  simp only [Function.comp, ledger_block, bne_iff_ne, ne_eq]
  exact Bool.eq_iff_iff.mpr (by simpa [bne_iff_ne] using hiff)

theorem step_ledger (pf : Platform) (hv : pf.Valid) (u0 : Nat) (s : State)
    (L : List (Nat × Nat)) (c : Call)
    (hI : HeapInv pf u0 s) (hL : s.blocks = L.map (ledger_block pf)) (hok : c.ok pf s) :
    ∃ s1, c.exec pf s = some s1 ∧ HeapInv pf u0 s1 ∧
      s1.blocks = (ledger_step pf L c).map (ledger_block pf) ∧
      s1.trace = s.trace ++ [backend_event pf c] := by
  cases c with
  | zmalloc n r =>
    refine ⟨(zmalloc pf s n r).st, ?_, zmalloc_preserves pf u0 s n r hI hok, ?_, ?_⟩
    · exact Outcome.returned_of_ret _ (r + PREFIX_SIZE pf)
        (by rw [zmalloc_success pf s n r hok.1])
    · rw [zmalloc_success pf s n r hok.1]
      simp [ledger_step, ledger_block, hL]
    · rw [zmalloc_success pf s n r hok.1]
      rfl
  | zcalloc n r =>
    refine ⟨(zcalloc pf s n r).st, ?_, zcalloc_preserves pf u0 s n r hI hok, ?_, ?_⟩
    · exact Outcome.returned_of_ret _ (r + PREFIX_SIZE pf)
        (by rw [zcalloc_success pf s n r hok.1])
    · rw [zcalloc_success pf s n r hok.1]
      simp [ledger_step, ledger_block, hL]
    · rw [zcalloc_success pf s n r hok.1]
      rfl
  | zrealloc p n r =>
    obtain ⟨b0, hb0, hpb⟩ := live_payload_block pf s p hok.1
    have hp0 : p ≠ 0 := by have := hI.1.1 b0 hb0; omega
    have hPp : PREFIX_SIZE pf ≤ p := by omega
    refine ⟨(zrealloc pf s p n r).st, ?_,
      zrealloc_preserves pf hv u0 s p n r hI hok.1 hok.2, ?_, ?_⟩
    · exact Outcome.returned_of_ret _ (r + PREFIX_SIZE pf)
        (by rw [zrealloc_success pf s p n r hp0 hok.2.1])
    · rw [zrealloc_success pf s p n r hp0 hok.2.1]
      simp only [ledger_step, List.map_cons, hL, filter_ledger_block pf L p hPp]
      rfl
    · rw [zrealloc_success pf s p n r hp0 hok.2.1]
      rfl
  | zfree p =>
    obtain ⟨b0, hb0, hpb⟩ := live_payload_block pf s p hok
    have hp0 : p ≠ 0 := by have := hI.1.1 b0 hb0; omega
    have hPp : PREFIX_SIZE pf ≤ p := by omega
    refine ⟨zfree pf s p, rfl, zfree_preserves pf u0 s p hI hok, ?_, ?_⟩
    · rw [zfree_live pf s p hp0]
      simp only [ledger_step, hL, filter_ledger_block pf L p hPp]
    · rw [zfree_live pf s p hp0]
      rfl

theorem run_ledger (pf : Platform) (hv : pf.Valid) (u0 : Nat) :
    ∀ (calls : List Call) (s : State) (L : List (Nat × Nat)),
      HeapInv pf u0 s → s.blocks = L.map (ledger_block pf) → WellFormed pf s calls →
      ∃ s1, run pf s calls = some s1 ∧ HeapInv pf u0 s1 ∧
        s1.blocks = (ledger pf L calls).map (ledger_block pf) ∧
        s1.trace = s.trace ++ calls.map (backend_event pf) := by
  intro calls
  induction calls with
  | nil => intro s L hI hL _; exact ⟨s, rfl, hI, hL, by simp⟩
  | cons c cs ih =>
    intro s L hI hL hwf
    obtain ⟨s1, hs1, hI1, hL1, ht1⟩ := step_ledger pf hv u0 s L c hI hL hwf.1
    have hwf1 : WellFormed pf s1 cs := by
      have := hwf.2
      rw [hs1] at this
      exact this
    obtain ⟨s2, hs2, hI2, hL2, ht2⟩ := ih s1 (ledger_step pf L c) hI1 hL1 hwf1
    refine ⟨s2, ?_, hI2, hL2, ?_⟩
    · simp only [run, hs1]
      exact hs2
    · rw [ht2, ht1]
      simp [ledger]

theorem zrealloc_backend_event (pf : Platform) (s : State) (p m r : Nat) (hp : p ≠ 0) :
    ∃ rest, (zrealloc pf s p m r).st.trace
      = s.trace ++ Event.realloc (p - PREFIX_SIZE pf) ((m + PREFIX_SIZE pf) % pf.SIZE_MOD) r
          :: rest := by
  by_cases hr : r = 0
  · subst hr
    simp only [zrealloc, if_neg hp, if_true, call_oom_handler, realloc]
    cases h : s.zmalloc_oom_handler with
    | zmalloc_default_oom => exact ⟨_, by simp; rfl⟩
    | custom tag returns => cases returns <;> exact ⟨_, by simp; rfl⟩
  · rw [zrealloc_success pf s p m r hp hr]
    exact ⟨[], rfl⟩

theorem header_of_block (pf : Platform) (s : State) (b : Nat × Nat) (n : Nat)
    (hh : (load_size_t pf s.mem b.1 + PREFIX_SIZE pf) % pf.SIZE_MOD = b.2)
    (hb : b.2 = (n + PREFIX_SIZE pf) % pf.SIZE_MOD) :
    load_size_t pf s.mem b.1 = n % pf.SIZE_MOD := by
  have h1 : load_size_t pf s.mem b.1 + PREFIX_SIZE pf ≡ n + PREFIX_SIZE pf [MOD pf.SIZE_MOD] := by
    unfold Nat.ModEq
    rw [hh, hb]
  have h2 : load_size_t pf s.mem b.1 ≡ n [MOD pf.SIZE_MOD] := Nat.ModEq.add_right_cancel' _ h1
  unfold Nat.ModEq at h2
  rw [← h2, Nat.mod_eq_of_lt (load_lt pf s.mem b.1)]

/-- C16: in the prefix-header build on a valid platform, run any well-formed
sequence of `zmalloc`, `zcalloc`, `zrealloc` and `zfree` calls from a state with
nothing allocated.  The backend calls made are, in order, exactly the expected
ones: `zrealloc(p, ..)` and `zfree(p)` hand `p - PREFIX_SIZE` to the backend.
Afterwards the backend's live blocks are those of the client's ledger, and for
every live payload pointer `p`: `p - PREFIX_SIZE` is the raw pointer the backend
returned to the most recent successful call that produced `p`; the header at
that address holds the size argument `n` of that call (the backend was asked
for `n + PREFIX_SIZE`); and a following `zfree(p)` or `zrealloc(p, m)` hands
`p - PREFIX_SIZE` to the backend. -/
theorem raw_pointer_and_header_invariant (pf : Platform) (hv : pf.Valid) (s : State)
    (calls : List Call) (hu : s.used_memory < pf.SIZE_MOD) (h0 : s.blocks = [])
    (hwf : WellFormed pf s calls) :
    ∃ s1, run pf s calls = some s1 ∧
      s1.trace = s.trace ++ calls.map (backend_event pf) ∧
      s1.blocks = (ledger pf [] calls).map (ledger_block pf) ∧
      ∀ p ∈ live_payloads pf s1, ∃ n,
        (p - PREFIX_SIZE pf, n) ∈ ledger pf [] calls ∧
        p - PREFIX_SIZE pf + PREFIX_SIZE pf = p ∧
        load_size_t pf s1.mem (p - PREFIX_SIZE pf) = n % pf.SIZE_MOD ∧
        (zfree pf s1 p).trace = s1.trace ++ [Event.free (p - PREFIX_SIZE pf)] ∧
        ∀ m r, ∃ rest, (zrealloc pf s1 p m r).st.trace
          = s1.trace ++ Event.realloc (p - PREFIX_SIZE pf)
              ((m + PREFIX_SIZE pf) % pf.SIZE_MOD) r :: rest := by
  have hI0 : HeapInv pf s.used_memory s := by
    refine ⟨⟨by simp [h0], by simp [h0], by simp [h0]⟩, ?_⟩
    simp [accounted_sum, h0, Nat.mod_eq_of_lt hu]
  obtain ⟨s1, hrun, hI, hL, ht⟩ :=
    run_ledger pf hv s.used_memory calls s [] hI0 (by simp [h0]) hwf
  refine ⟨s1, hrun, ht, hL, ?_⟩
  intro p hp
  obtain ⟨b, hb, hpb⟩ := live_payload_block pf s1 p hp
  have hb' := hb
  rw [hL] at hb'
  obtain ⟨e, he, heb⟩ := List.mem_map.mp hb'
  have hb1 : b.1 = e.1 := by rw [← heb]; rfl
  have hb2 : b.2 = (e.2 + PREFIX_SIZE pf) % pf.SIZE_MOD := by rw [← heb]; rfl
  have hreal : p - PREFIX_SIZE pf = b.1 := by omega
  have hp0 : p ≠ 0 := by have := hI.1.1 b hb; omega
  refine ⟨e.2, ?_, by omega, ?_, ?_, ?_⟩
  · rw [hreal, hb1]
    exact he
  · rw [hreal]
    exact header_of_block pf s1 b e.2 (hI.1.2.2 b hb) hb2
  · rw [zfree_live pf s1 p hp0]
  · intro m r
    exact zrealloc_backend_event pf s1 p m r hp0

theorem raw_pointer_and_header_invariant_witness :
    (State.init.used_memory < lp64.SIZE_MOD ∧ State.init.blocks = [] ∧
      WellFormed lp64 State.init
        [Call.zmalloc 10 4096, Call.zcalloc 3 8192, Call.zrealloc 4104 100 12288,
          Call.zfree 8200]) ∧
    ∃ s1, run lp64 State.init
        [Call.zmalloc 10 4096, Call.zcalloc 3 8192, Call.zrealloc 4104 100 12288,
          Call.zfree 8200] = some s1 ∧
      s1.trace = State.init.trace ++
        [Call.zmalloc 10 4096, Call.zcalloc 3 8192, Call.zrealloc 4104 100 12288,
          Call.zfree 8200].map (backend_event lp64) ∧
      s1.blocks = (ledger lp64 []
        [Call.zmalloc 10 4096, Call.zcalloc 3 8192, Call.zrealloc 4104 100 12288,
          Call.zfree 8200]).map (ledger_block lp64) ∧
      ∀ p ∈ live_payloads lp64 s1, ∃ n,
        (p - PREFIX_SIZE lp64, n) ∈ ledger lp64 []
          [Call.zmalloc 10 4096, Call.zcalloc 3 8192, Call.zrealloc 4104 100 12288,
            Call.zfree 8200] ∧
        p - PREFIX_SIZE lp64 + PREFIX_SIZE lp64 = p ∧
        load_size_t lp64 s1.mem (p - PREFIX_SIZE lp64) = n % lp64.SIZE_MOD ∧
        (zfree lp64 s1 p).trace = s1.trace ++ [Event.free (p - PREFIX_SIZE lp64)] ∧
        ∀ m r, ∃ rest, (zrealloc lp64 s1 p m r).st.trace
          = s1.trace ++ Event.realloc (p - PREFIX_SIZE lp64)
              ((m + PREFIX_SIZE lp64) % lp64.SIZE_MOD) r :: rest :=
  ⟨⟨by decide, rfl, by decide⟩,
    raw_pointer_and_header_invariant lp64 lp64_valid State.init
      [Call.zmalloc 10 4096, Call.zcalloc 3 8192, Call.zrealloc 4104 100 12288, Call.zfree 8200]
      (by decide) rfl (by decide)⟩

/-! ## No underflow of the counter -/

theorem mem_le_sum (f : Nat × Nat → Nat) :
    ∀ (l : List (Nat × Nat)) (b : Nat × Nat), b ∈ l → f b ≤ (l.map f).sum := by
  intro l
  induction l with
  | nil => intro b hb; simp at hb
  | cons x xs ih =>
    intro b hb
    rcases List.mem_cons.mp hb with h | h
    · subst h
      simp
    · have := ih b h
      simp only [List.map_cons, List.sum_cons]
      omega

theorem pad_to_long_eq_of_fit {pf : Platform} (hv : pf.Valid) (h : Nat)
    (hfit : h + slack pf h < pf.SIZE_MOD) : pad_to_long pf h = h + slack pf h := by
  obtain ⟨a, ha⟩ := hv.long_pow
  have hlt : h < pf.SIZE_MOD := by omega
  rw [pad_to_long_eq pf a ha h hlt, Nat.mod_eq_of_lt hfit]

theorem accounted_eq_ideal {pf : Platform} (hv : pf.Valid) (h : Nat)
    (hfit : ideal_size pf h < pf.SIZE_MOD) : accounted pf h = ideal_size pf h := by
  unfold ideal_size at hfit
  have hlt : h < pf.SIZE_MOD := by omega
  rw [accounted_eq hv, Nat.mod_eq_of_lt hlt, pad_to_long_eq_of_fit hv h (by omega),
    Nat.mod_eq_of_lt hfit]
  rfl

theorem accounted_sum_eq_ideal_sum {pf : Platform} (hv : pf.Valid) (s : State)
    (hb : ideal_sum pf s < pf.SIZE_MOD) : accounted_sum pf s = ideal_sum pf s := by
  unfold accounted_sum ideal_sum
  congr 1
  apply List.map_congr_left
  intro b hmem
  apply accounted_eq_ideal hv
  exact lt_of_le_of_lt
    (mem_le_sum (fun b => ideal_size pf (load_size_t pf s.mem b.1)) s.blocks b hmem) hb

theorem used_memory_eq_ideal_sum {pf : Platform} (hv : pf.Valid) (s : State)
    (hI : HeapInv pf 0 s) (hb : ideal_sum pf s < pf.SIZE_MOD) :
    s.used_memory = ideal_sum pf s := by
  rw [hI.2, Nat.zero_add, accounted_sum_eq_ideal_sum hv s hb, Nat.mod_eq_of_lt hb]

theorem subtrahend_le {pf : Platform} (hv : pf.Valid) (s : State) (c : Call)
    (hI : HeapInv pf 0 s) (hb : ideal_sum pf s < pf.SIZE_MOD) (hok : c.ok pf s) :
    c.subtrahend pf s ≤ s.used_memory := by
  rw [used_memory_eq_ideal_sum hv s hI hb]
  cases c with
  | zmalloc n r => simp [Call.subtrahend]
  | zcalloc n r => simp [Call.subtrahend]
  | zrealloc p n r =>
    obtain ⟨b0, hb0, hpb⟩ := live_payload_block pf s p hok.1
    have hp0 : p ≠ 0 := by have := hI.1.1 b0 hb0; omega
    have hreal : p - PREFIX_SIZE pf = b0.1 := by omega
    have hle := mem_le_sum (fun b => ideal_size pf (load_size_t pf s.mem b.1)) s.blocks b0 hb0
    have hfit : ideal_size pf (load_size_t pf s.mem b0.1) < pf.SIZE_MOD :=
      lt_of_le_of_lt hle hb
    unfold ideal_size at hfit
    simp only [Call.subtrahend, hp0, hok.2.1, or_self, if_false, hreal]
    rw [Nat.mod_eq_of_lt (load_lt pf s.mem b0.1), pad_to_long_eq_of_fit hv _ (by omega)]
    have hle2 : load_size_t pf s.mem b0.1 + slack pf (load_size_t pf s.mem b0.1)
        ≤ ideal_size pf (load_size_t pf s.mem b0.1) := by
      unfold ideal_size
      omega
    exact le_trans hle2 hle
  | zfree p =>
    obtain ⟨b0, hb0, hpb⟩ := live_payload_block pf s p hok
    have hp0 : p ≠ 0 := by have := hI.1.1 b0 hb0; omega
    have hreal : p - PREFIX_SIZE pf = b0.1 := by omega
    have hle := mem_le_sum (fun b => ideal_size pf (load_size_t pf s.mem b.1)) s.blocks b0 hb0
    have hfit : ideal_size pf (load_size_t pf s.mem b0.1) < pf.SIZE_MOD :=
      lt_of_le_of_lt hle hb
    simp only [Call.subtrahend, hp0, if_false, hreal]
    have := accounted_eq_ideal hv _ hfit
    unfold accounted at this
    rw [this]
    exact hle

theorem no_underflow_of_bounded (pf : Platform) (hv : pf.Valid) :
    ∀ (calls : List Call) (s : State), HeapInv pf 0 s → WellFormed pf s calls →
      Bounded pf s calls →
      ∃ s1, run pf s calls = some s1 ∧ NoUnderflow pf s calls ∧
        s1.used_memory = ideal_sum pf s1 := by
  intro calls
  induction calls with
  | nil =>
    intro s hI _ hb
    exact ⟨s, rfl, trivial, used_memory_eq_ideal_sum hv s hI hb⟩
  | cons c cs ih =>
    intro s hI hwf hb
    obtain ⟨s1, hs1, hI1⟩ := step_preserves pf 0 s c (Or.inr hv) hI hwf.1
    have hwf1 : WellFormed pf s1 cs := by
      have := hwf.2
      rw [hs1] at this
      exact this
    have hb1 : Bounded pf s1 cs := by
      have := hb.2
      rw [hs1] at this
      exact this
    obtain ⟨s2, hs2, hn2, hu2⟩ := ih s1 hI1 hwf1 hb1
    refine ⟨s2, ?_, ?_, hu2⟩
    · simp only [run, hs1]
      exact hs2
    · unfold NoUnderflow
      rw [hs1]
      exact ⟨subtrahend_le hv s c hI hb.1 hwf.1, hn2⟩

/-- C17, the claim as stated fails: on the 64-bit ABI, from the initial state,
`p = zmalloc(2^64 - 8)` followed by `zrealloc(p, 1)` is a well-formed sequence;
the sizes `zmalloc_size` reports for the live pointers sum to 0, 0 and 16 at
the three points of the run, all below `2^64`; yet `zrealloc` subtracts
`2^64 - 8` from a counter that holds 0. -/
theorem zrealloc_subtraction_can_wrap :
    State.init.used_memory = 0 ∧
    WellFormed lp64 State.init [Call.zmalloc (2 ^ 64 - 8) 4096, Call.zrealloc 4104 1 4096] ∧
    accounted_total lp64 State.init = 0 ∧
    accounted_total lp64 (zmalloc lp64 State.init (2 ^ 64 - 8) 4096).st = 0 ∧
    accounted_total lp64
      (zrealloc lp64 (zmalloc lp64 State.init (2 ^ 64 - 8) 4096).st 4104 1 4096).st = 16 ∧
    (zmalloc lp64 State.init (2 ^ 64 - 8) 4096).st.used_memory = 0 ∧
    (Call.zrealloc 4104 1 4096).subtrahend lp64 (zmalloc lp64 State.init (2 ^ 64 - 8) 4096).st
      = 2 ^ 64 - 8 ∧
    ¬ NoUnderflow lp64 State.init [Call.zmalloc (2 ^ 64 - 8) 4096, Call.zrealloc 4104 1 4096] := by
  refine ⟨rfl, by decide, by decide, by decide, by decide, by decide, by decide, by decide⟩

/-- C17, amended: on a valid platform, start with the counter at zero and
nothing allocated, and run any well-formed sequence of calls during which the
accounted sizes of the live allocations, computed without wrap-around (each
request rounded up to a multiple of `sizeof(long)`, plus `PREFIX_SIZE`), always
sum to less than `2^w`.  The run completes; every subtraction, the one inside
`zrealloc` included, subtracts no more than the counter holds; and the counter
ends equal to that sum. -/
theorem counter_never_underflows (pf : Platform) (hv : pf.Valid) (s : State)
    (calls : List Call) (hu : s.used_memory = 0) (h0 : s.blocks = [])
    (hwf : WellFormed pf s calls) (hb : Bounded pf s calls) :
    ∃ s1, run pf s calls = some s1 ∧ NoUnderflow pf s calls ∧
      s1.used_memory = ideal_sum pf s1 :=
  no_underflow_of_bounded pf hv calls s (heapInv_of_empty pf s hu h0) hwf hb

theorem counter_never_underflows_witness :
    (State.init.used_memory = 0 ∧ State.init.blocks = [] ∧
      WellFormed lp64 State.init
        [Call.zmalloc 10 4096, Call.zcalloc 3 8192, Call.zrealloc 4104 100 12288,
          Call.zfree 8200, Call.zfree 12296] ∧
      Bounded lp64 State.init
        [Call.zmalloc 10 4096, Call.zcalloc 3 8192, Call.zrealloc 4104 100 12288,
          Call.zfree 8200, Call.zfree 12296]) ∧
    ∃ s1, run lp64 State.init
        [Call.zmalloc 10 4096, Call.zcalloc 3 8192, Call.zrealloc 4104 100 12288,
          Call.zfree 8200, Call.zfree 12296] = some s1 ∧
      NoUnderflow lp64 State.init
        [Call.zmalloc 10 4096, Call.zcalloc 3 8192, Call.zrealloc 4104 100 12288,
          Call.zfree 8200, Call.zfree 12296] ∧
      s1.used_memory = ideal_sum lp64 s1 :=
  ⟨⟨rfl, rfl, by decide, by decide⟩,
    counter_never_underflows lp64 lp64_valid State.init
      [Call.zmalloc 10 4096, Call.zcalloc 3 8192, Call.zrealloc 4104 100 12288,
        Call.zfree 8200, Call.zfree 12296] rfl rfl (by decide) (by decide)⟩

/-! ## Parsing `/proc/<pid>/stat` -/

theorem strchr_field (f t : List Nat) (h32 : 32 ∉ f) (h0 : 0 ∉ f) :
    strchr (f ++ 32 :: t) 32 = some (32 :: t) := by
  induction f with
  | nil => simp [strchr]
  | cons b f ih =>
    have hb32 : b ≠ 32 := fun h => h32 (by simp [h])
    have hb0 : b ≠ 0 := fun h => h0 (by simp [h])
    have h32' : 32 ∉ f := fun h => h32 (List.mem_cons_of_mem _ h)
    have h0' : 0 ∉ f := fun h => h0 (List.mem_cons_of_mem _ h)
    simp only [List.cons_append, strchr, if_neg hb32, if_neg hb0]
    exact ih h32' h0'

theorem skip_fields_fields :
    ∀ (fields : List (List Nat)) (s : List Nat), (∀ f ∈ fields, 32 ∉ f ∧ 0 ∉ f) →
      skip_fields fields.length (some ((fields.map (fun f => f ++ [32])).flatten ++ s))
        = some s := by
  intro fields
  induction fields with
  | nil => intro s _; rfl
  | cons f fs ih =>
    intro s hf
    have hf1 := hf f (List.mem_cons_self _ _)
    have hfs : ∀ g ∈ fs, 32 ∉ g ∧ 0 ∉ g := fun g hg => hf g (List.mem_cons_of_mem _ hg)
    have hshape : ((f :: fs).map (fun f => f ++ [32])).flatten ++ s
        = f ++ 32 :: ((fs.map (fun f => f ++ [32])).flatten ++ s) := by
      simp
    rw [hshape]
    simp only [List.length_cons, skip_fields, strchr_field f _ hf1.1 hf1.2, Option.map_some',
      List.tail_cons]
    exact ih s hfs

theorem take_field (f t : List Nat) :
    (f ++ 32 :: t).take ((f ++ 32 :: t).length - (32 :: t).length) = f := by
  have h : (f ++ 32 :: t).length - (32 :: t).length = f.length := by
    simp
  rw [h, List.take_left']
  rfl

/-- When the text has 23 fields, each followed by a space, then a field and a
space, the probe converts that field and scales it by the page size. -/
theorem proc_stat_parsed (pf : Platform) (page : Nat) (fd nread : Int)
    (fields : List (List Nat)) (field rest : List Nat)
    (hfd : fd ≠ -1) (hn : 0 < nread) (hlen : fields.length = 23)
    (hf : ∀ f ∈ fields, 32 ∉ f ∧ 0 ∉ f) (h32 : 32 ∉ field) (h0 : 0 ∉ field) :
    zmalloc_get_rss_proc_stat pf page fd nread
        ((fields.map (fun f => f ++ [32])).flatten ++ (field ++ 32 :: rest))
      = ((strtoll pf field % (pf.SIZE_MOD : Int)).toNat * page) % pf.SIZE_MOD := by
  have hskip := skip_fields_fields fields (field ++ 32 :: rest) hf
  rw [hlen] at hskip
  unfold zmalloc_get_rss_proc_stat
  rw [if_neg hfd, if_neg (not_le.mpr hn), hskip]
  simp only [strchr_field field rest h32 h0, take_field]

theorem decimal_value_cons (c : Nat) (ds : List Nat) :
    decimal_value (c :: ds) = (c - 48) * 10 ^ ds.length + decimal_value ds := by
  unfold decimal_value
  rw [List.reverse_cons, List.map_append, Nat.ofDigits_append]
  simp [Nat.ofDigits_singleton, Nat.mul_comm, Nat.add_comm]

theorem digits_value_digits :
    ∀ (ds : List Nat) (acc : Nat) (tl : List Nat), (∀ c ∈ ds, isdigit c = true) →
      (∀ c t, tl = c :: t → isdigit c = false) →
      digits_value (ds ++ tl) acc = acc * 10 ^ ds.length + decimal_value ds := by
  intro ds
  induction ds with
  | nil =>
    intro acc tl _ htl
    cases tl with
    | nil => simp [digits_value, decimal_value]
    | cons c t => simp [digits_value, decimal_value, htl c t rfl]
  | cons d ds ih =>
    intro acc tl hds htl
    have hd : isdigit d = true := hds d (List.mem_cons_self _ _)
    have hds' : ∀ c ∈ ds, isdigit c = true := fun c hc => hds c (List.mem_cons_of_mem _ hc)
    have hstep : digits_value (d :: ds ++ tl) acc
        = digits_value (ds ++ tl) (acc * 10 + (d - 48)) := by
      simp [digits_value, hd]
    rw [hstep, ih _ tl hds' htl, decimal_value_cons, List.length_cons, pow_succ]
    ring

theorem LLONG_MAX_nonneg (pf : Platform) : 0 ≤ LLONG_MAX pf := by
  unfold LLONG_MAX
  have : (1 : Int) ≤ 2 ^ (8 * pf.sizeof_long_long - 1) := one_le_pow₀ (by norm_num)
  omega

theorem isdigit_not_space_sign (d : Nat) (hd : isdigit d = true) :
    isspace d = false ∧ d ≠ 45 ∧ d ≠ 43 := by
  simp only [isdigit, Bool.and_eq_true, decide_eq_true_eq] at hd
  refine ⟨?_, by omega, by omega⟩
  simp only [isspace, Bool.or_eq_false_iff, beq_eq_false_iff_ne, ne_eq, Bool.and_eq_false_iff,
    decide_eq_false_iff_not, not_le]
  omega

/-- A field that starts with decimal digits is converted to the value of those
digits, capped at `LLONG_MAX`; what follows the digits is ignored. -/
theorem strtoll_digits (pf : Platform) (d : Nat) (ds tl : List Nat)
    (hds : ∀ c ∈ d :: ds, isdigit c = true) (htl : ∀ c t, tl = c :: t → isdigit c = false) :
    strtoll pf (d :: ds ++ tl) = min (decimal_value (d :: ds) : Int) (LLONG_MAX pf) := by
  obtain ⟨hsp, h45, h43⟩ := isdigit_not_space_sign d (hds d (List.mem_cons_self _ _))
  have hdw : (d :: ds ++ tl).dropWhile isspace = d :: ds ++ tl := by
    simp [List.dropWhile, hsp]
  have hval := digits_value_digits (d :: ds) 0 tl hds htl
  simp only [Nat.zero_mul, Nat.zero_add] at hval
  unfold strtoll
  simp only [hdw]
  rw [if_neg (by simpa using h45), if_neg (by simpa using h43), hval]

/-- A field that is empty, or starts with a character that is neither a digit,
nor white space, nor a sign, is converted to 0. -/
theorem strtoll_nonnumeric (pf : Platform) (field : List Nat)
    (h : field = [] ∨ ∃ c t, field = c :: t ∧ isdigit c = false ∧ isspace c = false ∧
      c ≠ 45 ∧ c ≠ 43) :
    strtoll pf field = 0 := by
  have hmax := LLONG_MAX_nonneg pf
  rcases h with h | ⟨c, t, h, hd, hsp, h45, h43⟩
  · subst h
    simp [strtoll, digits_value, hmax]
  · subst h
    have hdw : (c :: t).dropWhile isspace = c :: t := by
      simp [List.dropWhile, hsp]
    unfold strtoll
    simp only [hdw]
    rw [if_neg (by simpa using h45), if_neg (by simpa using h43)]
    simp [digits_value, hd, hmax]

theorem takeWhile_nonzero_cons (b : Nat) (t : List Nat) (hb : b ≠ 0) :
    (b :: t).takeWhile (fun b => b != 0) = b :: t.takeWhile (fun b => b != 0) := by
  simp [List.takeWhile_cons, hb]

theorem skip_fields_none : ∀ k : Nat, skip_fields k none = none := by
  intro k
  cases k <;> rfl

theorem strchr_none_of_no_space :
    ∀ s : List Nat, (s.takeWhile (fun b => b != 0)).count 32 = 0 → strchr s 32 = none := by
  intro s
  induction s with
  | nil => intro _; rfl
  | cons b t ih =>
    intro h
    by_cases hb0 : b = 0
    · subst hb0
      simp [strchr]
    · rw [takeWhile_nonzero_cons b t hb0] at h
      by_cases hb32 : b = 32
      · subst hb32
        simp at h
      · rw [List.count_cons_of_ne (Ne.symm hb32)] at h
        simp only [strchr, if_neg hb32, if_neg hb0]
        exact ih h

theorem strchr_some_count :
    ∀ (s x : List Nat), strchr s 32 = some x →
      ∃ t, x = 32 :: t ∧
        (s.takeWhile (fun b => b != 0)).count 32
          = (t.takeWhile (fun b => b != 0)).count 32 + 1 := by
  intro s
  induction s with
  | nil => intro x h; simp [strchr] at h
  | cons b t ih =>
    intro x h
    by_cases hb32 : b = 32
    · subst hb32
      simp only [strchr, if_true, Option.some.injEq] at h
      refine ⟨t, h.symm, ?_⟩
      rw [takeWhile_nonzero_cons 32 t (by decide), List.count_cons_self]
    · by_cases hb0 : b = 0
      · subst hb0
        simp [strchr] at h
      · simp only [strchr, if_neg hb32, if_neg hb0] at h
        obtain ⟨t', hx, hc⟩ := ih x h
        refine ⟨t', hx, ?_⟩
        rw [takeWhile_nonzero_cons b t hb0, List.count_cons_of_ne (Ne.symm hb32)]
        exact hc

theorem too_few_spaces :
    ∀ (k : Nat) (s : List Nat), (s.takeWhile (fun b => b != 0)).count 32 ≤ k →
      (skip_fields k (some s)).bind (fun p => strchr p 32) = none := by
  intro k
  induction k with
  | zero =>
    intro s h
    simp only [skip_fields, Option.some_bind]
    exact strchr_none_of_no_space s (Nat.le_zero.mp h)
  | succ k ih =>
    intro s h
    simp only [skip_fields]
    cases hx : strchr s 32 with
    | none => simp [skip_fields_none]
    | some x =>
      obtain ⟨t, hxt, hc⟩ := strchr_some_count s x hx
      subst hxt
      simp only [Option.map_some', List.tail_cons]
      exact ih t (by omega)

theorem proc_stat_too_few_spaces (pf : Platform) (page : Nat) (fd nread : Int) (buf : List Nat)
    (h : (buf.takeWhile (fun b => b != 0)).count 32 < 24) :
    zmalloc_get_rss_proc_stat pf page fd nread buf = 0 := by
  have hb := too_few_spaces 23 buf (by omega)
  unfold zmalloc_get_rss_proc_stat
  split_ifs
  · rfl
  · rfl
  · cases hs : skip_fields 23 (some buf) with
    | none => rfl
    | some p =>
      rw [hs] at hb
      simp only [Option.some_bind] at hb
      simp only [hb]

theorem digits_no_space_nul (field : List Nat) (hdig : ∀ c ∈ field, isdigit c = true) :
    32 ∉ field ∧ 0 ∉ field := by
  constructor
  · intro h
    have := hdig 32 h
    simp [isdigit] at this
  · intro h
    have := hdig 0 h
    simp [isdigit] at this

theorem size_t_of_nat_mul (pf : Platform) (v page : Nat) :
    ((((v : Int) % (pf.SIZE_MOD : Int)).toNat) * page) % pf.SIZE_MOD
      = (v * page) % pf.SIZE_MOD := by
  have h : ((v : Int) % (pf.SIZE_MOD : Int)).toNat = v % pf.SIZE_MOD := by
    rw [← Int.natCast_mod, Int.toNat_natCast]
  rw [h, Nat.mod_mul_mod]

/-- C13, the claim as stated fails: a text with 24 spaces whose 24th field is
the decimal integer `9223372036854775808` (that is `2^63`), read with 4096-byte
pages on the 64-bit ABI.  `strtoll` caps the value at `LLONG_MAX`, so the probe
returns `2^64 - 4096`, whereas `2^63 * 4096` modulo `2^64` is 0. -/
theorem proc_stat_field_above_llong_max :
    (sample_fields 23 ++ ([57, 50, 50, 51, 51, 55, 50, 48, 51, 54, 56, 53, 52, 55, 55, 53, 56,
        48, 56] ++ [32, 120])).count 32 = 24 ∧
    (∀ c ∈ [57, 50, 50, 51, 51, 55, 50, 48, 51, 54, 56, 53, 52, 55, 55, 53, 56, 48, 56],
      isdigit c = true) ∧
    decimal_value [57, 50, 50, 51, 51, 55, 50, 48, 51, 54, 56, 53, 52, 55, 55, 53, 56, 48, 56]
      = 2 ^ 63 ∧
    zmalloc_get_rss_proc_stat lp64 4096 3 70
        (sample_fields 23 ++ ([57, 50, 50, 51, 51, 55, 50, 48, 51, 54, 56, 53, 52, 55, 55, 53, 56,
          48, 56] ++ [32, 120])) = 2 ^ 64 - 4096 ∧
    zmalloc_get_rss_proc_stat lp64 4096 3 70
        (sample_fields 23 ++ ([57, 50, 50, 51, 51, 55, 50, 48, 51, 54, 56, 53, 52, 55, 55, 53, 56,
          48, 56] ++ [32, 120])) ≠ (2 ^ 63 * 4096) % lp64.SIZE_MOD := by
  refine ⟨by decide, by decide, by decide, by decide, by decide⟩

/-- C13, amended: let the text at `buf` consist of 23 fields free of spaces and
NULs, each followed by a space, then a non-empty field of decimal digits whose
value `v` does not exceed `LLONG_MAX`, then a space.  When `open` and `read`
succeed, `zmalloc_get_rss()` returns `v` times the page size, in `size_t`
arithmetic. -/
theorem proc_stat_rss_field (pf : Platform) (page : Nat) (fd nread : Int)
    (fields : List (List Nat)) (field rest : List Nat)
    (hfd : fd ≠ -1) (hn : 0 < nread) (hlen : fields.length = 23)
    (hf : ∀ f ∈ fields, 32 ∉ f ∧ 0 ∉ f)
    (hne : field ≠ []) (hdig : ∀ c ∈ field, isdigit c = true)
    (hmax : (decimal_value field : Int) ≤ LLONG_MAX pf) :
    zmalloc_get_rss_proc_stat pf page fd nread
        ((fields.map (fun f => f ++ [32])).flatten ++ (field ++ 32 :: rest))
      = (decimal_value field * page) % pf.SIZE_MOD := by
  obtain ⟨h32, h0⟩ := digits_no_space_nul field hdig
  rw [proc_stat_parsed pf page fd nread fields field rest hfd hn hlen hf h32 h0]
  cases field with
  | nil => exact absurd rfl hne
  | cons d ds =>
    have hs := strtoll_digits pf d ds [] hdig (by intro c t h; cases h)
    rw [List.append_nil] at hs
    rw [hs, min_eq_left hmax, size_t_of_nat_mul]

theorem proc_stat_rss_field_witness :
    ((3 : Int) ≠ -1 ∧ (0 : Int) < 60 ∧ (List.replicate 23 [97]).length = 23 ∧
      (∀ f ∈ List.replicate 23 [97], 32 ∉ f ∧ 0 ∉ f) ∧
      [49, 50, 51] ≠ [] ∧ (∀ c ∈ [49, 50, 51], isdigit c = true) ∧
      (decimal_value [49, 50, 51] : Int) ≤ LLONG_MAX lp64) ∧
    zmalloc_get_rss_proc_stat lp64 4096 3 60
        (((List.replicate 23 [97]).map (fun f => f ++ [32])).flatten
          ++ ([49, 50, 51] ++ 32 :: [120, 10]))
      = (decimal_value [49, 50, 51] * 4096) % lp64.SIZE_MOD :=
  ⟨⟨by decide, by decide, by decide, by decide, by decide, by decide, by decide⟩,
    proc_stat_rss_field lp64 4096 3 60 (List.replicate 23 [97]) [49, 50, 51] [120, 10]
      (by decide) (by decide) (by decide) (by decide) (by decide) (by decide) (by decide)⟩

theorem proc_stat_open_failed (pf : Platform) (page : Nat) (nread : Int) (buf : List Nat) :
    zmalloc_get_rss_proc_stat pf page (-1) nread buf = 0 := by
  simp [zmalloc_get_rss_proc_stat]

theorem proc_stat_read_failed (pf : Platform) (page : Nat) (fd nread : Int) (buf : List Nat)
    (hn : nread ≤ 0) : zmalloc_get_rss_proc_stat pf page fd nread buf = 0 := by
  unfold zmalloc_get_rss_proc_stat
  split_ifs <;> rfl

/-- C19, the claim as stated fails: a text with 24 spaces whose 24th field is
`12ab`, digits followed by other characters, read with 4096-byte pages.  The
probe returns `12 * 4096`, not 0. -/
theorem proc_stat_digits_then_letters :
    (sample_fields 23 ++ ([49, 50, 97, 98] ++ [32, 120])).count 32 = 24 ∧
    zmalloc_get_rss_proc_stat lp64 4096 3 60
        (sample_fields 23 ++ ([49, 50, 97, 98] ++ [32, 120])) = 12 * 4096 ∧
    zmalloc_get_rss_proc_stat lp64 4096 3 60
        (sample_fields 23 ++ ([49, 50, 97, 98] ++ [32, 120])) ≠ 0 := by
  refine ⟨by decide, by decide, by decide⟩

/-- C19, amended: `zmalloc_get_rss()` returns 0 when `open` fails; when `read`
returns no bytes or an error; when the string at `buf` has fewer than 24
spaces before its NUL; and when, after 23 space-terminated fields, the field
before the next space is empty or starts with a character that is neither a
digit, nor white space, nor a sign.  When that field starts with digits and
continues with other characters, the result is not 0 but the value of the
leading digits (if at most `LLONG_MAX`) times the page size, in `size_t`
arithmetic. -/
theorem proc_stat_failure_cases (pf : Platform) (page : Nat) (fd nread : Int)
    (buf : List Nat) (fields : List (List Nat)) (bad rest : List Nat)
    (d c : Nat) (ds junk : List Nat)
    (hlen : fields.length = 23) (hf : ∀ f ∈ fields, 32 ∉ f ∧ 0 ∉ f)
    (hbad : bad = [] ∨ ∃ b t, bad = b :: t ∧ isdigit b = false ∧ isspace b = false ∧
      b ≠ 45 ∧ b ≠ 43)
    (hbad32 : 32 ∉ bad) (hbad0 : 0 ∉ bad)
    (hds : ∀ x ∈ d :: ds, isdigit x = true) (hc : isdigit c = false)
    (hc32 : c ≠ 32) (hc0 : c ≠ 0) (hj32 : 32 ∉ junk) (hj0 : 0 ∉ junk)
    (hmax : (decimal_value (d :: ds) : Int) ≤ LLONG_MAX pf) :
    zmalloc_get_rss_proc_stat pf page (-1) nread buf = 0 ∧
    (nread ≤ 0 → zmalloc_get_rss_proc_stat pf page fd nread buf = 0) ∧
    ((buf.takeWhile (fun b => b != 0)).count 32 < 24 →
      zmalloc_get_rss_proc_stat pf page fd nread buf = 0) ∧
    zmalloc_get_rss_proc_stat pf page fd nread
        ((fields.map (fun f => f ++ [32])).flatten ++ (bad ++ 32 :: rest)) = 0 ∧
    (fd ≠ -1 → 0 < nread →
      zmalloc_get_rss_proc_stat pf page fd nread
          ((fields.map (fun f => f ++ [32])).flatten ++ ((d :: ds ++ c :: junk) ++ 32 :: rest))
        = (decimal_value (d :: ds) * page) % pf.SIZE_MOD) := by
  refine ⟨proc_stat_open_failed pf page nread buf,
    proc_stat_read_failed pf page fd nread buf,
    proc_stat_too_few_spaces pf page fd nread buf, ?_, ?_⟩
  · by_cases hfd : fd = -1
    · subst hfd
      exact proc_stat_open_failed pf page nread _
    · by_cases hn : nread ≤ 0
      · exact proc_stat_read_failed pf page fd nread _ hn
      · rw [proc_stat_parsed pf page fd nread fields bad rest hfd (not_le.mp hn) hlen hf
          hbad32 hbad0, strtoll_nonnumeric pf bad hbad]
        simp
  · intro hfd hn
    obtain ⟨hd32, hd0⟩ := digits_no_space_nul (d :: ds) hds
    have h32 : 32 ∉ d :: ds ++ c :: junk := by
      intro h
      rcases List.mem_append.mp h with h | h
      · exact hd32 h
      · rcases List.mem_cons.mp h with h | h
        · exact hc32 h.symm
        · exact hj32 h
    have h0 : 0 ∉ d :: ds ++ c :: junk := by
      intro h
      rcases List.mem_append.mp h with h | h
      · exact hd0 h
      · rcases List.mem_cons.mp h with h | h
        · exact hc0 h.symm
        · exact hj0 h
    rw [proc_stat_parsed pf page fd nread fields _ rest hfd hn hlen hf h32 h0,
      strtoll_digits pf d ds (c :: junk) hds
        (by intro c' t h; cases h; exact hc),
      min_eq_left hmax, size_t_of_nat_mul]

theorem proc_stat_failure_cases_witness :
    ((List.replicate 23 [97]).length = 23 ∧
      (∀ f ∈ List.replicate 23 [97], 32 ∉ f ∧ 0 ∉ f) ∧
      (([120, 121] : List Nat) = [] ∨ ∃ b t, ([120, 121] : List Nat) = b :: t ∧
        isdigit b = false ∧ isspace b = false ∧ b ≠ 45 ∧ b ≠ 43) ∧
      32 ∉ ([120, 121] : List Nat) ∧ 0 ∉ ([120, 121] : List Nat) ∧
      (∀ x ∈ 49 :: [50], isdigit x = true) ∧ isdigit 97 = false ∧ 97 ≠ 32 ∧ 97 ≠ 0 ∧
      32 ∉ ([98] : List Nat) ∧ 0 ∉ ([98] : List Nat) ∧
      (decimal_value (49 :: [50]) : Int) ≤ LLONG_MAX lp64) ∧
    (zmalloc_get_rss_proc_stat lp64 4096 (-1) 60 [49, 32, 50, 0] = 0 ∧
    ((60 : Int) ≤ 0 → zmalloc_get_rss_proc_stat lp64 4096 3 60 [49, 32, 50, 0] = 0) ∧
    ((([49, 32, 50, 0] : List Nat).takeWhile (fun b => b != 0)).count 32 < 24 →
      zmalloc_get_rss_proc_stat lp64 4096 3 60 [49, 32, 50, 0] = 0) ∧
    zmalloc_get_rss_proc_stat lp64 4096 3 60
        (((List.replicate 23 [97]).map (fun f => f ++ [32])).flatten
          ++ ([120, 121] ++ 32 :: [122])) = 0 ∧
    ((3 : Int) ≠ -1 → (0 : Int) < 60 →
      zmalloc_get_rss_proc_stat lp64 4096 3 60
          (((List.replicate 23 [97]).map (fun f => f ++ [32])).flatten
            ++ ((49 :: [50] ++ 97 :: [98]) ++ 32 :: [122]))
        = (decimal_value (49 :: [50]) * 4096) % lp64.SIZE_MOD)) :=
  ⟨⟨by decide, by decide, Or.inr ⟨120, [121], rfl, by decide, by decide, by decide, by decide⟩,
      by decide, by decide, by decide, by decide, by decide, by decide, by decide, by decide,
      by decide⟩,
    proc_stat_failure_cases lp64 4096 3 60 [49, 32, 50, 0] (List.replicate 23 [97]) [120, 121]
      [122] 49 97 [50] [98] (by decide) (by decide)
      (Or.inr ⟨120, [121], rfl, by decide, by decide, by decide, by decide⟩)
      (by decide) (by decide) (by decide) (by decide) (by decide) (by decide) (by decide)
      (by decide) (by decide)⟩

/-! ## What `Call.subtrahend` stands for -/

theorem zfree_subtracts (pf : Platform) (s : State) (p : Nat) (hp : p ≠ 0) :
    (zfree pf s p).used_memory
      = (s.used_memory + pf.SIZE_MOD - (Call.zfree p).subtrahend pf s % pf.SIZE_MOD)
          % pf.SIZE_MOD := by
  rw [zfree_live pf s p hp]
  simp [Call.subtrahend, hp, accounted]

theorem zrealloc_subtracts_then_adds (pf : Platform) (s : State) (p n r : Nat)
    (hp : p ≠ 0) (hr : r ≠ 0) :
    (zrealloc pf s p n r).st.used_memory
      = ((s.used_memory + pf.SIZE_MOD - (Call.zrealloc p n r).subtrahend pf s % pf.SIZE_MOD)
            % pf.SIZE_MOD
          + pad_to_long pf (n % pf.SIZE_MOD)) % pf.SIZE_MOD := by
  rw [zrealloc_success pf s p n r hp hr]
  simp [Call.subtrahend, hp, hr]

end Zmalloc
